import Mathlib

/-!
DU2 command-line parser: the UNIX convention and the dispatch loop.

A shallow embedding of `src/DU2_PARSER/unix.h` (class `UNIXConvention`) and of
`src/DU2_PARSER/du2_parser.h` (class `Parser`), followed by theorems about them.

Strings (`std::basic_string<ParserCharType>`) are lists of characters.
-/

namespace DU2

/-- The string type of the parser, `std::basic_string<ParserCharType>`. -/
abbrev parser_string := List Char

/-! ## The string operations used by the convention -/

/-- The member `find_first_of(c, pos)` of a string: the least index `i ≥ pos` with
`s[i] = c`; `none` stands for `StringType::npos` (no such index, also when `pos` is past
the end). -/
def find_first_of (s : parser_string) (c : Char) (pos : Nat) : Option Nat :=
  if pos + (s.drop pos).indexOf c < s.length then some (pos + (s.drop pos).indexOf c) else none

/-- The value of `StringType::npos`, the largest `size_t`. -/
def npos : Nat := 2 ^ 64 - 1

/-- The expression `modifier.size() - 1` in `size_t` arithmetic: on the empty string the
subtraction wraps around to the largest value. -/
def size_minus_one (s : parser_string) : Nat :=
  if s.length = 0 then npos else s.length - 1

/-- The member `substr(pos, count)` for `pos ≤ size()`: the characters from `pos` on, at most
`count` of them. (For `pos > size()` the member throws; the convention never calls it so:
`pos` is `0` or the index after a found character.) -/
def substr (s : parser_string) (pos count : Nat) : parser_string :=
  (s.drop pos).take count

/-! ## `UNIXConvention` (unix.h) -/

namespace UNIXConvention

/-- The function `makeModifier`: `assert(modifier_name.size())` fails on the empty name
(`none`); a name of size 1 gets the prefix `-`, any longer name the prefix `--`. -/
def makeModifier (modifier_name : parser_string) : Option parser_string :=
  if modifier_name.length = 0 then none
  else if modifier_name.length = 1 then some ('-' :: modifier_name)
  else some ('-' :: '-' :: modifier_name)

/-- The function `mayBeModifierWithParam`: `modifier.find_first_of('=', 2) != npos`. -/
def mayBeModifierWithParam (modifier : parser_string) : Bool :=
  (find_first_of modifier '=' 2).isSome

/-- The function `extractModifierName`: `substr(0, modifier_name_end)` where
`modifier_name_end` is `find_first_of('=', 2)`, replaced by `size() - 1` when that is `npos`. -/
def extractModifierName (modifier : parser_string) : parser_string :=
  let modifier_name_end :=
    match find_first_of modifier '=' 2 with
    | some i => i
    | none => size_minus_one modifier
  substr modifier 0 modifier_name_end

/-- The function `extractModifierParam`: `substr(modifier_param_begin, size() - 1)` where
`modifier_param_begin` is `find_first_of('=', 0) + 1`; the search starts at index 0, and
`npos + 1` wraps around to `0`. -/
def extractModifierParam (modifier : parser_string) : parser_string :=
  let modifier_param_begin :=
    match find_first_of modifier '=' 0 with
    | some i => i + 1
    | none => 0
  substr modifier modifier_param_begin (size_minus_one modifier)

end UNIXConvention

/-! ## Collaborators of `Parser` that are template parameters or live in other headers -/

/-- The template parameter `ConventionPolicy` of `Parser`: the four static functions the
parser calls on it. `makeModifier` is `none` where the convention fails fast. -/
structure ConventionPolicy where
  makeModifier : parser_string → Option parser_string
  mayBeModifierWithParam : parser_string → Bool
  extractModifierName : parser_string → parser_string
  extractModifierParam : parser_string → parser_string

/-- The class `UNIXConvention` as a `ConventionPolicy`. -/
def unix_convention : ConventionPolicy where
  makeModifier := UNIXConvention.makeModifier
  mayBeModifierWithParam := UNIXConvention.mayBeModifierWithParam
  extractModifierName := UNIXConvention.extractModifierName
  extractModifierParam := UNIXConvention.extractModifierParam

/-- The storage owned by the caller that the value functors write to: `bools a` is the `bool`
object at address `a` (what a `bool *` of value `a` points to), `rest` is all the other
storage, of a type chosen by the caller. -/
structure Memory (τ : Type) where
  bools : Nat → Bool
  rest : τ

/-- Modelled from the spec: the class `ParserValueFunctor` (parser_value_functor.h), of which
only the call `(*f)(std::string *)` appears in the sources. A functor takes no raw value
(the null pointer) or a raw text and writes to the storage it is bound to; `none` is an
exception escaping the call (a failed conversion). -/
abbrev ParserValueFunctor (τ : Type) := Option parser_string → Memory τ → Option (Memory τ)

/-- Modelled from the spec: the class `DefaultValueFunctor<bool*>` (default_value_functors.h)
built over `presence_trigger`: invoking it sets the bound boolean to true (the spec has it
invoked with no value only; the raw value is not looked at here). -/
def DefaultValueFunctor_bool {τ : Type} (presence_trigger : Nat) : ParserValueFunctor τ :=
  fun _ m => some { m with bools := Function.update m.bools presence_trigger true }

/-- The policy side of the template: the enumerators of `BadModifierPolicy` and
`UnknownModifierPolicy` (bad_modifier.h, unknown_modifier.h), the template argument
`HandleBadModifier`, and the static function `HandleUnknownModifier<parser_string>::deal`,
which is given the accumulated `app_args` and the token and answers with a code. The two
labels of each `switch` are distinct constants. -/
structure Policies where
  BadModifierPolicy_THROW_EXCEPTION : Int
  BadModifierPolicy_ERROR : Int
  UnknownModifierPolicy_THROW_EXCEPTION : Int
  UnknownModifierPolicy_ERROR : Int
  HandleBadModifier : Int
  deal : List parser_string → parser_string → Int
  bad_labels : BadModifierPolicy_THROW_EXCEPTION ≠ BadModifierPolicy_ERROR
  unknown_labels : UnknownModifierPolicy_THROW_EXCEPTION ≠ UnknownModifierPolicy_ERROR

/-! ## `Parser` (du2_parser.h): the registry -/

/-- The type `parser_string_set` (`std::set<parser_string>`), by membership. -/
abbrev parser_string_set := parser_string → Bool

/-- The member `insert` of `std::set`. -/
def parser_string_set_insert (s : parser_string_set) (x : parser_string) : parser_string_set :=
  fun k => if k = x then true else s k

/-- The type `functor_map` (`std::map<parser_string, ParserValueFunctor *>`), by lookup. -/
abbrev functor_map (τ : Type) := parser_string → Option (ParserValueFunctor τ)

/-- The member `insert` of `std::map`: a key that is already present keeps its value. -/
def functor_map_insert {τ : Type} (m : functor_map τ) (k : parser_string)
    (f : ParserValueFunctor τ) : functor_map τ :=
  fun x => if x = k then (match m x with | some g => some g | none => some f) else m x

/-- The data members of `Parser`. The pointer `in_args` is not a field: the vector it points
to is an argument and a result of `run`. -/
structure Parser (τ : Type) where
  value_functors : functor_map τ
  known_modifiers : parser_string_set
  modifiers_with_parameters : parser_string_set
  expect_arguments : Bool

namespace Parser

variable {τ : Type}

/-- The constructor `Parser()`: empty containers, `expect_arguments(false)`. -/
def new : Parser τ where
  value_functors := fun _ => none
  known_modifiers := fun _ => false
  modifiers_with_parameters := fun _ => false
  expect_arguments := false

/-- The member `addPresenceModifier(modifier, presence_trigger)`. -/
def addPresenceModifier (conv : ConventionPolicy) (p : Parser τ) (modifier : parser_string)
    (presence_trigger : Nat) : Option (Parser τ) :=
  match conv.makeModifier modifier with
  | none => none
  | some m =>
    some { p with
      value_functors := functor_map_insert p.value_functors m
        (DefaultValueFunctor_bool presence_trigger)
      known_modifiers := parser_string_set_insert p.known_modifiers m }

/-- The member `addModifier<ResultType>(modifier, target_memory)`; `functor` is the object
`new DefaultValueFunctor<ResultType>(target_memory)`. -/
def addModifier (conv : ConventionPolicy) (p : Parser τ) (modifier : parser_string)
    (functor : ParserValueFunctor τ) : Option (Parser τ) :=
  match conv.makeModifier modifier with
  | none => none
  | some m =>
    some { p with
      value_functors := functor_map_insert p.value_functors m functor
      known_modifiers := parser_string_set_insert p.known_modifiers m
      modifiers_with_parameters := parser_string_set_insert p.modifiers_with_parameters m }

/-- The member `addCustomModifier<ResultType, ValueFunctorType>(modifier, target_memory)`;
`functor` is the object `new ValueFunctorType<ResultType>(target_memory)`. -/
def addCustomModifier (conv : ConventionPolicy) (p : Parser τ) (modifier : parser_string)
    (functor : ParserValueFunctor τ) : Option (Parser τ) :=
  match conv.makeModifier modifier with
  | none => none
  | some m =>
    some { p with
      value_functors := functor_map_insert p.value_functors m functor
      known_modifiers := parser_string_set_insert p.known_modifiers m
      modifiers_with_parameters := parser_string_set_insert p.modifiers_with_parameters m }

/-- The member `putArgumentsInto(input_args)`. -/
def putArgumentsInto (p : Parser τ) : Parser τ :=
  { p with expect_arguments := true }

end Parser

/-! ## `Parser::run` -/

/-- How a call of `run` ends. -/
inductive Exit
  /-- the loop ended and `run` fell off its end (line 185) -/
  | returned
  /-- a `throw` of `run` itself, with the thrown text -/
  | thrown (what : String)
  /-- text written to `std::cerr`, followed by `return` -/
  | reported (what : String)
  /-- an exception escaping a value functor -/
  | functor_threw
  /-- undefined behaviour: `argv[0]` is null, or `value_functors[key]` has no functor
  (`operator[]` then yields a null pointer, which is called through) -/
  | undefined
  deriving DecidableEq, Repr

/-- The local state of `run` and the caller's storage. Three fields are a record of what
the loop did and are never read by it: `visited` (the values of `pc` at which an iteration
started), `calls` (the functor calls: key looked up in `value_functors`, raw value) and
`dealt` (the values of `pc` whose token was passed to `HandleUnknownModifier::deal`). -/
structure RunState (τ : Type) where
  pc : Nat
  app_args : List parser_string
  store : Memory τ
  visited : List Nat
  calls : List (parser_string × Option parser_string)
  dealt : List Nat

/-- The result of one iteration of the `while` loop. -/
inductive StepResult (τ : Type)
  /-- the iteration reached `pc++` at line 178, which is already applied -/
  | next (s : RunState τ)
  /-- the iteration left `run` -/
  | stop (e : Exit) (s : RunState τ)

variable {τ : Type}

/-- The call `(*value_functors[key])(raw)`, followed, when it returns, by moving the cursor to
`pc'`. -/
def invoke (p : Parser τ) (key : parser_string) (raw : Option parser_string) (pc' : Nat)
    (s : RunState τ) : StepResult τ :=
  match p.value_functors key with
  | none => .stop .undefined s
  | some f =>
    match f raw s.store with
    | none => .stop .functor_threw { s with calls := s.calls ++ [(key, raw)] }
    | some m => .next { s with pc := pc', store := m, calls := s.calls ++ [(key, raw)] }

/-- The call `HandleUnknownModifier<parser_string>::deal(app_args, argv[pc])` and the `switch`
on its result (lines 152-159 and 167-174). -/
def handle_unknown (cfg : Policies) (tok : parser_string) (s : RunState τ) : StepResult τ :=
  let to_do := cfg.deal s.app_args tok
  let s' := { s with dealt := s.dealt ++ [s.pc] }
  if to_do = cfg.UnknownModifierPolicy_THROW_EXCEPTION then .stop (.thrown "unknown modifier") s'
  else if to_do = cfg.UnknownModifierPolicy_ERROR then .stop (.reported "unknown modifier") s'
  else .next { s' with pc := s.pc + 1 }

/-- The start of an iteration: the current `pc` is recorded in `visited`. -/
def enter (s : RunState τ) : RunState τ :=
  { s with visited := s.visited ++ [s.pc] }

/-- One iteration of the loop of `run` (lines 114-178), entered with `pc < argc`; `argc` is
the length of `argv`. -/
def step (conv : ConventionPolicy) (p : Parser τ) (cfg : Policies) (argv : List parser_string)
    (s0 : RunState τ) : StepResult τ :=
  let s := enter s0
  let tok := argv.getD s.pc []
  if p.known_modifiers tok = true then
    if p.modifiers_with_parameters tok = true then
      if s.pc ≠ argv.length - 1 then
        invoke p tok (some (argv.getD (s.pc + 1) [])) (s.pc + 1 + 1) s
      else if cfg.HandleBadModifier = cfg.BadModifierPolicy_THROW_EXCEPTION then
        .stop (.thrown "modifier missing argument") s
      else if cfg.HandleBadModifier = cfg.BadModifierPolicy_ERROR then
        .stop (.reported "modifier missing argument") s
      else
        .next { s with pc := s.pc + 1 }
    else
      invoke p tok none (s.pc + 1) s
  else if conv.mayBeModifierWithParam tok = true then
    let possible_modifier_name := conv.extractModifierName tok
    if p.modifiers_with_parameters possible_modifier_name = true then
      let possible_modifier_param := conv.extractModifierParam tok
      invoke p possible_modifier_name (some possible_modifier_param) (s.pc + 1) s
    else
      handle_unknown cfg tok s
  else if p.expect_arguments = true then
    .next { s with pc := s.pc + 1, app_args := s.app_args ++ [tok] }
  else
    handle_unknown cfg tok s

/-- The `while (pc < argc)` loop, at most `fuel` tests of its condition; `none` when the
fuel is used up before the loop is left. -/
def run_loop (conv : ConventionPolicy) (p : Parser τ) (cfg : Policies)
    (argv : List parser_string) : Nat → RunState τ → Option (Exit × RunState τ)
  | 0, _ => none
  | fuel + 1, s =>
    if s.pc < argv.length then
      match step conv p cfg argv s with
      | .next s' => run_loop conv p cfg argv fuel s'
      | .stop e s' => some (e, s')
    else some (.returned, s)

/-- What the caller sees after `run`: how it ended, the last state of the loop, and the
content of the vector `*in_args`. -/
structure RunResult (τ : Type) where
  exit : Exit
  final : RunState τ
  in_args : List parser_string

/-- The state before the first iteration: `pc = 1`, `app_args` holding `argv[0]`. -/
def initial (argv : List parser_string) (store : Memory τ) : RunState τ where
  pc := 1
  app_args := [argv.getD 0 []]
  store := store
  visited := []
  calls := []
  dealt := []

/-- The assignment `*in_args = app_args` under `if (expect_arguments)` (lines 182-184), reached
only when the loop ends; `out` is the content of `*in_args` before the call. -/
def publish (p : Parser τ) (out : List parser_string) (e : Exit) (s : RunState τ) :
    List parser_string :=
  if e = .returned ∧ p.expect_arguments = true then s.app_args else out

/-- The member `run(argv, argc)` with `argc = argv.length`, on the caller's storage `store`
and with `out` the content of `*in_args` before the call. The loop gets `argc` as fuel. -/
def run (conv : ConventionPolicy) (p : Parser τ) (cfg : Policies) (argv : List parser_string)
    (store : Memory τ) (out : List parser_string) : Option (RunResult τ) :=
  if argv.length = 0 then some ⟨.undefined, initial argv store, out⟩
  else
    match run_loop conv p cfg argv argv.length (initial argv store) with
    | none => none
    | some (e, s) => some ⟨e, s, publish p out e s⟩


/-! ## Registries as the caller builds them, and the states the loop goes through -/

/-- A registration call with its arguments; for `typed` and `custom` the functor object that
the call creates stands for the target and the conversion. -/
inductive Declaration (τ : Type)
  /-- the call `addPresenceModifier(modifier, presence_trigger)` -/
  | presence (modifier : parser_string) (presence_trigger : Nat)
  /-- the call `addModifier<ResultType>(modifier, target_memory)` -/
  | typed (modifier : parser_string) (functor : ParserValueFunctor τ)
  /-- the call `addCustomModifier<ResultType, ValueFunctorType>(modifier, target_memory)` -/
  | custom (modifier : parser_string) (functor : ParserValueFunctor τ)

/-- The name given to a registration call. -/
def Declaration.modifier : Declaration τ → parser_string
  | .presence m _ => m
  | .typed m _ => m
  | .custom m _ => m

/-- Whether the call registers a flag that requires a value (all but `addPresenceModifier`). -/
def Declaration.requires_value : Declaration τ → Bool
  | .presence _ _ => false
  | .typed _ _ => true
  | .custom _ _ => true

/-- The functor object that the call creates and hands to `value_functors.insert`. -/
def Declaration.functor : Declaration τ → ParserValueFunctor τ
  | .presence _ a => DefaultValueFunctor_bool a
  | .typed _ f => f
  | .custom _ f => f

/-- Performing a registration call on a parser. -/
def Parser.declare (conv : ConventionPolicy) (p : Parser τ) : Declaration τ → Option (Parser τ)
  | .presence m a => p.addPresenceModifier conv m a
  | .typed m f => p.addModifier conv m f
  | .custom m f => p.addCustomModifier conv m f

/-- The parsers a caller can build: `Built conv ds p` when `p` results from `Parser()` by the
registration calls `ds`, in this order, with calls of `putArgumentsInto` anywhere between. -/
inductive Built (conv : ConventionPolicy) : List (Declaration τ) → Parser τ → Prop
  | new : Built conv [] Parser.new
  | declare {ds : List (Declaration τ)} {p p' : Parser τ} {d : Declaration τ} :
      Built conv ds p → p.declare conv d = some p' → Built conv (ds ++ [d]) p'
  | putArgumentsInto {ds : List (Declaration τ)} {p : Parser τ} :
      Built conv ds p → Built conv ds p.putArgumentsInto

/-- The calls `addPresenceModifier(n, a)` for the pairs `(n, a)` of a list. -/
def presence_calls (decls : List (parser_string × Nat)) : List (Declaration τ) :=
  decls.map fun d => .presence d.1 d.2

/-- One iteration of the loop takes `s` to `s'`: the loop condition holds in `s` and the
iteration reaches `pc++`. -/
def Next (conv : ConventionPolicy) (p : Parser τ) (cfg : Policies) (argv : List parser_string)
    (s s' : RunState τ) : Prop :=
  s.pc < argv.length ∧ step conv p cfg argv s = .next s'

/-- The states in which `run`, called on `argv` and `store`, tests its loop condition. -/
def Reachable (conv : ConventionPolicy) (p : Parser τ) (cfg : Policies)
    (argv : List parser_string) (store : Memory τ) (s : RunState τ) : Prop :=
  Relation.ReflTransGen (Next conv p cfg argv) (initial argv store) s

/-! ## Deleting tokens from a vector, and iterations of two runs that go together -/

/-- The list `l`, whose first element has index `k`, without the elements whose index is in
`idx`. -/
def delete_from (idx : List Nat) : Nat → List parser_string → List parser_string
  | _, [] => []
  | k, x :: xs =>
    if k ∈ idx then delete_from idx (k + 1) xs else x :: delete_from idx (k + 1) xs

/-- The vector `argv` without the tokens at the indices in `idx`. -/
def delete_indices (argv : List parser_string) (idx : List Nat) : List parser_string :=
  delete_from idx 0 argv

/-- Two states, of runs on two vectors, that agree on `app_args`, the storage and the calls. -/
def Agree (s s' : RunState τ) : Prop :=
  s'.app_args = s.app_args ∧ s'.store = s.store ∧ s'.calls = s.calls

/-- Two iterations, from `s` and from `s'`, that go together: both reach `pc++` having moved
the cursor by `k`, or both leave `run` in the same way; the states they end in agree, and
neither iteration gave a token to the unknown-token handler. -/
def InSync (k : Nat) (s s' : RunState τ) (r r' : StepResult τ) : Prop :=
  match r, r' with
  | .next s1, .next s1' =>
    s1.pc = s.pc + k ∧ s1'.pc = s'.pc + k ∧ Agree s1 s1' ∧ s1.dealt = s.dealt ∧
      s1'.dealt = s'.dealt
  | .stop e t1, .stop e' t1' =>
    e = e' ∧ Agree t1 t1' ∧ t1.dealt = s.dealt ∧ t1'.dealt = s'.dealt
  | _, _ => False

/-- The key under which an iteration on the token `tok` looks up a functor, if it looks up
one: the token itself when it is a known spelling (lines 116-141), the extracted name when
the token has the inline-valued shape and that name is a spelling with parameter (lines
142-149), none otherwise. -/
def dispatch_key (conv : ConventionPolicy) (p : Parser τ) (tok : parser_string) :
    Option parser_string :=
  if p.known_modifiers tok = true then some tok
  else if conv.mayBeModifierWithParam tok = true ∧
      p.modifiers_with_parameters (conv.extractModifierName tok) = true then
    some (conv.extractModifierName tok)
  else none

/-! ## Sample collaborators, used in the concrete instances of the theorems -/

/-- Policies with the codes `THROW_EXCEPTION = 0` and `ERROR = 1` in both enumerations, the
template argument `HandleBadModifier = bad`, and a handler that answers `to_do` whatever it
is given. -/
def sample_policies (bad to_do : Int) : Policies where
  BadModifierPolicy_THROW_EXCEPTION := 0
  BadModifierPolicy_ERROR := 1
  UnknownModifierPolicy_THROW_EXCEPTION := 0
  UnknownModifierPolicy_ERROR := 1
  HandleBadModifier := bad
  deal := fun _ _ => to_do
  bad_labels := by decide
  unknown_labels := by decide

/-- A value functor over a storage that is a list of texts: it appends the raw value, and
throws when called without one. -/
def record_value : ParserValueFunctor (List parser_string) :=
  fun raw m =>
    match raw with
    | some v => some { m with rest := m.rest ++ [v] }
    | none => none

/-- A storage with every boolean false and no text recorded. -/
def empty_memory : Memory (List parser_string) where
  bools := fun _ => false
  rest := []

/-- The parser with the one value-requiring flag `count`, registered by `addCustomModifier`
with the functor `record_value`; its canonical spelling is `--count`. -/
def count_registry : Parser (List parser_string) :=
  (Parser.new.addCustomModifier unix_convention "count".toList record_value).getD Parser.new

/-- The parser built from `Parser()` by the calls `addPresenceModifier(n, a)` for the pairs
`(n, a)` of a list, under the UNIX convention (a call that fails is left out). -/
def presence_registry (decls : List (parser_string × Nat)) : Parser (List parser_string) :=
  decls.foldl (fun p d => (p.addPresenceModifier unix_convention d.1 d.2).getD p) Parser.new

/-- The parser with the presence flag `verbose`, bound to the boolean 0, and positional
collection enabled. -/
def verbose_registry : Parser (List parser_string) :=
  (presence_registry [("verbose".toList, 0)]).putArgumentsInto

/-- The result of `verbose_registry` on `prog --verbose file1.txt file2.txt`. -/
def verbose_result : RunResult (List parser_string) where
  exit := .returned
  final :=
    { pc := 4
      app_args := ["prog".toList, "file1.txt".toList, "file2.txt".toList]
      store := { bools := Function.update (fun _ => false) 0 true, rest := [] }
      visited := [1, 2, 3]
      calls := [("--verbose".toList, none)]
      dealt := [] }
  in_args := ["prog".toList, "file1.txt".toList, "file2.txt".toList]

/-- The result of `count_registry`, with a handler that answers `continue`, on
`prog junk --count 5`. -/
def skip_result : RunResult (List parser_string) where
  exit := .returned
  final :=
    { pc := 4
      app_args := ["prog".toList]
      store := { bools := fun _ => false, rest := ["5".toList] }
      visited := [1, 2]
      calls := [("--count".toList, some "5".toList)]
      dealt := [1] }
  in_args := []

/-- The parser with the presence flag `ab=c`, bound to the boolean 0, and the value-requiring
flag `ab`, registered with the functor `record_value`; their canonical spellings are
`--ab=c` and `--ab`. -/
def mixed_registry : Parser (List parser_string) :=
  ((presence_registry [("ab=c".toList, 0)]).addCustomModifier unix_convention "ab".toList
    record_value).getD Parser.new

/-- The parser on which the spelling `-v` is registered twice: first by
`addPresenceModifier("v", 0)`, then by `addCustomModifier("v", ...)` with the functor
`record_value`. -/
def shadowed_registry : Parser (List parser_string) :=
  ((presence_registry [("v".toList, 0)]).addCustomModifier unix_convention "v".toList
    record_value).getD Parser.new

/-- The parser on which the presence flag `v` is declared twice, bound first to the boolean 0
and then to the boolean 1, with positional collection enabled. -/
def doubled_registry : Parser (List parser_string) :=
  (presence_registry [("v".toList, 0), ("v".toList, 1)]).putArgumentsInto

/-- A value functor bound to the boolean `target_memory`, over a storage that is a list of
texts: it stores whether the raw value is the text `1`, and throws when called without a
value. -/
def convert_bool (target_memory : Nat) : ParserValueFunctor (List parser_string) :=
  fun raw m =>
    match raw with
    | some v => some { m with bools := Function.update m.bools target_memory
                                (decide (v = "1".toList)) }
    | none => none

/-- The parser with the presence flag `v`, bound to the boolean 0, the value-requiring flag
`c`, registered with the functor `convert_bool 0` that writes to the same boolean, and
positional collection enabled. -/
def rebound_registry : Parser (List parser_string) :=
  (((presence_registry [("v".toList, 0)]).addCustomModifier unix_convention "c".toList
    (convert_bool 0)).getD Parser.new).putArgumentsInto

/-- The result of `count_registry`, under the policy `ERROR`, on `prog --count 5 --count`. -/
def abort_result : RunResult (List parser_string) where
  exit := .reported "modifier missing argument"
  final :=
    { pc := 3
      app_args := ["prog".toList]
      store := { bools := fun _ => false, rest := ["5".toList] }
      visited := [1, 3]
      calls := [("--count".toList, some "5".toList)]
      dealt := [] }
  in_args := []

/-- The result of `verbose_registry`, with a handler that answers `ERROR`, on
`prog file key=value`, the caller's vector holding `old` before the call. -/
def report_result : RunResult (List parser_string) where
  exit := .reported "unknown modifier"
  final :=
    { pc := 2
      app_args := ["prog".toList, "file".toList]
      store := empty_memory
      visited := [1, 2]
      calls := []
      dealt := [2] }
  in_args := ["old".toList]

/-! ## Theorems: the convention -/

theorem find_first_of_isSome (s : parser_string) (c : Char) (pos : Nat) :
    (find_first_of s c pos).isSome = true ↔ c ∈ s.drop pos := by
  unfold find_first_of
  rw [← List.indexOf_lt_length, List.length_drop]
  split
  · simp; omega
  · simp; omega

theorem find_first_of_append (s v : parser_string) (c : Char) (pos : Nat)
    (hc : c ∉ s) (hp : pos ≤ s.length) :
    find_first_of (s ++ c :: v) c pos = some s.length := by
  have hd : c ∉ s.drop pos := fun h => hc (List.mem_of_mem_drop h)
  unfold find_first_of
  rw [List.drop_append_of_le_length hp, List.indexOf_append_of_not_mem hd,
    List.indexOf_cons_self, List.length_drop]
  simp
  omega

theorem mayBeModifierWithParam_append (s v : parser_string) (hc : '=' ∉ s)
    (hp : 2 ≤ s.length) : UNIXConvention.mayBeModifierWithParam (s ++ '=' :: v) = true := by
  simp [UNIXConvention.mayBeModifierWithParam, find_first_of_append s v '=' 2 hc hp]

theorem extractModifierName_append (s v : parser_string) (hc : '=' ∉ s)
    (hp : 2 ≤ s.length) : UNIXConvention.extractModifierName (s ++ '=' :: v) = s := by
  simp [UNIXConvention.extractModifierName, find_first_of_append s v '=' 2 hc hp, substr]

theorem extractModifierParam_append (s v : parser_string) (hc : '=' ∉ s) :
    UNIXConvention.extractModifierParam (s ++ '=' :: v) = v := by
  simp [UNIXConvention.extractModifierParam, find_first_of_append s v '=' 0 hc (Nat.zero_le _),
    substr, size_minus_one]

/-- C10: `UNIXConvention::mayBeModifierWithParam(t)` is true exactly when `t` has the
separator `=` at some index `i ≥ 2`; its answer does not depend on the first two characters
(an `=` at index 0 or 1 does not count), and it is false on every token of at most two
characters. -/
theorem mayBeModifierWithParam_iff (t : parser_string) :
    (UNIXConvention.mayBeModifierWithParam t = true ↔ ∃ i, 2 ≤ i ∧ t[i]? = some '=') ∧
    (∀ a b rest, UNIXConvention.mayBeModifierWithParam (a :: b :: rest) = decide ('=' ∈ rest)) ∧
    UNIXConvention.mayBeModifierWithParam (t.take 2) = false := by
  refine ⟨?_, ?_, ?_⟩
  · rw [UNIXConvention.mayBeModifierWithParam, find_first_of_isSome, List.mem_iff_getElem?]
    constructor
    · rintro ⟨n, hn⟩
      exact ⟨2 + n, by omega, by rw [← hn, List.getElem?_drop]⟩
    · rintro ⟨i, hi, h⟩
      exact ⟨i - 2, by rw [List.getElem?_drop, ← h]; congr 1; omega⟩
  · intro a b rest
    have h := find_first_of_isSome (a :: b :: rest) '=' 2
    simp only [List.drop_succ_cons, List.drop_zero] at h
    rw [UNIXConvention.mayBeModifierWithParam, Bool.eq_iff_iff, h]
    exact decide_eq_true_iff.symm
  · rw [← Bool.not_eq_true, UNIXConvention.mayBeModifierWithParam, find_first_of_isSome]
    intro h
    have hl := List.length_pos_of_mem h
    rw [List.length_drop, List.length_take] at hl
    omega

/-- C9, at the failing input `-==5`: the token is inline-valued, its name part is `-=` (cut at
the separator found from index 2), but its value part is `=5`, cut after the `=` at index 1;
name, separator and value do not give the token back. -/
theorem extract_at_failing_input :
    UNIXConvention.mayBeModifierWithParam "-==5".toList = true ∧
    UNIXConvention.extractModifierName "-==5".toList = "-=".toList ∧
    UNIXConvention.extractModifierParam "-==5".toList = "=5".toList ∧
    UNIXConvention.extractModifierName "-==5".toList ++ "=".toList ++
      UNIXConvention.extractModifierParam "-==5".toList ≠ "-==5".toList := by
  decide

/-! ## Theorems: one iteration of the loop -/

section iteration

variable (conv : ConventionPolicy) (p : Parser τ) (cfg : Policies) (argv : List parser_string)

@[simp] theorem enter_pc (s : RunState τ) : (enter s).pc = s.pc := rfl
@[simp] theorem enter_app_args (s : RunState τ) : (enter s).app_args = s.app_args := rfl
@[simp] theorem enter_store (s : RunState τ) : (enter s).store = s.store := rfl
@[simp] theorem enter_calls (s : RunState τ) : (enter s).calls = s.calls := rfl
@[simp] theorem enter_dealt (s : RunState τ) : (enter s).dealt = s.dealt := rfl
@[simp] theorem enter_visited (s : RunState τ) : (enter s).visited = s.visited ++ [s.pc] := rfl

/-- The paths through the body of the loop, by the tests that select them. -/
theorem step_cases (s : RunState τ) :
    (p.known_modifiers (argv.getD s.pc []) = true ∧
      p.modifiers_with_parameters (argv.getD s.pc []) = true ∧ s.pc ≠ argv.length - 1 ∧
      step conv p cfg argv s =
        invoke p (argv.getD s.pc []) (some (argv.getD (s.pc + 1) [])) (s.pc + 1 + 1) (enter s)) ∨
    (p.known_modifiers (argv.getD s.pc []) = true ∧
      p.modifiers_with_parameters (argv.getD s.pc []) = true ∧ s.pc = argv.length - 1 ∧
      step conv p cfg argv s =
        if cfg.HandleBadModifier = cfg.BadModifierPolicy_THROW_EXCEPTION then
          .stop (.thrown "modifier missing argument") (enter s)
        else if cfg.HandleBadModifier = cfg.BadModifierPolicy_ERROR then
          .stop (.reported "modifier missing argument") (enter s)
        else .next { enter s with pc := s.pc + 1 }) ∨
    (p.known_modifiers (argv.getD s.pc []) = true ∧
      p.modifiers_with_parameters (argv.getD s.pc []) = false ∧
      step conv p cfg argv s = invoke p (argv.getD s.pc []) none (s.pc + 1) (enter s)) ∨
    (p.known_modifiers (argv.getD s.pc []) = false ∧
      conv.mayBeModifierWithParam (argv.getD s.pc []) = true ∧
      p.modifiers_with_parameters (conv.extractModifierName (argv.getD s.pc [])) = true ∧
      step conv p cfg argv s =
        invoke p (conv.extractModifierName (argv.getD s.pc []))
          (some (conv.extractModifierParam (argv.getD s.pc []))) (s.pc + 1) (enter s)) ∨
    (p.known_modifiers (argv.getD s.pc []) = false ∧
      conv.mayBeModifierWithParam (argv.getD s.pc []) = true ∧
      p.modifiers_with_parameters (conv.extractModifierName (argv.getD s.pc [])) = false ∧
      step conv p cfg argv s = handle_unknown cfg (argv.getD s.pc []) (enter s)) ∨
    (p.known_modifiers (argv.getD s.pc []) = false ∧
      conv.mayBeModifierWithParam (argv.getD s.pc []) = false ∧ p.expect_arguments = true ∧
      step conv p cfg argv s =
        .next { enter s with pc := s.pc + 1, app_args := s.app_args ++ [argv.getD s.pc []] }) ∨
    (p.known_modifiers (argv.getD s.pc []) = false ∧
      conv.mayBeModifierWithParam (argv.getD s.pc []) = false ∧ p.expect_arguments = false ∧
      step conv p cfg argv s = handle_unknown cfg (argv.getD s.pc []) (enter s)) := by
  have hz : step conv p cfg argv s =
      if p.known_modifiers (argv.getD s.pc []) = true then
        if p.modifiers_with_parameters (argv.getD s.pc []) = true then
          if s.pc ≠ argv.length - 1 then
            invoke p (argv.getD s.pc []) (some (argv.getD (s.pc + 1) [])) (s.pc + 1 + 1) (enter s)
          else if cfg.HandleBadModifier = cfg.BadModifierPolicy_THROW_EXCEPTION then
            .stop (.thrown "modifier missing argument") (enter s)
          else if cfg.HandleBadModifier = cfg.BadModifierPolicy_ERROR then
            .stop (.reported "modifier missing argument") (enter s)
          else
            .next { enter s with pc := s.pc + 1 }
        else
          invoke p (argv.getD s.pc []) none (s.pc + 1) (enter s)
      else if conv.mayBeModifierWithParam (argv.getD s.pc []) = true then
        if p.modifiers_with_parameters (conv.extractModifierName (argv.getD s.pc [])) = true then
          invoke p (conv.extractModifierName (argv.getD s.pc []))
            (some (conv.extractModifierParam (argv.getD s.pc []))) (s.pc + 1) (enter s)
        else
          handle_unknown cfg (argv.getD s.pc []) (enter s)
      else if p.expect_arguments = true then
        .next { enter s with pc := s.pc + 1, app_args := s.app_args ++ [argv.getD s.pc []] }
      else
        handle_unknown cfg (argv.getD s.pc []) (enter s) := rfl
  rw [hz]
  by_cases hk : p.known_modifiers (argv.getD s.pc []) = true
  · rw [if_pos hk]
    by_cases hw : p.modifiers_with_parameters (argv.getD s.pc []) = true
    · rw [if_pos hw]
      by_cases hl : s.pc ≠ argv.length - 1
      · rw [if_pos hl]
        exact Or.inl ⟨hk, hw, hl, rfl⟩
      · rw [if_neg hl]
        exact Or.inr (Or.inl ⟨hk, hw, not_not.mp hl, rfl⟩)
    · rw [if_neg hw]
      exact Or.inr (Or.inr (Or.inl ⟨hk, Bool.not_eq_true _ ▸ hw, rfl⟩))
  · rw [if_neg hk]
    have hk' := (Bool.not_eq_true _).mp hk
    by_cases hm : conv.mayBeModifierWithParam (argv.getD s.pc []) = true
    · rw [if_pos hm]
      by_cases hw : p.modifiers_with_parameters (conv.extractModifierName (argv.getD s.pc [])) = true
      · rw [if_pos hw]
        exact Or.inr (Or.inr (Or.inr (Or.inl ⟨hk', hm, hw, rfl⟩)))
      · rw [if_neg hw]
        exact Or.inr (Or.inr (Or.inr (Or.inr (Or.inl ⟨hk', hm, (Bool.not_eq_true _).mp hw, rfl⟩))))
    · rw [if_neg hm]
      have hm' := (Bool.not_eq_true _).mp hm
      by_cases he : p.expect_arguments = true
      · rw [if_pos he]
        exact Or.inr (Or.inr (Or.inr (Or.inr (Or.inr (Or.inl ⟨hk', hm', he, rfl⟩)))))
      · rw [if_neg he]
        exact Or.inr (Or.inr (Or.inr (Or.inr (Or.inr (Or.inr
          ⟨hk', hm', (Bool.not_eq_true _).mp he, rfl⟩)))))


variable {conv p cfg argv}

theorem invoke_next {key : parser_string} {raw : Option parser_string} {pc' : Nat}
    {s s' : RunState τ} (h : invoke p key raw pc' s = .next s') :
    ∃ f m, p.value_functors key = some f ∧ f raw s.store = some m ∧
      s' = { s with pc := pc', store := m, calls := s.calls ++ [(key, raw)] } := by
  unfold invoke at h
  cases hf : p.value_functors key with
  | none => simp [hf] at h
  | some f =>
    cases hm : f raw s.store with
    | none => simp [hf, hm] at h
    | some m =>
      simp only [hf, hm, StepResult.next.injEq] at h
      exact ⟨f, m, rfl, hm, h.symm⟩

theorem invoke_stop {key : parser_string} {raw : Option parser_string} {pc' : Nat}
    {s s' : RunState τ} {e : Exit} (h : invoke p key raw pc' s = .stop e s') :
    (p.value_functors key = none ∧ e = .undefined ∧ s' = s) ∨
    (∃ f, p.value_functors key = some f ∧ f raw s.store = none ∧ e = .functor_threw ∧
      s' = { s with calls := s.calls ++ [(key, raw)] }) := by
  unfold invoke at h
  cases hf : p.value_functors key with
  | none =>
    simp only [hf, StepResult.stop.injEq] at h
    exact Or.inl ⟨rfl, h.1.symm, h.2.symm⟩
  | some f =>
    cases hm : f raw s.store with
    | none =>
      simp only [hf, hm, StepResult.stop.injEq] at h
      exact Or.inr ⟨f, rfl, hm, h.1.symm, h.2.symm⟩
    | some m => simp [hf, hm] at h

theorem handle_unknown_eq (cfg : Policies) (tok : parser_string) (s : RunState τ) :
    handle_unknown cfg tok s =
      if cfg.deal s.app_args tok = cfg.UnknownModifierPolicy_THROW_EXCEPTION then
        .stop (.thrown "unknown modifier") { s with dealt := s.dealt ++ [s.pc] }
      else if cfg.deal s.app_args tok = cfg.UnknownModifierPolicy_ERROR then
        .stop (.reported "unknown modifier") { s with dealt := s.dealt ++ [s.pc] }
      else .next { s with dealt := s.dealt ++ [s.pc], pc := s.pc + 1 } := rfl

theorem invoke_of_some {key : parser_string} {raw : Option parser_string} {pc' : Nat}
    {s : RunState τ} {f : ParserValueFunctor τ} {m : Memory τ}
    (hf : p.value_functors key = some f) (hm : f raw s.store = some m) :
    invoke p key raw pc' s =
      .next { s with pc := pc', store := m, calls := s.calls ++ [(key, raw)] } := by
  unfold invoke
  rw [hf]
  simp only [hm]

theorem invoke_of_none {key : parser_string} {raw : Option parser_string} {pc' : Nat}
    {s : RunState τ} {f : ParserValueFunctor τ}
    (hf : p.value_functors key = some f) (hm : f raw s.store = none) :
    invoke p key raw pc' s =
      .stop .functor_threw { s with calls := s.calls ++ [(key, raw)] } := by
  unfold invoke
  rw [hf]
  simp only [hm]

theorem handle_unknown_next {tok : parser_string} {s s' : RunState τ}
    (h : handle_unknown cfg tok s = .next s') :
    cfg.deal s.app_args tok ≠ cfg.UnknownModifierPolicy_THROW_EXCEPTION ∧
    cfg.deal s.app_args tok ≠ cfg.UnknownModifierPolicy_ERROR ∧
    s' = { s with dealt := s.dealt ++ [s.pc], pc := s.pc + 1 } := by
  rw [handle_unknown_eq] at h
  by_cases h1 : cfg.deal s.app_args tok = cfg.UnknownModifierPolicy_THROW_EXCEPTION
  · rw [if_pos h1] at h
    cases h
  · by_cases h2 : cfg.deal s.app_args tok = cfg.UnknownModifierPolicy_ERROR
    · rw [if_neg h1, if_pos h2] at h
      cases h
    · rw [if_neg h1, if_neg h2] at h
      cases h
      exact ⟨h1, h2, rfl⟩

theorem handle_unknown_stop {tok : parser_string} {s s' : RunState τ} {e : Exit}
    (h : handle_unknown cfg tok s = .stop e s') :
    s' = { s with dealt := s.dealt ++ [s.pc] } ∧
    ((cfg.deal s.app_args tok = cfg.UnknownModifierPolicy_THROW_EXCEPTION ∧
        e = .thrown "unknown modifier") ∨
      (cfg.deal s.app_args tok = cfg.UnknownModifierPolicy_ERROR ∧
        e = .reported "unknown modifier")) := by
  rw [handle_unknown_eq] at h
  by_cases h1 : cfg.deal s.app_args tok = cfg.UnknownModifierPolicy_THROW_EXCEPTION
  · rw [if_pos h1] at h
    cases h
    exact ⟨rfl, Or.inl ⟨h1, rfl⟩⟩
  · by_cases h2 : cfg.deal s.app_args tok = cfg.UnknownModifierPolicy_ERROR
    · rw [if_neg h1, if_pos h2] at h
      cases h
      exact ⟨rfl, Or.inr ⟨h2, rfl⟩⟩
    · rw [if_neg h1, if_neg h2] at h
      cases h

theorem missing_next {s s' : RunState τ}
    (h : (if cfg.HandleBadModifier = cfg.BadModifierPolicy_THROW_EXCEPTION then
          StepResult.stop (.thrown "modifier missing argument") (enter s)
        else if cfg.HandleBadModifier = cfg.BadModifierPolicy_ERROR then
          .stop (.reported "modifier missing argument") (enter s)
        else .next { enter s with pc := s.pc + 1 }) = .next s') :
    s' = { enter s with pc := s.pc + 1 } := by
  split at h
  · cases h
  · split at h
    · cases h
    · cases h
      rfl

theorem missing_stop {s s' : RunState τ} {e : Exit}
    (h : (if cfg.HandleBadModifier = cfg.BadModifierPolicy_THROW_EXCEPTION then
          StepResult.stop (.thrown "modifier missing argument") (enter s)
        else if cfg.HandleBadModifier = cfg.BadModifierPolicy_ERROR then
          .stop (.reported "modifier missing argument") (enter s)
        else .next { enter s with pc := s.pc + 1 }) = .stop e s') :
    s' = enter s ∧ (e = .thrown "modifier missing argument" ∨
      e = .reported "modifier missing argument") := by
  split at h
  · cases h
    exact ⟨rfl, Or.inl rfl⟩
  · split at h
    · cases h
      exact ⟨rfl, Or.inr rfl⟩
    · cases h

/-- What every iteration that reaches `pc++` does to the cursor and to the records. -/
theorem step_next_frame {s s' : RunState τ} (h : step conv p cfg argv s = .next s')
    (hlt : s.pc < argv.length) :
    (s'.pc = s.pc + 1 ∨ (s'.pc = s.pc + 2 ∧ s.pc + 1 < argv.length)) ∧
    s'.visited = s.visited ++ [s.pc] ∧
    (s'.dealt = s.dealt ∨ s'.dealt = s.dealt ++ [s.pc]) := by
  rcases step_cases conv p cfg argv s with ⟨_, _, hl, he⟩ | ⟨_, _, _, he⟩ | ⟨_, _, he⟩ |
    ⟨_, _, _, he⟩ | ⟨_, _, _, he⟩ | ⟨_, _, _, he⟩ | ⟨_, _, _, he⟩ <;> rw [he] at h
  · obtain ⟨f, m, _, _, rfl⟩ := invoke_next h
    exact ⟨Or.inr ⟨rfl, by omega⟩, rfl, Or.inl rfl⟩
  · rw [missing_next h]
    exact ⟨Or.inl rfl, rfl, Or.inl rfl⟩
  · obtain ⟨f, m, _, _, rfl⟩ := invoke_next h
    exact ⟨Or.inl rfl, rfl, Or.inl rfl⟩
  · obtain ⟨f, m, _, _, rfl⟩ := invoke_next h
    exact ⟨Or.inl rfl, rfl, Or.inl rfl⟩
  · obtain ⟨_, _, rfl⟩ := handle_unknown_next h
    exact ⟨Or.inl rfl, rfl, Or.inr rfl⟩
  · cases h
    exact ⟨Or.inl rfl, rfl, Or.inl rfl⟩
  · obtain ⟨_, _, rfl⟩ := handle_unknown_next h
    exact ⟨Or.inl rfl, rfl, Or.inr rfl⟩

theorem step_stop_frame {s s' : RunState τ} {e : Exit}
    (h : step conv p cfg argv s = .stop e s') :
    s'.pc = s.pc ∧ s'.visited = s.visited ++ [s.pc] ∧ s'.app_args = s.app_args ∧
    (s'.dealt = s.dealt ∨ s'.dealt = s.dealt ++ [s.pc]) := by
  rcases step_cases conv p cfg argv s with ⟨_, _, hl, he⟩ | ⟨_, _, _, he⟩ | ⟨_, _, he⟩ |
    ⟨_, _, _, he⟩ | ⟨_, _, _, he⟩ | ⟨_, _, _, he⟩ | ⟨_, _, _, he⟩ <;> rw [he] at h
  · rcases invoke_stop h with ⟨_, _, rfl⟩ | ⟨f, _, _, _, rfl⟩ <;> exact ⟨rfl, rfl, rfl, Or.inl rfl⟩
  · rw [(missing_stop h).1]
    exact ⟨rfl, rfl, rfl, Or.inl rfl⟩
  · rcases invoke_stop h with ⟨_, _, rfl⟩ | ⟨f, _, _, _, rfl⟩ <;> exact ⟨rfl, rfl, rfl, Or.inl rfl⟩
  · rcases invoke_stop h with ⟨_, _, rfl⟩ | ⟨f, _, _, _, rfl⟩ <;> exact ⟨rfl, rfl, rfl, Or.inl rfl⟩
  · rw [(handle_unknown_stop h).1]
    exact ⟨rfl, rfl, rfl, Or.inr rfl⟩
  · cases h
  · rw [(handle_unknown_stop h).1]
    exact ⟨rfl, rfl, rfl, Or.inr rfl⟩

end iteration

/-! ## Theorems: the loop -/

section loop

variable {conv : ConventionPolicy} {p : Parser τ} {cfg : Policies} {argv : List parser_string}

theorem run_loop_succ (fuel : Nat) (s : RunState τ) :
    run_loop conv p cfg argv (fuel + 1) s =
      if s.pc < argv.length then
        match step conv p cfg argv s with
        | .next s' => run_loop conv p cfg argv fuel s'
        | .stop e s' => some (e, s')
      else some (.returned, s) := rfl

/-- With fuel beyond the number of tokens left, the loop is left, and the result does not
depend on the fuel. -/
theorem run_loop_enough (fuel : Nat) : ∀ (fuel' : Nat) (s : RunState τ),
    0 < fuel → argv.length < fuel + s.pc → 0 < fuel' → argv.length < fuel' + s.pc →
    (run_loop conv p cfg argv fuel s).isSome = true ∧
      run_loop conv p cfg argv fuel s = run_loop conv p cfg argv fuel' s := by
  induction fuel with
  | zero => intro _ _ h; omega
  | succ n ih =>
    intro fuel' s _ h1 h0 h2
    obtain ⟨m, rfl⟩ : ∃ m, fuel' = m + 1 := ⟨fuel' - 1, by omega⟩
    rw [run_loop_succ, run_loop_succ]
    by_cases hlt : s.pc < argv.length
    · rw [if_pos hlt, if_pos hlt]
      cases hs : step conv p cfg argv s with
      | next s' =>
        have hf := (step_next_frame hs hlt).1
        have h5 : 0 < n := by omega
        have h6 : argv.length < n + s'.pc := by omega
        have h7 : 0 < m := by omega
        have h8 : argv.length < m + s'.pc := by omega
        exact ih m s' h5 h6 h7 h8
      | stop e s' => exact ⟨rfl, rfl⟩
    · rw [if_neg hlt, if_neg hlt]
      exact ⟨rfl, rfl⟩

/-- The loop in a state equals the loop in the state one iteration later. -/
theorem run_loop_next {s s' : RunState τ} (h : Next conv p cfg argv s s') {fuel fuel' : Nat}
    (h1 : 0 < fuel) (h2 : argv.length < fuel + s.pc)
    (h3 : 0 < fuel') (h4 : argv.length < fuel' + s'.pc) :
    run_loop conv p cfg argv fuel s = run_loop conv p cfg argv fuel' s' := by
  rw [(run_loop_enough fuel (argv.length + 1 + 1) s h1 h2 (by omega) (by omega)).2,
    run_loop_succ, if_pos h.1, h.2]
  exact (run_loop_enough (argv.length + 1) fuel' s' (by omega) (by omega) h3 h4).2

/-- How the loop is left: after some iterations it is in a state `u` in which either the
loop condition fails, or the iteration leaves `run`. -/
theorem run_loop_sound (fuel : Nat) : ∀ (s : RunState τ) (e : Exit) (t : RunState τ),
    run_loop conv p cfg argv fuel s = some (e, t) →
    ∃ u, Relation.ReflTransGen (Next conv p cfg argv) s u ∧
      ((¬ u.pc < argv.length ∧ e = .returned ∧ t = u) ∨
        (u.pc < argv.length ∧ step conv p cfg argv u = .stop e t)) := by
  induction fuel with
  | zero => intro s e t h; cases h
  | succ n ih =>
    intro s e t h
    rw [run_loop_succ] at h
    by_cases hlt : s.pc < argv.length
    · rw [if_pos hlt] at h
      cases hs : step conv p cfg argv s with
      | next s' =>
        rw [hs] at h
        obtain ⟨u, hu, hfin⟩ := ih s' e t h
        exact ⟨u, Relation.ReflTransGen.head ⟨hlt, hs⟩ hu, hfin⟩
      | stop e' s' =>
        rw [hs] at h
        cases h
        exact ⟨s, Relation.ReflTransGen.refl, Or.inr ⟨hlt, hs⟩⟩
    · rw [if_neg hlt] at h
      cases h
      exact ⟨s, Relation.ReflTransGen.refl, Or.inl ⟨hlt, rfl, rfl⟩⟩

/-- The iterations are deterministic. -/
theorem next_unique : Relator.RightUnique (Next conv p cfg argv) := by
  intro a b c hb hc
  have h := hb.2.symm.trans hc.2
  cases h
  rfl

/-- Along the iterations the cursor does not decrease, and the positions visited on the
way lie between the two cursors. -/
theorem steps_visited {s t : RunState τ}
    (h : Relation.ReflTransGen (Next conv p cfg argv) s t) :
    s.pc ≤ t.pc ∧ (s ≠ t → s.pc < t.pc) ∧
      ∃ extra, t.visited = s.visited ++ extra ∧ ∀ j ∈ extra, s.pc ≤ j ∧ j < t.pc := by
  induction h with
  | refl => exact ⟨le_refl _, fun h => (h rfl).elim, [], by simp, by simp⟩
  | tail _ hn ih =>
    obtain ⟨h1, _, extra, h3, h4⟩ := ih
    obtain ⟨hpc, hv, _⟩ := step_next_frame hn.2 hn.1
    refine ⟨by omega, fun _ => by omega, extra ++ [_], by rw [hv, h3, List.append_assoc], ?_⟩
    intro j hj
    rcases List.mem_append.mp hj with hj | hj
    · have := h4 j hj
      omega
    · rw [List.mem_singleton] at hj
      omega


theorem reachable_visited {store : Memory τ} {s : RunState τ}
    (h : Reachable conv p cfg argv store s) :
    1 ≤ s.pc ∧ ∀ j ∈ s.visited, 1 ≤ j ∧ j < s.pc := by
  obtain ⟨h1, _, extra, h3, h4⟩ := steps_visited h
  refine ⟨h1, fun j hj => ?_⟩
  rw [h3] at hj
  exact h4 j (by simpa [initial] using hj)

theorem reachable_visited_sorted {store : Memory τ} {s : RunState τ}
    (h : Reachable conv p cfg argv store s) : s.visited.Pairwise (· < ·) := by
  induction h with
  | refl => exact List.Pairwise.nil
  | @tail b c hb hn ih =>
    rw [(step_next_frame hn.2 hn.1).2.1, List.pairwise_append]
    refine ⟨ih, List.pairwise_singleton _ _, fun a ha x hx => ?_⟩
    rw [List.mem_singleton.mp hx]
    exact ((reachable_visited hb).2 a ha).2

/-- Outside the empty vector, `run` is the loop started in the initial state. -/
theorem run_eq (store : Memory τ) (out : List parser_string) (hne : argv ≠ []) :
    run conv p cfg argv store out =
      match run_loop conv p cfg argv argv.length (initial argv store) with
      | none => none
      | some (e, s) => some ⟨e, s, publish p out e s⟩ := by
  unfold run
  rw [if_neg (by simpa using hne)]

/-- The loop of `run` goes through every reachable state: from there on, any fuel beyond the
tokens left gives the result of `run`. -/
theorem run_loop_reachable {store : Memory τ} {s : RunState τ}
    (h : Reachable conv p cfg argv store s) (hne : argv ≠ []) :
    run_loop conv p cfg argv argv.length (initial argv store) =
      run_loop conv p cfg argv (argv.length + 1) s := by
  have hl : 0 < argv.length := List.length_pos.mpr hne
  induction h with
  | refl =>
    have hi : argv.length < argv.length + (initial argv store).pc := Nat.lt_succ_self _
    exact (run_loop_enough _ _ _ hl hi (by omega) (by omega)).2
  | tail _ hn ih =>
    rw [ih]
    exact run_loop_next hn (by omega) (by omega) (by omega) (by omega)

/-- The member `run` always comes to an end: the fuel `argc` is never used up. -/
theorem run_isSome (store : Memory τ) (out : List parser_string) :
    (run conv p cfg argv store out).isSome = true := by
  by_cases hne : argv = []
  · simp [run, hne]
  · have hl : 0 < argv.length := List.length_pos.mpr hne
    have hi : argv.length < argv.length + (initial argv store).pc := Nat.lt_succ_self _
    have h := (@run_loop_enough τ conv p cfg argv argv.length argv.length
      (initial argv store) hl hi hl hi).1
    rw [run_eq store out hne]
    cases hr : run_loop conv p cfg argv argv.length (initial argv store) with
    | none => rw [hr] at h; cases h
    | some r => rfl

/-- How `run` ends on a vector that is not empty. -/
theorem run_sound {store : Memory τ} {out : List parser_string} {r : RunResult τ}
    (h : run conv p cfg argv store out = some r) (hne : argv ≠ []) :
    r.in_args = publish p out r.exit r.final ∧
    ∃ u, Reachable conv p cfg argv store u ∧
      ((¬ u.pc < argv.length ∧ r.exit = .returned ∧ r.final = u) ∨
        (u.pc < argv.length ∧ step conv p cfg argv u = .stop r.exit r.final)) := by
  rw [run_eq store out hne] at h
  cases hr : run_loop conv p cfg argv argv.length (initial argv store) with
  | none => rw [hr] at h; cases h
  | some x =>
    obtain ⟨e, t⟩ := x
    rw [hr] at h
    cases h
    exact ⟨rfl, run_loop_sound _ _ _ _ hr⟩

/-- The result of `run` when a reachable state fails the loop condition. -/
theorem run_of_final {store : Memory τ} {u : RunState τ}
    (h : Reachable conv p cfg argv store u) (hne : argv ≠ []) (hge : ¬ u.pc < argv.length)
    (out : List parser_string) :
    run conv p cfg argv store out = some ⟨.returned, u, publish p out .returned u⟩ := by
  rw [run_eq store out hne, run_loop_reachable h hne, run_loop_succ, if_neg hge]

/-- The result of `run` when the iteration in a reachable state leaves `run`. -/
theorem run_of_stop {store : Memory τ} {u t : RunState τ} {e : Exit}
    (h : Reachable conv p cfg argv store u) (hne : argv ≠ []) (hlt : u.pc < argv.length)
    (hs : step conv p cfg argv u = .stop e t) (out : List parser_string) :
    run conv p cfg argv store out = some ⟨e, t, publish p out e t⟩ := by
  rw [run_eq store out hne, run_loop_reachable h hne, run_loop_succ, if_pos hlt, hs]

end loop

/-! ## Theorems: the registry -/

section registry

variable {conv : ConventionPolicy} {p : Parser τ}

theorem parser_string_set_insert_iff (s : parser_string_set) (x k : parser_string) :
    parser_string_set_insert s x k = true ↔ k = x ∨ s k = true := by
  unfold parser_string_set_insert
  by_cases h : k = x <;> simp [h]

theorem functor_map_insert_isSome (m : functor_map τ) (x k : parser_string)
    (f : ParserValueFunctor τ) :
    (functor_map_insert m x f k).isSome = true ↔ k = x ∨ (m k).isSome = true := by
  unfold functor_map_insert
  by_cases h : k = x
  · subst h
    cases hm : m k <;> simp [hm]
  · simp [h]

/-- What a registration call does to the three containers. -/
theorem declare_spec {p p' : Parser τ} {d : Declaration τ} (h : p.declare conv d = some p') :
    ∃ m, conv.makeModifier d.modifier = some m ∧
      p'.value_functors = functor_map_insert p.value_functors m d.functor ∧
      p'.known_modifiers = parser_string_set_insert p.known_modifiers m ∧
      p'.modifiers_with_parameters =
        (if d.requires_value = true then parser_string_set_insert p.modifiers_with_parameters m
          else p.modifiers_with_parameters) ∧
      p'.expect_arguments = p.expect_arguments := by
  cases d with
  | presence n a =>
    simp only [Parser.declare, Parser.addPresenceModifier] at h
    cases hm : conv.makeModifier n with
    | none => rw [hm] at h; cases h
    | some m =>
      rw [hm] at h
      cases h
      exact ⟨m, hm, rfl, rfl, rfl, rfl⟩
  | typed n f =>
    simp only [Parser.declare, Parser.addModifier] at h
    cases hm : conv.makeModifier n with
    | none => rw [hm] at h; cases h
    | some m =>
      rw [hm] at h
      cases h
      exact ⟨m, hm, rfl, rfl, rfl, rfl⟩
  | custom n f =>
    simp only [Parser.declare, Parser.addCustomModifier] at h
    cases hm : conv.makeModifier n with
    | none => rw [hm] at h; cases h
    | some m =>
      rw [hm] at h
      cases h
      exact ⟨m, hm, rfl, rfl, rfl, rfl⟩

/-- The containers of a parser the caller built, in terms of the registration calls: the
known spellings are those of the calls, the spellings with a parameter are those of the calls
that register a value-requiring flag, and a spelling has a functor exactly when it is known. -/
theorem built_spec {ds : List (Declaration τ)} (h : Built conv ds p) :
    (∀ k, p.known_modifiers k = true ↔ ∃ d ∈ ds, conv.makeModifier d.modifier = some k) ∧
    (∀ k, p.modifiers_with_parameters k = true ↔
      ∃ d ∈ ds, d.requires_value = true ∧ conv.makeModifier d.modifier = some k) ∧
    (∀ k, (p.value_functors k).isSome = true ↔ p.known_modifiers k = true) := by
  induction h with
  | new => simp [Parser.new]
  | @declare ds p p' d _ hd ih =>
    obtain ⟨ih1, ih2, ih3⟩ := ih
    obtain ⟨m, hm, hf, hk, hw, _⟩ := declare_spec hd
    refine ⟨fun k => ?_, fun k => ?_, fun k => ?_⟩
    · rw [hk, parser_string_set_insert_iff, ih1]
      constructor
      · rintro (rfl | ⟨d', hd', hs⟩)
        · exact ⟨d, by simp, hm⟩
        · exact ⟨d', by simp [hd'], hs⟩
      · rintro ⟨d', hd', hs⟩
        rcases List.mem_append.mp hd' with hd' | hd'
        · exact Or.inr ⟨d', hd', hs⟩
        · rw [List.mem_singleton] at hd'
          subst hd'
          rw [hm] at hs
          cases hs
          exact Or.inl rfl
    · rw [hw]
      by_cases hr : d.requires_value = true
      · rw [if_pos hr, parser_string_set_insert_iff, ih2]
        constructor
        · rintro (rfl | ⟨d', hd', hs⟩)
          · exact ⟨d, by simp, hr, hm⟩
          · exact ⟨d', by simp [hd'], hs⟩
        · rintro ⟨d', hd', hr', hs⟩
          rcases List.mem_append.mp hd' with hd' | hd'
          · exact Or.inr ⟨d', hd', hr', hs⟩
          · rw [List.mem_singleton] at hd'
            subst hd'
            rw [hm] at hs
            cases hs
            exact Or.inl rfl
      · rw [if_neg hr, ih2]
        constructor
        · rintro ⟨d', hd', hs⟩
          exact ⟨d', by simp [hd'], hs⟩
        · rintro ⟨d', hd', hr', hs⟩
          rcases List.mem_append.mp hd' with hd' | hd'
          · exact ⟨d', hd', hr', hs⟩
          · rw [List.mem_singleton] at hd'
            subst hd'
            exact (hr hr').elim
    · rw [hf, hk, functor_map_insert_isSome, parser_string_set_insert_iff, ih3]
  | putArgumentsInto _ ih => exact ih

/-- The functor kept under a spelling is the one of the first registration call with that
spelling: `std::map::insert` does not replace. -/
theorem built_functor {ds : List (Declaration τ)} (h : Built conv ds p) (k : parser_string) :
    p.value_functors k =
      (ds.find? fun d => decide (conv.makeModifier d.modifier = some k)).map
        Declaration.functor := by
  induction h with
  | new => rfl
  | @declare ds p p' d _ hd ih =>
    obtain ⟨m, hm, hf, _⟩ := declare_spec hd
    rw [hf, List.find?_append]
    unfold functor_map_insert
    by_cases hkm : k = m
    · subst hkm
      rw [if_pos rfl, ih]
      cases hfind : ds.find? fun d => decide (conv.makeModifier d.modifier = some k) with
      | none => simp [hm]
      | some d' => simp
    · rw [if_neg hkm, ih]
      have hne : ¬ conv.makeModifier d.modifier = some k := by
        rw [hm]
        intro hc
        cases hc
        exact hkm rfl
      simp [List.find?_cons, hne]
  | putArgumentsInto _ ih => exact ih

theorem find_first_declaration (ds : List (Declaration τ)) (d : Declaration τ)
    (k : parser_string) (hd : d ∈ ds) (hk : conv.makeModifier d.modifier = some k)
    (hn : (ds.map fun d => conv.makeModifier d.modifier).Nodup) :
    (ds.find? fun d => decide (conv.makeModifier d.modifier = some k)) = some d := by
  induction ds with
  | nil => cases hd
  | cons x xs ih =>
    rw [List.map_cons, List.nodup_cons] at hn
    rw [List.find?_cons]
    rcases List.mem_cons.mp hd with rfl | hd'
    · simp [hk]
    · have hx : ¬ conv.makeModifier x.modifier = some k := by
        intro hx
        apply hn.1
        rw [hx, ← hk]
        exact List.mem_map_of_mem _ hd'
      simp only [hx, decide_False]
      exact ih hd' hn.2

theorem mem_tail_iff (argv : List parser_string) (t : parser_string) :
    t ∈ argv.tail ↔ ∃ j, 1 ≤ j ∧ j < argv.length ∧ argv.getD j [] = t := by
  rw [List.mem_iff_getElem?]
  constructor
  · rintro ⟨n, hn⟩
    rw [List.getElem?_tail] at hn
    have hlt : n + 1 < argv.length := by
      by_contra hc
      rw [List.getElem?_eq_none (by omega)] at hn
      cases hn
    exact ⟨n + 1, by omega, hlt, by rw [List.getD_eq_getElem?_getD, hn]; rfl⟩
  · rintro ⟨j, h1, h2, h3⟩
    refine ⟨j - 1, ?_⟩
    rw [List.getElem?_tail, show j - 1 + 1 = j by omega, ← h3, List.getD_eq_getElem?_getD,
      List.getElem?_eq_getElem h2]
    rfl

end registry
/-! ## Theorems: the claims about the dispatch loop -/

section claims

variable {conv : ConventionPolicy} {p : Parser τ} {cfg : Policies} {argv : List parser_string}

theorem built_count_registry :
    Built unix_convention [Declaration.custom "count".toList record_value] count_registry :=
  Built.declare Built.new rfl

/-- The first registration call with a spelling is the one `find?` answers. -/
theorem find_first_split (ds pre post : List (Declaration τ)) (d : Declaration τ)
    (k : parser_string) (hds : ds = pre ++ d :: post)
    (hk : conv.makeModifier d.modifier = some k)
    (hpre : ∀ e ∈ pre, conv.makeModifier e.modifier ≠ some k) :
    (ds.find? fun d => decide (conv.makeModifier d.modifier = some k)) = some d := by
  subst hds
  rw [List.find?_append, List.find?_eq_none.mpr (by simpa using hpre),
    List.find?_cons_of_pos _ (by simpa using hk)]
  rfl

theorem built_shadowed_registry :
    Built unix_convention
      [Declaration.presence "v".toList 0, Declaration.custom "v".toList record_value]
      shadowed_registry :=
  have h1 : Built unix_convention [Declaration.presence "v".toList 0]
      (presence_registry [("v".toList, 0)]) := Built.declare Built.new rfl
  Built.declare h1 rfl

/-- C1, as amended: when the cursor reaches an index `i < argc - 1` whose token is the
canonical spelling of a declared value-requiring flag, the iteration calls once, with raw
value `argv[i+1]`, the functor of the first registration call `d0` with that spelling (the
one `value_functors` keeps), and does nothing else: the positional sequence and the record of
tokens given to the unknown-token handler are unchanged. A declaration with that spelling
that has no declaration with the same spelling before it is `d0`: its own functor is the one
called. When the functor returns, the next cursor is `i + 2`; when it throws, `run` is left
at once. In no state of the run is the cursor `i + 1`, and `i + 1` is never among the visited
positions: `argv[i+1]` is not classified. -/
theorem valued_flag_consumes_next_token {ds : List (Declaration τ)} {store : Memory τ}
    {s : RunState τ} (hb : Built conv ds p) (hr : Reachable conv p cfg argv store s)
    (hi : s.pc + 1 < argv.length)
    (hd : ∃ d ∈ ds, d.requires_value = true ∧
      conv.makeModifier d.modifier = some (argv.getD s.pc [])) :
    ∃ d0, (ds.find? fun d => decide (conv.makeModifier d.modifier = some (argv.getD s.pc [])))
        = some d0 ∧
      (∀ d pre post, ds = pre ++ d :: post →
        conv.makeModifier d.modifier = some (argv.getD s.pc []) →
        (∀ e ∈ pre, conv.makeModifier e.modifier ≠ some (argv.getD s.pc [])) → d0 = d) ∧
      p.value_functors (argv.getD s.pc []) = some d0.functor ∧
      (∀ m, d0.functor (some (argv.getD (s.pc + 1) [])) s.store = some m →
        step conv p cfg argv s = .next
          { pc := s.pc + 2, app_args := s.app_args, store := m, visited := s.visited ++ [s.pc],
            calls := s.calls ++ [(argv.getD s.pc [], some (argv.getD (s.pc + 1) []))],
            dealt := s.dealt }) ∧
      (d0.functor (some (argv.getD (s.pc + 1) [])) s.store = none →
        step conv p cfg argv s = .stop .functor_threw
          { pc := s.pc, app_args := s.app_args, store := s.store,
            visited := s.visited ++ [s.pc],
            calls := s.calls ++ [(argv.getD s.pc [], some (argv.getD (s.pc + 1) []))],
            dealt := s.dealt }) ∧
      ∀ t, Reachable conv p cfg argv store t → t.pc ≠ s.pc + 1 ∧ s.pc + 1 ∉ t.visited := by
  obtain ⟨hk1, hk2, hk3⟩ := built_spec hb
  have hw : p.modifiers_with_parameters (argv.getD s.pc []) = true := (hk2 _).mpr hd
  have hk : p.known_modifiers (argv.getD s.pc []) = true := by
    obtain ⟨d, hd1, _, hd2⟩ := hd
    exact (hk1 _).mpr ⟨d, hd1, hd2⟩
  have hsome := (hk3 _).mpr hk
  obtain ⟨f, hf0⟩ := Option.isSome_iff_exists.mp hsome
  have hfun := built_functor hb (argv.getD s.pc [])
  cases hfind : ds.find? fun d => decide (conv.makeModifier d.modifier = some (argv.getD s.pc []))
    with
  | none =>
    rw [hfind, hf0] at hfun
    cases hfun
  | some d0 =>
  rw [hfind] at hfun
  have hf : p.value_functors (argv.getD s.pc []) = some d0.functor := hfun
  have hstep : step conv p cfg argv s =
      invoke p (argv.getD s.pc []) (some (argv.getD (s.pc + 1) [])) (s.pc + 1 + 1) (enter s) := by
    rcases step_cases conv p cfg argv s with ⟨_, _, _, he⟩ | ⟨_, _, hl, _⟩ | ⟨_, hw', _⟩ |
      ⟨hk', _⟩ | ⟨hk', _⟩ | ⟨hk', _⟩ | ⟨hk', _⟩
    · exact he
    · omega
    · rw [hw] at hw'; cases hw'
    · rw [hk] at hk'; cases hk'
    · rw [hk] at hk'; cases hk'
    · rw [hk] at hk'; cases hk'
    · rw [hk] at hk'; cases hk'
  refine ⟨d0, rfl, ?_, hf, ?_, ?_, ?_⟩
  · intro d pre post hds hsp hpre
    have := find_first_split ds pre post d _ hds hsp hpre
    rw [hfind] at this
    exact Option.some.inj this
  · intro m hm
    rw [hstep]
    simp only [invoke, hf, enter_store, hm]
    rfl
  · intro hm
    rw [hstep]
    simp only [invoke, hf, enter_store, hm]
    rfl
  · intro t ht
    have hs := reachable_visited hr
    have ht' := reachable_visited ht
    rcases Relation.ReflTransGen.total_of_right_unique next_unique hr ht with hst | hts
    · rcases Relation.ReflTransGen.cases_head hst with heq | ⟨s1, hn, h1t⟩
      · subst heq
        exact ⟨by omega, fun hmem => by have := hs.2 _ hmem; omega⟩
      · have hn2 := hn.2
        rw [hstep] at hn2
        obtain ⟨_, _, _, _, hs1⟩ := invoke_next hn2
        obtain ⟨h1, _, extra, h3, h4⟩ := steps_visited h1t
        rw [hs1] at h1 h3 h4
        simp only [enter_visited] at h1 h3 h4
        refine ⟨by omega, fun hmem => ?_⟩
        rw [h3] at hmem
        rcases List.mem_append.mp hmem with hmem | hmem
        · rcases List.mem_append.mp hmem with hmem | hmem
          · have := hs.2 _ hmem
            omega
          · rw [List.mem_singleton] at hmem
            omega
        · have := h4 _ hmem
          omega
    · have h1 := (steps_visited hts).1
      exact ⟨by omega, fun hmem => by have := ht'.2 _ hmem; omega⟩

/-- C1 on `prog --count 5`, with the one declaration of `count` and its functor
`record_value`: in the initial state that functor gets `5` and records it, the cursor goes
from 1 to 3, and position 2 is never visited. -/
theorem valued_flag_consumes_next_token_witness :
    step unix_convention count_registry (sample_policies 1 2)
        ["prog".toList, "--count".toList, "5".toList]
        (initial ["prog".toList, "--count".toList, "5".toList] empty_memory) = .next
      { pc := 3, app_args := ["prog".toList],
        store := { bools := fun _ => false, rest := ["5".toList] }, visited := [1],
        calls := [("--count".toList, some "5".toList)], dealt := [] } ∧
    ∀ t, Reachable unix_convention count_registry (sample_policies 1 2)
        ["prog".toList, "--count".toList, "5".toList] empty_memory t →
      t.pc ≠ 2 ∧ 2 ∉ t.visited := by
  obtain ⟨d0, _, hfirst, _, hnext, _, hreach⟩ :=
    @valued_flag_consumes_next_token _ unix_convention count_registry (sample_policies 1 2)
      ["prog".toList, "--count".toList, "5".toList] _ empty_memory
      (initial ["prog".toList, "--count".toList, "5".toList] empty_memory)
      built_count_registry Relation.ReflTransGen.refl (by decide)
      ⟨_, List.mem_singleton.mpr rfl, rfl, rfl⟩
  have hd0 : d0 = Declaration.custom "count".toList record_value :=
    hfirst _ [] [] rfl rfl (fun e he => by cases he)
  subst hd0
  exact ⟨hnext { bools := fun _ => false, rest := ["5".toList] } rfl, hreach⟩

/-- C1 as stated fails when the spelling of the value-requiring flag was registered before by
another call. After `addPresenceModifier("v", 0)` and `addCustomModifier("v", ...)` with the
functor `record_value`, the flag `v` is declared value-requiring and `-v` is a spelling with
parameter, but `value_functors` keeps the functor of the first call. On `p -v 5` the cursor
reaches index 1 with a token after it, and the functor called with `5` is the boolean one:
the boolean 0 is true after the run and nothing is recorded, while the functor of the
value-requiring declaration would have recorded `5`. -/
theorem valued_flag_binder_counterexample :
    Built unix_convention
      [Declaration.presence "v".toList 0, Declaration.custom "v".toList record_value]
      shadowed_registry ∧
    (Declaration.custom "v".toList record_value).requires_value = true ∧
    unix_convention.makeModifier
      (Declaration.custom "v".toList record_value).modifier = some "-v".toList ∧
    shadowed_registry.modifiers_with_parameters "-v".toList = true ∧
    shadowed_registry.value_functors "-v".toList = some (DefaultValueFunctor_bool 0) ∧
    (record_value (some "5".toList) empty_memory).map (fun m => m.rest) =
      some ["5".toList] ∧
    (run unix_convention shadowed_registry (sample_policies 1 2)
      ["p".toList, "-v".toList, "5".toList] empty_memory []).map
        (fun r => (r.exit, r.final.pc, r.final.visited, r.final.calls, r.final.store.rest,
          r.final.store.bools 0)) =
      some (.returned, 3, [1], [("-v".toList, some "5".toList)], [], true) :=
  ⟨built_shadowed_registry, rfl, rfl, rfl, rfl, rfl, rfl⟩

end claims

section presence

variable {conv : ConventionPolicy} {p : Parser τ} {cfg : Policies} {argv : List parser_string}

/-- In a registry of presence flags with pairwise distinct spellings, the iteration on the
spelling of the flag `(n, a)` writes `true` to the boolean at `a` and moves on by one. -/
theorem presence_step {decls : List (parser_string × Nat)}
    (hb : Built conv (presence_calls decls) p)
    (hn : (decls.map fun d => conv.makeModifier d.1).Nodup)
    {d : parser_string × Nat} (hd : d ∈ decls) (s : RunState τ)
    (hs : conv.makeModifier d.1 = some (argv.getD s.pc [])) :
    step conv p cfg argv s = .next
      { enter s with
        pc := s.pc + 1
        store := { s.store with bools := Function.update s.store.bools d.2 true }
        calls := s.calls ++ [(argv.getD s.pc [], none)] } := by
  obtain ⟨hk1, hk2, _⟩ := built_spec hb
  have hmem : Declaration.presence d.1 d.2 ∈ (presence_calls decls : List (Declaration τ)) :=
    List.mem_map_of_mem _ hd
  have hk : p.known_modifiers (argv.getD s.pc []) = true := (hk1 _).mpr ⟨_, hmem, hs⟩
  have hw : p.modifiers_with_parameters (argv.getD s.pc []) = false := by
    rw [← Bool.not_eq_true, hk2]
    rintro ⟨d', hd', hr, _⟩
    obtain ⟨x, _, rfl⟩ := List.mem_map.mp hd'
    cases hr
  have hf : p.value_functors (argv.getD s.pc []) = some (DefaultValueFunctor_bool d.2) := by
    rw [built_functor hb, find_first_declaration _ _ _ hmem hs]
    · rfl
    · simpa [presence_calls, Function.comp_def, Declaration.modifier] using hn
  rcases step_cases conv p cfg argv s with ⟨_, hw', _⟩ | ⟨_, hw', _⟩ | ⟨_, _, he⟩ |
    ⟨hk', _⟩ | ⟨hk', _⟩ | ⟨hk', _⟩ | ⟨hk', _⟩
  · rw [hw] at hw'; cases hw'
  · rw [hw] at hw'; cases hw'
  · rw [he]
    simp only [invoke, hf]
    rfl
  · rw [hk] at hk'; cases hk'
  · rw [hk] at hk'; cases hk'
  · rw [hk] at hk'; cases hk'
  · rw [hk] at hk'; cases hk'

/-- C2, as amended: in a registry built only by `addPresenceModifier`, with pairwise distinct
canonical spellings and pairwise distinct bound booleans, all of them false before the call,
and on a vector whose tokens from index 1 on are all spellings of declared flags, `run` ends
with each declared flag's boolean true exactly when its spelling occurs at some index `≥ 1`. -/
theorem presence_flags_iff_present {decls : List (parser_string × Nat)}
    {store : Memory τ} (out : List parser_string)
    (hb : Built conv (presence_calls decls) p)
    (hn : (decls.map fun d => conv.makeModifier d.1).Nodup)
    (ha : (decls.map fun d => d.2).Nodup)
    (htok : ∀ t ∈ argv.tail, ∃ d ∈ decls, conv.makeModifier d.1 = some t)
    (hinit : ∀ d ∈ decls, store.bools d.2 = false) :
    ∃ r, run conv p cfg argv store out = some r ∧
      ∀ d ∈ decls, (r.final.store.bools d.2 = true ↔
        ∃ t ∈ argv.tail, conv.makeModifier d.1 = some t) := by
  obtain ⟨r, hr⟩ := Option.isSome_iff_exists.mp (@run_isSome τ conv p cfg argv store out)
  refine ⟨r, hr, ?_⟩
  by_cases hne : argv = []
  · subst hne
    simp only [run, List.length_nil, if_true, Option.some.injEq] at hr
    subst hr
    intro d hd
    simp [initial, hinit d hd]
  · have hinv : ∀ u, Reachable conv p cfg argv store u → ∀ d ∈ decls,
        (u.store.bools d.2 = true ↔
          ∃ j, 1 ≤ j ∧ j < u.pc ∧ j < argv.length ∧
            conv.makeModifier d.1 = some (argv.getD j [])) := by
      intro u hu
      induction hu with
      | refl =>
        intro d hd
        simp only [initial, hinit d hd]
        constructor
        · intro h; cases h
        · rintro ⟨j, h1, h2, _⟩; omega
      | @tail b c _ hbc ih =>
        obtain ⟨d0, hd0, hs0⟩ := htok (argv.getD b.pc [])
          ((mem_tail_iff argv _).mpr ⟨b.pc, (reachable_visited ‹_›).1, hbc.1, rfl⟩)
        have hc := hbc.2
        rw [presence_step hb hn hd0 b hs0] at hc
        cases hc
        intro d hd
        simp only [enter_pc]
        by_cases hdd : d.2 = d0.2
        · rw [hdd, Function.update_same]
          have hdeq : d = d0 := by
            have := List.inj_on_of_nodup_map ha hd hd0 hdd
            exact this
          subst hdeq
          exact ⟨fun _ => ⟨b.pc, (reachable_visited ‹_›).1, by omega, hbc.1, hs0⟩, fun _ => rfl⟩
        · rw [Function.update_noteq hdd, ih d hd]
          constructor
          · rintro ⟨j, h1, h2, h3, h4⟩
            exact ⟨j, h1, by omega, h3, h4⟩
          · rintro ⟨j, h1, h2, h3, h4⟩
            refine ⟨j, h1, ?_, h3, h4⟩
            by_contra hc
            have hj : j = b.pc := by omega
            subst hj
            apply hdd
            have := List.inj_on_of_nodup_map hn hd hd0 (h4.trans hs0.symm)
            rw [this]
    obtain ⟨_, u, hu, hfin⟩ := run_sound hr hne
    have hstop : ¬ (u.pc < argv.length ∧ step conv p cfg argv u = .stop r.exit r.final) := by
      rintro ⟨hlt, hst⟩
      obtain ⟨d0, hd0, hs0⟩ := htok (argv.getD u.pc [])
        ((mem_tail_iff argv _).mpr ⟨u.pc, (reachable_visited hu).1, hlt, rfl⟩)
      rw [presence_step hb hn hd0 u hs0] at hst
      cases hst
    rcases hfin with ⟨hge, _, hfinal⟩ | hst
    · intro d hd
      rw [hfinal, hinv u hu d hd]
      constructor
      · rintro ⟨j, h1, _, h3, h4⟩
        exact ⟨_, (mem_tail_iff argv _).mpr ⟨j, h1, h3, rfl⟩, h4⟩
      · rintro ⟨t, ht, h4⟩
        obtain ⟨j, h1, h3, rfl⟩ := (mem_tail_iff argv _).mp ht
        exact ⟨j, h1, by omega, h3, h4⟩
    · exact (hstop hst).elim

theorem built_presence_two (a b : parser_string × Nat)
    (ha : (unix_convention.makeModifier a.1).isSome = true)
    (hb : (unix_convention.makeModifier b.1).isSome = true) :
    Built unix_convention (presence_calls [a, b]) (presence_registry [a, b]) := by
  obtain ⟨x, hx⟩ := Option.isSome_iff_exists.mp ha
  obtain ⟨y, hy⟩ := Option.isSome_iff_exists.mp hb
  have h1 : Parser.declare unix_convention (Parser.new : Parser (List parser_string))
      (.presence a.1 a.2) = some (presence_registry [a]) := by
    simp [Parser.declare, Parser.addPresenceModifier, presence_registry, hx]
  have h2 : Parser.declare unix_convention (presence_registry [a]) (.presence b.1 b.2) =
      some (presence_registry [a, b]) := by
    simp [Parser.declare, Parser.addPresenceModifier, presence_registry, hx, hy]
  exact Built.declare (Built.declare Built.new h1) h2

/-- C2 on the flags `v` (boolean 0) and `x` (boolean 1) and the vector `p -v`. -/
theorem presence_flags_iff_present_witness :
    ∃ r, run unix_convention (presence_registry [("v".toList, 0), ("x".toList, 1)])
        (sample_policies 1 2) ["p".toList, "-v".toList] empty_memory [] = some r ∧
      ∀ d ∈ [("v".toList, 0), ("x".toList, 1)], (r.final.store.bools d.2 = true ↔
        ∃ t ∈ ["p".toList, "-v".toList].tail, unix_convention.makeModifier d.1 = some t) :=
  @presence_flags_iff_present _ unix_convention _ (sample_policies 1 2)
    ["p".toList, "-v".toList] [("v".toList, 0), ("x".toList, 1)] empty_memory []
    (built_presence_two _ _ rfl rfl) (by decide) (by decide) (by decide) (by decide)

/-- C2 as stated fails in two ways. With the flags `a` and `b` both bound to the boolean 0,
the vector `p -b` leaves the boolean of `a` true although `-a` does not occur. With the flag
`a` declared twice, bound to the booleans 0 and 1, the vector `p -a` leaves the boolean 1
false although `-a` occurs: the map keeps the functor of the first call. In both cases the
names are not empty, the only token after the program name is the spelling of a declared
flag, and all booleans are false before the call. -/
theorem presence_flags_counterexample :
    (Built unix_convention (presence_calls [("a".toList, 0), ("b".toList, 0)])
        (presence_registry [("a".toList, 0), ("b".toList, 0)]) ∧
      unix_convention.makeModifier "b".toList = some "-b".toList ∧
      (run unix_convention (presence_registry [("a".toList, 0), ("b".toList, 0)])
        (sample_policies 1 2) ["p".toList, "-b".toList] empty_memory []).map
          (fun r => (r.exit, r.final.store.bools 0)) = some (.returned, true) ∧
      ¬ ∃ t ∈ ["p".toList, "-b".toList].tail, unix_convention.makeModifier "a".toList = some t) ∧
    (Built unix_convention (presence_calls [("a".toList, 0), ("a".toList, 1)])
        (presence_registry [("a".toList, 0), ("a".toList, 1)]) ∧
      (run unix_convention (presence_registry [("a".toList, 0), ("a".toList, 1)])
        (sample_policies 1 2) ["p".toList, "-a".toList] empty_memory []).map
          (fun r => (r.exit, r.final.store.bools 1)) = some (.returned, false) ∧
      ∃ t ∈ ["p".toList, "-a".toList].tail, unix_convention.makeModifier "a".toList = some t) :=
  ⟨⟨built_presence_two _ _ rfl rfl, rfl, by decide, by decide⟩,
    ⟨built_presence_two _ _ rfl rfl, by decide, by decide⟩⟩

end presence

section inline_form

variable {p : Parser τ} {cfg : Policies}

theorem makeModifier_spec {n s : parser_string} (h : UNIXConvention.makeModifier n = some s) :
    n ≠ [] ∧ 2 ≤ s.length ∧ (s = '-' :: n ∨ s = '-' :: '-' :: n) := by
  unfold UNIXConvention.makeModifier at h
  by_cases h0 : n.length = 0
  · rw [if_pos h0] at h; cases h
  · rw [if_neg h0] at h
    have hne : n ≠ [] := fun hc => h0 (by rw [hc]; rfl)
    by_cases h1 : n.length = 1
    · rw [if_pos h1] at h
      cases h
      exact ⟨hne, by simp [h1], Or.inl rfl⟩
    · rw [if_neg h1] at h
      cases h
      exact ⟨hne, by simp, Or.inr rfl⟩

theorem makeModifier_no_separator {n s : parser_string}
    (h : UNIXConvention.makeModifier n = some s) (hn : '=' ∉ n) : '=' ∉ s := by
  rcases (makeModifier_spec h).2.2 with rfl | rfl
  · simp [hn]
  · simp [hn]

/-- C3: under the UNIX convention, in a registry whose declared names contain no `=`, for a
declared value-requiring flag with canonical spelling `s`, the vectors `[prog, s=v]` and
`[prog, s, v]` give the same run: in both the functor registered under `s` is called once,
with raw value `v`, and nothing else is called; the two runs end the same way, with the same
storage and the same published and accumulated positional sequence. -/
theorem inline_form_equivalence {ds : List (Declaration τ)}
    (hb : Built unix_convention ds p) (hnames : ∀ d ∈ ds, '=' ∉ d.modifier)
    {d : Declaration τ} (hd : d ∈ ds) (hv : d.requires_value = true) {s : parser_string}
    (hs : UNIXConvention.makeModifier d.modifier = some s)
    (prog v : parser_string) (store : Memory τ) (out : List parser_string) :
    ∃ f r1 r2, p.value_functors s = some f ∧
      run unix_convention p cfg [prog, s ++ '=' :: v] store out = some r1 ∧
      run unix_convention p cfg [prog, s, v] store out = some r2 ∧
      r1.final.calls = [(s, some v)] ∧ r2.final.calls = [(s, some v)] ∧
      r1.exit = r2.exit ∧ r1.final.store = r2.final.store ∧
      r1.final.store = (f (some v) store).getD store ∧
      r1.in_args = r2.in_args ∧ r1.final.app_args = r2.final.app_args ∧
      r1.final.dealt = [] ∧ r2.final.dealt = [] := by
  obtain ⟨hk1, hk2, hk3⟩ := built_spec hb
  have hsep : '=' ∉ s := makeModifier_no_separator hs (hnames d hd)
  have hlen : 2 ≤ s.length := (makeModifier_spec hs).2.1
  have hw : p.modifiers_with_parameters s = true := (hk2 s).mpr ⟨d, hd, hv, hs⟩
  have hk : p.known_modifiers s = true := (hk1 s).mpr ⟨d, hd, hs⟩
  obtain ⟨f, hf⟩ := Option.isSome_iff_exists.mp ((hk3 s).mpr hk)
  have hnk : p.known_modifiers (s ++ '=' :: v) = false := by
    rw [← Bool.not_eq_true, hk1]
    rintro ⟨d', hd', hs'⟩
    have := makeModifier_no_separator hs' (hnames d' hd')
    simp at this
  have h1 : step unix_convention p cfg [prog, s ++ '=' :: v]
      (initial [prog, s ++ '=' :: v] store) =
      invoke p s (some v) 2 (enter (initial [prog, s ++ '=' :: v] store)) := by
    have hm := mayBeModifierWithParam_append s v hsep hlen
    have hn := extractModifierName_append s v hsep hlen
    have hp := extractModifierParam_append s v hsep
    rcases step_cases unix_convention p cfg [prog, s ++ '=' :: v]
      (initial [prog, s ++ '=' :: v] store) with ⟨hk', _⟩ | ⟨hk', _⟩ | ⟨hk', _⟩ |
      ⟨_, _, _, he⟩ | ⟨_, _, hw', _⟩ | ⟨_, hm', _⟩ | ⟨_, hm', _⟩
    · exact absurd (hk'.symm.trans hnk) (by decide)
    · exact absurd (hk'.symm.trans hnk) (by decide)
    · exact absurd (hk'.symm.trans hnk) (by decide)
    · rw [he]
      show invoke p (UNIXConvention.extractModifierName (s ++ '=' :: v))
        (some (UNIXConvention.extractModifierParam (s ++ '=' :: v))) 2 _ = _
      rw [hn, hp]
    · have hw'' : p.modifiers_with_parameters
          (UNIXConvention.extractModifierName (s ++ '=' :: v)) = false := hw'
      rw [hn, hw] at hw''
      cases hw''
    · exact absurd (hm.symm.trans hm') (by decide)
    · exact absurd (hm.symm.trans hm') (by decide)
  have h2 : step unix_convention p cfg [prog, s, v] (initial [prog, s, v] store) =
      invoke p s (some v) 3 (enter (initial [prog, s, v] store)) := by
    rcases step_cases unix_convention p cfg [prog, s, v] (initial [prog, s, v] store) with
      ⟨_, _, _, he⟩ | ⟨_, _, hl, _⟩ | ⟨_, hw', _⟩ | ⟨hk', _⟩ | ⟨hk', _⟩ | ⟨hk', _⟩ | ⟨hk', _⟩
    · exact he
    · cases hl
    · exact absurd (hw.symm.trans hw') (by decide)
    · exact absurd (hk.symm.trans hk') (by decide)
    · exact absurd (hk.symm.trans hk') (by decide)
    · exact absurd (hk.symm.trans hk') (by decide)
    · exact absurd (hk.symm.trans hk') (by decide)
  have r1 : Reachable unix_convention p cfg [prog, s ++ '=' :: v] store
      (initial [prog, s ++ '=' :: v] store) := Relation.ReflTransGen.refl
  have r2 : Reachable unix_convention p cfg [prog, s, v] store (initial [prog, s, v] store) :=
    Relation.ReflTransGen.refl
  cases hm : f (some v) store with
  | none =>
    rw [invoke_of_none hf hm] at h1 h2
    rw [run_of_stop r1 (by simp) (by simp [initial]) h1 out,
      run_of_stop r2 (by simp) (by simp [initial]) h2 out]
    exact ⟨f, _, _, hf, rfl, rfl, rfl, rfl, rfl, rfl, by rw [hm]; rfl, rfl, rfl, rfl, rfl⟩
  | some m =>
    rw [invoke_of_some hf hm] at h1 h2
    rw [run_of_final (r1.tail ⟨by simp [initial], h1⟩) (by simp) (by simp) out,
      run_of_final (r2.tail ⟨by simp [initial], h2⟩) (by simp) (by simp) out]
    exact ⟨f, _, _, hf, rfl, rfl, rfl, rfl, rfl, rfl, by rw [hm]; rfl, rfl, rfl, rfl, rfl⟩

/-- C3 on `--count=5` against `--count 5`, for the flag `count` registered with the functor
`record_value`. -/
theorem inline_form_equivalence_witness :
    ∃ f r1 r2, count_registry.value_functors "--count".toList = some f ∧
      run unix_convention count_registry (sample_policies 1 2)
        ["prog".toList, "--count".toList ++ '=' :: "5".toList] empty_memory [] = some r1 ∧
      run unix_convention count_registry (sample_policies 1 2)
        ["prog".toList, "--count".toList, "5".toList] empty_memory [] = some r2 ∧
      r1.final.calls = [("--count".toList, some "5".toList)] ∧
      r2.final.calls = [("--count".toList, some "5".toList)] ∧
      r1.exit = r2.exit ∧ r1.final.store = r2.final.store ∧
      r1.final.store = (f (some "5".toList) empty_memory).getD empty_memory ∧
      r1.in_args = r2.in_args ∧ r1.final.app_args = r2.final.app_args ∧
      r1.final.dealt = [] ∧ r2.final.dealt = [] :=
  @inline_form_equivalence _ count_registry (sample_policies 1 2) _ built_count_registry
    (by decide) (Declaration.custom "count".toList record_value) (List.mem_singleton.mpr rfl)
    rfl "--count".toList rfl "prog".toList "5".toList empty_memory []

end inline_form

section positional

variable {conv : ConventionPolicy} {p : Parser τ} {cfg : Policies} {argv : List parser_string}

/-- An iteration never leaves `run` the way the end of the loop does. -/
theorem step_stop_exit {s t : RunState τ} {e : Exit}
    (h : step conv p cfg argv s = .stop e t) : e ≠ .returned := by
  rcases step_cases conv p cfg argv s with ⟨_, _, _, he⟩ | ⟨_, _, _, he⟩ | ⟨_, _, he⟩ |
    ⟨_, _, _, he⟩ | ⟨_, _, _, he⟩ | ⟨_, _, _, he⟩ | ⟨_, _, _, he⟩ <;> rw [he] at h
  · rcases invoke_stop h with ⟨_, rfl, _⟩ | ⟨_, _, _, rfl, _⟩ <;> simp
  · rcases (missing_stop h).2 with rfl | rfl <;> simp
  · rcases invoke_stop h with ⟨_, rfl, _⟩ | ⟨_, _, _, rfl, _⟩ <;> simp
  · rcases invoke_stop h with ⟨_, rfl, _⟩ | ⟨_, _, _, rfl, _⟩ <;> simp
  · rcases (handle_unknown_stop h).2 with ⟨_, rfl⟩ | ⟨_, rfl⟩ <;> simp
  · cases h
  · rcases (handle_unknown_stop h).2 with ⟨_, rfl⟩ | ⟨_, rfl⟩ <;> simp

/-- With positional collection enabled, an iteration appends its token to `app_args` exactly
when the token is neither a known spelling nor of the inline-valued shape. -/
theorem step_next_app_args {s s' : RunState τ} (he : p.expect_arguments = true)
    (h : step conv p cfg argv s = .next s') :
    s'.app_args = s.app_args ++ [argv.getD s.pc []].filter
      (fun t => !p.known_modifiers t && !conv.mayBeModifierWithParam t) := by
  rcases step_cases conv p cfg argv s with ⟨hk, _, _, hs⟩ | ⟨hk, _, _, hs⟩ | ⟨hk, _, hs⟩ |
    ⟨hk, hm, _, hs⟩ | ⟨hk, hm, _, hs⟩ | ⟨hk, hm, _, hs⟩ | ⟨_, _, he', _⟩
  · rw [hs] at h
    obtain ⟨_, _, _, _, rfl⟩ := invoke_next h
    simp only [List.filter_cons, List.filter_nil, hk, Bool.not_true, Bool.false_and,
      Bool.false_eq_true, if_false, List.append_nil, enter_app_args]
  · rw [hs] at h
    rw [missing_next h]
    simp only [List.filter_cons, List.filter_nil, hk, Bool.not_true, Bool.false_and,
      Bool.false_eq_true, if_false, List.append_nil, enter_app_args]
  · rw [hs] at h
    obtain ⟨_, _, _, _, rfl⟩ := invoke_next h
    simp only [List.filter_cons, List.filter_nil, hk, Bool.not_true, Bool.false_and,
      Bool.false_eq_true, if_false, List.append_nil, enter_app_args]
  · rw [hs] at h
    obtain ⟨_, _, _, _, rfl⟩ := invoke_next h
    simp only [List.filter_cons, List.filter_nil, hk, hm, Bool.not_true, Bool.not_false,
      Bool.true_and, Bool.and_false, Bool.and_self, Bool.false_eq_true, if_false, if_true,
      List.append_nil, enter_app_args]
  · rw [hs] at h
    obtain ⟨_, _, rfl⟩ := handle_unknown_next h
    simp only [List.filter_cons, List.filter_nil, hk, hm, Bool.not_true, Bool.not_false,
      Bool.true_and, Bool.and_false, Bool.and_self, Bool.false_eq_true, if_false, if_true,
      List.append_nil, enter_app_args]
  · rw [hs] at h
    cases h
    simp only [List.filter_cons, List.filter_nil, hk, hm, Bool.not_true, Bool.not_false,
      Bool.true_and, Bool.and_false, Bool.and_self, Bool.false_eq_true, if_false, if_true,
      List.append_nil, enter_app_args]
  · rw [he] at he'
    cases he'

/-- The functor calls already made stay on record, and the iteration on a presence flag (a
known spelling without parameter) adds the call of its functor with no value. -/
theorem step_next_calls {s s' : RunState τ} (h : step conv p cfg argv s = .next s') :
    (∀ c ∈ s.calls, c ∈ s'.calls) ∧
    (p.known_modifiers (argv.getD s.pc []) = true →
      p.modifiers_with_parameters (argv.getD s.pc []) = false →
      ∃ f m, p.value_functors (argv.getD s.pc []) = some f ∧ f none s.store = some m ∧
        s'.store = m ∧ (argv.getD s.pc [], none) ∈ s'.calls) := by
  rcases step_cases conv p cfg argv s with ⟨_, hw, _, hs⟩ | ⟨_, hw, _, hs⟩ | ⟨_, _, hs⟩ |
    ⟨hk, _, _, hs⟩ | ⟨hk, _, _, hs⟩ | ⟨hk, _, _, hs⟩ | ⟨hk, _, _, hs⟩ <;> rw [hs] at h
  · obtain ⟨_, _, _, _, rfl⟩ := invoke_next h
    exact ⟨fun c hc => List.mem_append_left _ hc, fun _ hw' => by rw [hw] at hw'; cases hw'⟩
  · rw [missing_next h]
    exact ⟨fun c hc => hc, fun _ hw' => by rw [hw] at hw'; cases hw'⟩
  · obtain ⟨f, m, hf, hm, rfl⟩ := invoke_next h
    exact ⟨fun c hc => List.mem_append_left _ hc,
      fun _ _ => ⟨f, m, hf, hm, rfl, List.mem_append_right _ (List.mem_singleton.mpr rfl)⟩⟩
  · obtain ⟨_, _, _, _, rfl⟩ := invoke_next h
    exact ⟨fun c hc => List.mem_append_left _ hc, fun hk' => by rw [hk] at hk'; cases hk'⟩
  · obtain ⟨_, _, rfl⟩ := handle_unknown_next h
    exact ⟨fun c hc => hc, fun hk' => by rw [hk] at hk'; cases hk'⟩
  · cases h
    exact ⟨fun c hc => hc, fun hk' => by rw [hk] at hk'; cases hk'⟩
  · obtain ⟨_, _, rfl⟩ := handle_unknown_next h
    exact ⟨fun c hc => hc, fun hk' => by rw [hk] at hk'; cases hk'⟩

theorem steps_calls {s t : RunState τ}
    (h : Relation.ReflTransGen (Next conv p cfg argv) s t) : ∀ c ∈ s.calls, c ∈ t.calls := by
  induction h with
  | refl => exact fun c hc => hc
  | tail _ hn ih => exact fun c hc => (step_next_calls hn.2).1 c (ih c hc)

/-- An iteration that reaches `pc++` leaves the storage as it was, or as one call of a
functor of `value_functors` left it. -/
theorem step_next_store {s s' : RunState τ} (h : step conv p cfg argv s = .next s') :
    s'.store = s.store ∨
    ∃ k f raw, p.value_functors k = some f ∧ f raw s.store = some s'.store := by
  rcases step_cases conv p cfg argv s with ⟨_, _, _, hs⟩ | ⟨_, _, _, hs⟩ | ⟨_, _, hs⟩ |
    ⟨_, _, _, hs⟩ | ⟨_, _, _, hs⟩ | ⟨_, _, _, hs⟩ | ⟨_, _, _, hs⟩ <;> rw [hs] at h
  · obtain ⟨f, m, hf, hm, rfl⟩ := invoke_next h
    exact Or.inr ⟨_, f, _, hf, hm⟩
  · rw [missing_next h]
    exact Or.inl rfl
  · obtain ⟨f, m, hf, hm, rfl⟩ := invoke_next h
    exact Or.inr ⟨_, f, _, hf, hm⟩
  · obtain ⟨f, m, hf, hm, rfl⟩ := invoke_next h
    exact Or.inr ⟨_, f, _, hf, hm⟩
  · obtain ⟨_, _, rfl⟩ := handle_unknown_next h
    exact Or.inl rfl
  · cases h
    exact Or.inl rfl
  · obtain ⟨_, _, rfl⟩ := handle_unknown_next h
    exact Or.inl rfl

/-- In a parser the caller built, the first registration call with a known spelling without
parameter is a call of `addPresenceModifier`. -/
theorem built_first_presence {ds : List (Declaration τ)} (hb : Built conv ds p)
    {k : parser_string} (hk : p.known_modifiers k = true)
    (hw : p.modifiers_with_parameters k = false) :
    ∃ n a, (ds.find? fun d => decide (conv.makeModifier d.modifier = some k)) =
      some (Declaration.presence n a) := by
  obtain ⟨hk1, hk2, hk3⟩ := built_spec hb
  obtain ⟨f, hf⟩ := Option.isSome_iff_exists.mp ((hk3 k).mpr hk)
  rw [built_functor hb k] at hf
  cases hfind : ds.find? fun d => decide (conv.makeModifier d.modifier = some k) with
  | none => rw [hfind] at hf; cases hf
  | some d =>
    have hmem := List.mem_of_find?_eq_some hfind
    have hsp : conv.makeModifier d.modifier = some k := by
      simpa using List.find?_some hfind
    have hnv : d.requires_value = false := by
      rw [← Bool.not_eq_true]
      intro hv
      have := (hk2 k).mpr ⟨d, hmem, hv, hsp⟩
      rw [hw] at this
      cases this
    cases d with
    | presence n a => exact ⟨n, a, rfl⟩
    | typed n f => cases hnv
    | custom n f => cases hnv

/-- In a parser built by calls of `addPresenceModifier` only, no functor of `value_functors`
turns a true boolean false. -/
theorem presence_only_monotone {ds : List (Declaration τ)} (hb : Built conv ds p)
    (hp : ∀ d ∈ ds, d.requires_value = false) (a : Nat) :
    ∀ k f raw m m', p.value_functors k = some f → f raw m = some m' →
      m.bools a = true → m'.bools a = true := by
  intro k f raw m m' hf hm ha
  rw [built_functor hb k] at hf
  cases hfind : ds.find? fun d => decide (conv.makeModifier d.modifier = some k) with
  | none => rw [hfind] at hf; cases hf
  | some d =>
    have hnv := hp d (List.mem_of_find?_eq_some hfind)
    rw [hfind] at hf
    cases d with
    | presence n b =>
      cases hf
      simp only [Declaration.functor, DefaultValueFunctor_bool, Option.some.injEq] at hm
      rw [← hm]
      by_cases hab : a = b
      · rw [hab]
        exact Function.update_same _ _ _
      · show Function.update m.bools b true a = true
        rw [Function.update_noteq hab]
        exact ha
    | typed n f => cases hnv
    | custom n f => cases hnv

/-- C4, as amended: with positional collection enabled, when `run` ends normally the
sequence published to the caller is `argv[0]` followed, in the order of the vector, by
exactly the visited tokens that are neither a known spelling nor of the inline-valued shape;
the visited positions are indices from 1 on, in increasing order. For every visited token
that is a presence flag (a known spelling without parameter), the iteration visiting it
called the functor registered under it with no value, and the first registration call with
this spelling is a call `addPresenceModifier(n, a)`. For every call
`addPresenceModifier(n, a)` that is the first registration call with the spelling of a
visited token, the boolean at `a` is true after the iteration that visits the token; it is
true when `run` ends as well if no functor of the registry turns the boolean at `a` from
true to false. -/
theorem positional_capture {ds : List (Declaration τ)} {store : Memory τ}
    {out : List parser_string} {r : RunResult τ} (hb : Built conv ds p)
    (he : p.expect_arguments = true) (h : run conv p cfg argv store out = some r)
    (hx : r.exit = .returned) :
    r.in_args = argv.getD 0 [] :: (r.final.visited.map fun i => argv.getD i []).filter
      (fun t => !p.known_modifiers t && !conv.mayBeModifierWithParam t) ∧
    r.final.visited.Pairwise (· < ·) ∧
    (∀ i ∈ r.final.visited, 1 ≤ i ∧ i < argv.length) ∧
    (∀ i ∈ r.final.visited, p.known_modifiers (argv.getD i []) = true →
      p.modifiers_with_parameters (argv.getD i []) = false →
      (argv.getD i [], none) ∈ r.final.calls ∧
      ∃ n a, (ds.find? fun d => decide (conv.makeModifier d.modifier = some (argv.getD i [])))
        = some (Declaration.presence n a)) ∧
    (∀ i ∈ r.final.visited, ∀ n a,
      (ds.find? fun d => decide (conv.makeModifier d.modifier = some (argv.getD i [])))
        = some (Declaration.presence n a) →
      p.modifiers_with_parameters (argv.getD i []) = false →
      (∃ u u', Reachable conv p cfg argv store u ∧ Next conv p cfg argv u u' ∧ u.pc = i ∧
        u'.store.bools a = true) ∧
      ((∀ k f raw m m', p.value_functors k = some f → f raw m = some m' →
          m.bools a = true → m'.bools a = true) →
        r.final.store.bools a = true)) := by
  have hne : argv ≠ [] := by
    rintro rfl
    simp only [run, List.length_nil, if_true, Option.some.injEq] at h
    rw [← h] at hx
    cases hx
  obtain ⟨hk1, _, _⟩ := built_spec hb
  have hinv : ∀ u, Reachable conv p cfg argv store u →
      u.app_args = argv.getD 0 [] :: (u.visited.map fun i => argv.getD i []).filter
        (fun t => !p.known_modifiers t && !conv.mayBeModifierWithParam t) ∧
      (∀ i ∈ u.visited, i < argv.length) ∧
      (∀ i ∈ u.visited, p.known_modifiers (argv.getD i []) = true →
        p.modifiers_with_parameters (argv.getD i []) = false →
        (argv.getD i [], none) ∈ u.calls) ∧
      (∀ i ∈ u.visited, ∀ n a,
        (ds.find? fun d => decide (conv.makeModifier d.modifier = some (argv.getD i [])))
          = some (Declaration.presence n a) →
        p.modifiers_with_parameters (argv.getD i []) = false →
        (∃ v v', Reachable conv p cfg argv store v ∧ Next conv p cfg argv v v' ∧ v.pc = i ∧
          v'.store.bools a = true) ∧
        ((∀ k f raw m m', p.value_functors k = some f → f raw m = some m' →
            m.bools a = true → m'.bools a = true) →
          u.store.bools a = true)) := by
    intro u hu
    induction hu with
    | refl =>
      exact ⟨rfl, fun i hi => absurd hi (List.not_mem_nil i),
        fun i hi => absurd hi (List.not_mem_nil i),
        fun i hi => absurd hi (List.not_mem_nil i)⟩
    | @tail b c hb' hbc ih =>
      obtain ⟨ih1, ih2, ih3, ih4⟩ := ih
      have hv := (step_next_frame hbc.2 hbc.1).2.1
      refine ⟨?_, ?_, ?_, ?_⟩
      · rw [step_next_app_args he hbc.2, hv, ih1, List.map_append, List.filter_append]
        rfl
      · intro i hi
        rw [hv] at hi
        rcases List.mem_append.mp hi with hi | hi
        · exact ih2 i hi
        · rw [List.mem_singleton.mp hi]
          exact hbc.1
      · intro i hi hk hw
        rw [hv] at hi
        rcases List.mem_append.mp hi with hi | hi
        · exact (step_next_calls hbc.2).1 _ (ih3 i hi hk hw)
        · rw [List.mem_singleton] at hi
          subst hi
          obtain ⟨_, _, _, _, _, hc⟩ := (step_next_calls hbc.2).2 hk hw
          exact hc
      · intro i hi n a hfind hw
        rw [hv] at hi
        rcases List.mem_append.mp hi with hi | hi
        · obtain ⟨hex, hfin⟩ := ih4 i hi n a hfind hw
          refine ⟨hex, fun hmono => ?_⟩
          rcases step_next_store hbc.2 with hs | ⟨k, f, raw, hf, hm⟩
          · rw [hs]
            exact hfin hmono
          · exact hmono k f raw _ _ hf hm (hfin hmono)
        · rw [List.mem_singleton] at hi
          subst hi
          have hk : p.known_modifiers (argv.getD b.pc []) = true :=
            (hk1 _).mpr ⟨_, List.mem_of_find?_eq_some hfind,
              by simpa using List.find?_some hfind⟩
          obtain ⟨f, m, hf, hm, hst, _⟩ := (step_next_calls hbc.2).2 hk hw
          rw [built_functor hb, hfind] at hf
          cases hf
          have hset : c.store.bools a = true := by
            rw [hst]
            simp only [Declaration.functor, DefaultValueFunctor_bool, Option.some.injEq] at hm
            rw [← hm]
            exact Function.update_same _ _ _
          exact ⟨⟨b, c, hb', hbc, rfl, hset⟩, fun _ => hset⟩
  obtain ⟨hpub, u, hu, hfin⟩ := run_sound h hne
  rcases hfin with ⟨_, _, hfinal⟩ | ⟨_, hst⟩
  · obtain ⟨h1, h2, h3, h4⟩ := hinv u hu
    rw [hpub, hx, hfinal]
    refine ⟨?_, reachable_visited_sorted hu,
      fun i hi => ⟨((reachable_visited hu).2 i hi).1, h2 i hi⟩,
      fun i hi hk hw => ⟨h3 i hi hk hw, built_first_presence hb hk hw⟩, h4⟩
    simp only [publish, he, and_self, if_true]
    exact h1
  · exact absurd hx (step_stop_exit hst)

theorem built_verbose_registry :
    Built unix_convention [Declaration.presence "verbose".toList 0] verbose_registry :=
  Built.putArgumentsInto (Built.declare Built.new rfl)

/-- C4 on `prog --verbose file1.txt file2.txt` with the presence flag `verbose`, the only
declaration: the run publishes `prog file1.txt file2.txt`, the functor of `--verbose` was
called, and the boolean of `verbose` is true when `run` ends. -/
theorem positional_capture_witness :
    run unix_convention verbose_registry (sample_policies 1 2)
      ["prog".toList, "--verbose".toList, "file1.txt".toList, "file2.txt".toList]
      empty_memory [] = some verbose_result ∧
    verbose_result.in_args = ["prog".toList, "file1.txt".toList, "file2.txt".toList] ∧
    (verbose_result.final.visited.map fun i =>
      (["prog".toList, "--verbose".toList, "file1.txt".toList, "file2.txt".toList].getD i
        [])).filter
      (fun t => !verbose_registry.known_modifiers t &&
        !unix_convention.mayBeModifierWithParam t) = ["file1.txt".toList, "file2.txt".toList] ∧
    ("--verbose".toList, none) ∈ verbose_result.final.calls ∧
    verbose_result.final.store.bools 0 = true :=
  have h := @positional_capture _ unix_convention verbose_registry (sample_policies 1 2)
    ["prog".toList, "--verbose".toList, "file1.txt".toList, "file2.txt".toList] _
    empty_memory [] verbose_result built_verbose_registry rfl rfl rfl
  ⟨rfl, rfl, List.cons_injective h.1.symm, (h.2.2.2.1 1 (by decide) rfl rfl).1,
    (h.2.2.2.2 1 (by decide) "verbose".toList 0 rfl rfl).2
      (presence_only_monotone built_verbose_registry (by decide) 0)⟩

theorem built_doubled_registry :
    Built unix_convention
      [Declaration.presence "v".toList 0, Declaration.presence "v".toList 1]
      doubled_registry :=
  have h1 : Built unix_convention [Declaration.presence "v".toList 0]
      (presence_registry [("v".toList, 0)]) := Built.declare Built.new rfl
  have h2 : Built unix_convention
      [Declaration.presence "v".toList 0, Declaration.presence "v".toList 1]
      (presence_registry [("v".toList, 0), ("v".toList, 1)]) := Built.declare h1 rfl
  Built.putArgumentsInto h2

theorem built_rebound_registry :
    Built unix_convention
      [Declaration.presence "v".toList 0, Declaration.custom "c".toList (convert_bool 0)]
      rebound_registry :=
  have h1 : Built unix_convention [Declaration.presence "v".toList 0]
      (presence_registry [("v".toList, 0)]) := Built.declare Built.new rfl
  have h2 : Built unix_convention
      [Declaration.presence "v".toList 0, Declaration.custom "c".toList (convert_bool 0)]
      (((presence_registry [("v".toList, 0)]).addCustomModifier unix_convention "c".toList
        (convert_bool 0)).getD Parser.new) := Built.declare h1 rfl
  Built.putArgumentsInto h2

/-- C4 as stated fails in its last part, in two ways, while the published sequence is as
claimed. First, with the presence flag `v` declared twice, bound to the boolean 0 and then to
the boolean 1, the run on `p -v f` ends normally and publishes `p f`; the token `-v` is
reached and is the spelling of both declarations, but only the functor of the first one is
kept and called: the boolean 1 of the second declaration stays false. Second, with the
presence flag `v` bound to the boolean 0 and the value-requiring flag `c` whose functor
writes to the same boolean, the run on `p -v -c 0 f` ends normally and publishes `p f`; the
iteration on `-v` sets the boolean 0, and the functor of `-c`, called later with `0`, writes
false to it: the boolean of the reached presence flag is false when `run` ends. -/
theorem positional_capture_counterexample :
    Built unix_convention
      [Declaration.presence "v".toList 0, Declaration.presence "v".toList 1]
      doubled_registry ∧
    doubled_registry.expect_arguments = true ∧
    unix_convention.makeModifier "v".toList = some "-v".toList ∧
    (run unix_convention doubled_registry (sample_policies 1 2)
      ["p".toList, "-v".toList, "f".toList] empty_memory []).map
        (fun r => (r.exit, r.in_args, r.final.visited, r.final.calls, r.final.store.bools 0,
          r.final.store.bools 1)) =
      some (.returned, ["p".toList, "f".toList], [1, 2], [("-v".toList, none)], true,
        false) ∧
    Built unix_convention
      [Declaration.presence "v".toList 0, Declaration.custom "c".toList (convert_bool 0)]
      rebound_registry ∧
    rebound_registry.expect_arguments = true ∧
    rebound_registry.modifiers_with_parameters "-v".toList = false ∧
    (run unix_convention rebound_registry (sample_policies 1 2)
      ["p".toList, "-v".toList, "-c".toList, "0".toList, "f".toList] empty_memory []).map
        (fun r => (r.exit, r.in_args, r.final.visited, r.final.calls,
          r.final.store.bools 0)) =
      some (.returned, ["p".toList, "f".toList], [1, 2, 4],
        [("-v".toList, none), ("-c".toList, some "0".toList)], false) :=
  ⟨built_doubled_registry, rfl, rfl, rfl, built_rebound_registry, rfl, rfl, rfl⟩

end positional

section missing_parameter

variable {conv : ConventionPolicy} {p : Parser τ} {cfg : Policies} {argv : List parser_string}

theorem publish_of_thrown (out : List parser_string) (what : String) (s : RunState τ) :
    publish p out (.thrown what) s = out := by
  simp [publish]

theorem publish_of_reported (out : List parser_string) (what : String) (s : RunState τ) :
    publish p out (.reported what) s = out := by
  simp [publish]

/-- C5, as amended: when the cursor reaches the last index `argc - 1` and the token there is
the canonical spelling of a declared value-requiring flag, `run` ends in the missing-parameter
error: with `HandleBadModifier = THROW_EXCEPTION` it throws `modifier missing argument`, with
`ERROR` it reports that text and returns. In both cases no functor is called in this
iteration and the storage, the calls and the positional sequence are those reached before
it; the caller's vector is not written. -/
theorem missing_parameter_at_last_token {ds : List (Declaration τ)} {store : Memory τ}
    {s : RunState τ} (hb : Built conv ds p) (hr : Reachable conv p cfg argv store s)
    (hl : s.pc + 1 = argv.length)
    (hd : ∃ d ∈ ds, d.requires_value = true ∧
      conv.makeModifier d.modifier = some (argv.getD s.pc []))
    (out : List parser_string) :
    (cfg.HandleBadModifier = cfg.BadModifierPolicy_THROW_EXCEPTION →
      run conv p cfg argv store out = some
        { exit := .thrown "modifier missing argument"
          final := { s with visited := s.visited ++ [s.pc] }
          in_args := out }) ∧
    (cfg.HandleBadModifier = cfg.BadModifierPolicy_ERROR →
      run conv p cfg argv store out = some
        { exit := .reported "modifier missing argument"
          final := { s with visited := s.visited ++ [s.pc] }
          in_args := out }) := by
  obtain ⟨hk1, hk2, _⟩ := built_spec hb
  have hw : p.modifiers_with_parameters (argv.getD s.pc []) = true := (hk2 _).mpr hd
  have hk : p.known_modifiers (argv.getD s.pc []) = true := by
    obtain ⟨d, hd1, _, hd2⟩ := hd
    exact (hk1 _).mpr ⟨d, hd1, hd2⟩
  have hne : argv ≠ [] := by
    intro hc
    rw [hc] at hl
    cases hl
  have hlt : s.pc < argv.length := by omega
  have hstep : step conv p cfg argv s =
      if cfg.HandleBadModifier = cfg.BadModifierPolicy_THROW_EXCEPTION then
        .stop (.thrown "modifier missing argument") (enter s)
      else if cfg.HandleBadModifier = cfg.BadModifierPolicy_ERROR then
        .stop (.reported "modifier missing argument") (enter s)
      else .next { enter s with pc := s.pc + 1 } := by
    rcases step_cases conv p cfg argv s with ⟨_, _, hl', _⟩ | ⟨_, _, _, he⟩ | ⟨_, hw', _⟩ |
      ⟨hk', _⟩ | ⟨hk', _⟩ | ⟨hk', _⟩ | ⟨hk', _⟩
    · omega
    · exact he
    · rw [hw] at hw'; cases hw'
    · rw [hk] at hk'; cases hk'
    · rw [hk] at hk'; cases hk'
    · rw [hk] at hk'; cases hk'
    · rw [hk] at hk'; cases hk'
  constructor
  · intro ht
    rw [if_pos ht] at hstep
    rw [run_of_stop hr hne hlt hstep out, publish_of_thrown]
    rfl
  · intro ht
    have hnt : ¬ cfg.HandleBadModifier = cfg.BadModifierPolicy_THROW_EXCEPTION := by
      rw [ht]
      exact fun hc => cfg.bad_labels hc.symm
    rw [if_neg hnt, if_pos ht] at hstep
    rw [run_of_stop hr hne hlt hstep out, publish_of_reported]
    rfl

/-- C5 on `prog --count`: under `THROW_EXCEPTION` (code 0) the run throws, under `ERROR`
(code 1) it reports and returns; nothing was called and the storage is untouched. -/
theorem missing_parameter_at_last_token_witness :
    run unix_convention count_registry (sample_policies 0 2)
        ["prog".toList, "--count".toList] empty_memory [] = some
      { exit := .thrown "modifier missing argument"
        final := { pc := 1, app_args := ["prog".toList], store := empty_memory,
                   visited := [1], calls := [], dealt := [] }
        in_args := [] } ∧
    run unix_convention count_registry (sample_policies 1 2)
        ["prog".toList, "--count".toList] empty_memory [] = some
      { exit := .reported "modifier missing argument"
        final := { pc := 1, app_args := ["prog".toList], store := empty_memory,
                   visited := [1], calls := [], dealt := [] }
        in_args := [] } :=
  ⟨(@missing_parameter_at_last_token _ unix_convention count_registry (sample_policies 0 2)
      ["prog".toList, "--count".toList] _ empty_memory
      (initial ["prog".toList, "--count".toList] empty_memory) built_count_registry
      Relation.ReflTransGen.refl rfl ⟨_, List.mem_singleton.mpr rfl, rfl, rfl⟩ []).1 rfl,
    (@missing_parameter_at_last_token _ unix_convention count_registry (sample_policies 1 2)
      ["prog".toList, "--count".toList] _ empty_memory
      (initial ["prog".toList, "--count".toList] empty_memory) built_count_registry
      Relation.ReflTransGen.refl rfl ⟨_, List.mem_singleton.mpr rfl, rfl, rfl⟩ []).2 rfl⟩

/-- C5 as stated fails on `prog --count --count`: the last token is the canonical spelling
of the declared value-requiring flag `count` and no earlier token aborts the scan, but the
cursor never reaches it, because the first `--count` takes it as its value. Under both
policies the run ends normally, with the one call of the functor of `--count` on the raw
value `--count`. -/
theorem missing_parameter_counterexample :
    Built unix_convention [Declaration.custom "count".toList record_value] count_registry ∧
    unix_convention.makeModifier "count".toList = some "--count".toList ∧
    ["prog".toList, "--count".toList, "--count".toList].getLast? = some "--count".toList ∧
    (run unix_convention count_registry (sample_policies 0 2)
        ["prog".toList, "--count".toList, "--count".toList] empty_memory []).map
      (fun r => (r.exit, r.final.calls, r.final.visited)) =
      some (.returned, [("--count".toList, some "--count".toList)], [1]) ∧
    (run unix_convention count_registry (sample_policies 1 2)
        ["prog".toList, "--count".toList, "--count".toList] empty_memory []).map
      (fun r => (r.exit, r.final.calls, r.final.visited)) =
      some (.returned, [("--count".toList, some "--count".toList)], [1]) :=
  ⟨built_count_registry, rfl, rfl, rfl, rfl⟩

end missing_parameter

section suspicious

variable {conv : ConventionPolicy} {p : Parser τ} {cfg : Policies} {argv : List parser_string}

/-- An iteration leaves `app_args` alone or appends its token, and it appends only a token
that is neither a known spelling nor of the inline-valued shape. -/
theorem step_next_appended {s s' : RunState τ} (h : step conv p cfg argv s = .next s') :
    s'.app_args = s.app_args ∨
    (p.known_modifiers (argv.getD s.pc []) = false ∧
      conv.mayBeModifierWithParam (argv.getD s.pc []) = false ∧
      s'.app_args = s.app_args ++ [argv.getD s.pc []]) := by
  rcases step_cases conv p cfg argv s with ⟨_, _, _, hs⟩ | ⟨_, _, _, hs⟩ | ⟨_, _, hs⟩ |
    ⟨_, _, _, hs⟩ | ⟨_, _, _, hs⟩ | ⟨hk, hm, _, hs⟩ | ⟨_, _, _, hs⟩ <;> rw [hs] at h
  · obtain ⟨_, _, _, _, rfl⟩ := invoke_next h
    exact Or.inl rfl
  · rw [missing_next h]
    exact Or.inl rfl
  · obtain ⟨_, _, _, _, rfl⟩ := invoke_next h
    exact Or.inl rfl
  · obtain ⟨_, _, _, _, rfl⟩ := invoke_next h
    exact Or.inl rfl
  · obtain ⟨_, _, rfl⟩ := handle_unknown_next h
    exact Or.inl rfl
  · cases h
    exact Or.inr ⟨hk, hm, rfl⟩
  · obtain ⟨_, _, rfl⟩ := handle_unknown_next h
    exact Or.inl rfl

/-- In every state of a run, `app_args` is `argv[0]` followed by tokens that are neither
known spellings nor of the inline-valued shape. -/
theorem reachable_app_args {store : Memory τ} {s : RunState τ}
    (h : Reachable conv p cfg argv store s) :
    ∃ rest, s.app_args = argv.getD 0 [] :: rest ∧
      ∀ x ∈ rest, p.known_modifiers x = false ∧ conv.mayBeModifierWithParam x = false := by
  induction h with
  | refl => exact ⟨[], rfl, by simp⟩
  | tail _ hn ih =>
    obtain ⟨rest, h1, h2⟩ := ih
    rcases step_next_appended hn.2 with he | ⟨hk, hm, he⟩
    · exact ⟨rest, he.trans h1, h2⟩
    · refine ⟨rest ++ [_], by rw [he, h1]; rfl, ?_⟩
      intro x hx
      rcases List.mem_append.mp hx with hx | hx
      · exact h2 x hx
      · rw [List.mem_singleton.mp hx]
        exact ⟨hk, hm⟩

/-- C6: a token reached by the cursor that is not a known spelling, has the inline-valued
shape, and whose extracted name is not a spelling with parameter, is given to the
unknown-token handler, whether positional collection is enabled or not: the iteration calls
`deal` on the positional sequence collected so far and the token, and the answer of `deal`
alone decides what follows. On the answer `THROW_EXCEPTION` the iteration throws
`unknown modifier`, on the answer `ERROR` it reports `unknown modifier` and returns, on any
other answer it goes on to the next token; in the three cases the position is recorded as
dealt with, no functor is called and `app_args` is left as it was. In no state of the run,
and in no result of `run`, does such a token stand in `app_args` after `argv[0]`. -/
theorem inline_shaped_unknown_goes_to_handler {store : Memory τ} {s : RunState τ}
    (hr : Reachable conv p cfg argv store s)
    (hk : p.known_modifiers (argv.getD s.pc []) = false)
    (hm : conv.mayBeModifierWithParam (argv.getD s.pc []) = true)
    (hw : p.modifiers_with_parameters (conv.extractModifierName (argv.getD s.pc [])) = false) :
    step conv p cfg argv s = handle_unknown cfg (argv.getD s.pc []) (enter s) ∧
    (cfg.deal s.app_args (argv.getD s.pc []) = cfg.UnknownModifierPolicy_THROW_EXCEPTION →
      step conv p cfg argv s = .stop (.thrown "unknown modifier")
        { pc := s.pc, app_args := s.app_args, store := s.store,
          visited := s.visited ++ [s.pc], calls := s.calls, dealt := s.dealt ++ [s.pc] }) ∧
    (cfg.deal s.app_args (argv.getD s.pc []) = cfg.UnknownModifierPolicy_ERROR →
      step conv p cfg argv s = .stop (.reported "unknown modifier")
        { pc := s.pc, app_args := s.app_args, store := s.store,
          visited := s.visited ++ [s.pc], calls := s.calls, dealt := s.dealt ++ [s.pc] }) ∧
    (cfg.deal s.app_args (argv.getD s.pc []) ≠ cfg.UnknownModifierPolicy_THROW_EXCEPTION →
      cfg.deal s.app_args (argv.getD s.pc []) ≠ cfg.UnknownModifierPolicy_ERROR →
      step conv p cfg argv s = .next
        { pc := s.pc + 1, app_args := s.app_args, store := s.store,
          visited := s.visited ++ [s.pc], calls := s.calls, dealt := s.dealt ++ [s.pc] }) ∧
    (∀ s', step conv p cfg argv s = .next s' →
      s'.app_args = s.app_args ∧ s'.calls = s.calls ∧ s'.dealt = s.dealt ++ [s.pc]) ∧
    (∀ e s', step conv p cfg argv s = .stop e s' →
      s'.app_args = s.app_args ∧ s'.calls = s.calls ∧ s'.dealt = s.dealt ++ [s.pc]) ∧
    (∀ t, Reachable conv p cfg argv store t → argv.getD s.pc [] ∉ t.app_args.tail) ∧
    (∀ out r, run conv p cfg argv store out = some r →
      argv.getD s.pc [] ∉ r.final.app_args.tail) := by
  have hstep : step conv p cfg argv s = handle_unknown cfg (argv.getD s.pc []) (enter s) := by
    rcases step_cases conv p cfg argv s with ⟨hk', _⟩ | ⟨hk', _⟩ | ⟨hk', _⟩ |
      ⟨_, _, hw', _⟩ | ⟨_, _, _, he⟩ | ⟨_, hm', _⟩ | ⟨_, hm', _⟩
    · rw [hk] at hk'; cases hk'
    · rw [hk] at hk'; cases hk'
    · rw [hk] at hk'; cases hk'
    · rw [hw] at hw'; cases hw'
    · exact he
    · rw [hm] at hm'; cases hm'
    · rw [hm] at hm'; cases hm'
  have hreach : ∀ t, Reachable conv p cfg argv store t →
      argv.getD s.pc [] ∉ t.app_args.tail := by
    intro t ht hmem
    obtain ⟨rest, h1, h2⟩ := reachable_app_args ht
    rw [h1] at hmem
    have := (h2 _ hmem).2
    rw [hm] at this
    cases this
  refine ⟨hstep, ?_, ?_, ?_, ?_, ?_, hreach, ?_⟩
  · intro hd
    rw [hstep, handle_unknown_eq]
    simp only [enter_app_args]
    rw [if_pos hd]
    rfl
  · intro hd
    have hd' : cfg.deal s.app_args (argv.getD s.pc []) ≠
        cfg.UnknownModifierPolicy_THROW_EXCEPTION := by
      rw [hd]
      exact fun hc => cfg.unknown_labels hc.symm
    rw [hstep, handle_unknown_eq]
    simp only [enter_app_args]
    rw [if_neg hd', if_pos hd]
    rfl
  · intro hd1 hd2
    rw [hstep, handle_unknown_eq]
    simp only [enter_app_args]
    rw [if_neg hd1, if_neg hd2]
    rfl
  · intro s' h
    rw [hstep] at h
    obtain ⟨_, _, rfl⟩ := handle_unknown_next h
    exact ⟨rfl, rfl, rfl⟩
  · intro e s' h
    rw [hstep] at h
    rw [(handle_unknown_stop h).1]
    exact ⟨rfl, rfl, rfl⟩
  · intro out r h
    by_cases hne : argv = []
    · subst hne
      simp only [run, List.length_nil, if_true, Option.some.injEq] at h
      rw [← h]
      simp [initial]
    · obtain ⟨_, u, hu, hfin⟩ := run_sound h hne
      rcases hfin with ⟨_, _, hfinal⟩ | ⟨_, hst⟩
      · rw [hfinal]
        exact hreach u hu
      · rw [(step_stop_frame hst).2.2.1]
        exact hreach u hu

/-- C6 on `prog key=value` with positional collection enabled: the token goes to the
handler, and the answer of the handler decides. With a handler that answers `ERROR` the
iteration reports `unknown modifier` and `run` returns, with a handler that answers
`THROW_EXCEPTION` it throws, with a handler that answers `continue` the loop goes on; the
token is never collected. -/
theorem inline_shaped_unknown_goes_to_handler_witness :
    step unix_convention verbose_registry (sample_policies 1 1)
        ["prog".toList, "key=value".toList]
        (initial ["prog".toList, "key=value".toList] empty_memory) =
      .stop (.reported "unknown modifier")
        { pc := 1, app_args := ["prog".toList], store := empty_memory, visited := [1],
          calls := [], dealt := [1] } ∧
    step unix_convention verbose_registry (sample_policies 1 0)
        ["prog".toList, "key=value".toList]
        (initial ["prog".toList, "key=value".toList] empty_memory) =
      .stop (.thrown "unknown modifier")
        { pc := 1, app_args := ["prog".toList], store := empty_memory, visited := [1],
          calls := [], dealt := [1] } ∧
    step unix_convention verbose_registry (sample_policies 1 2)
        ["prog".toList, "key=value".toList]
        (initial ["prog".toList, "key=value".toList] empty_memory) =
      .next { pc := 2, app_args := ["prog".toList], store := empty_memory, visited := [1],
              calls := [], dealt := [1] } ∧
    ∀ out r, run unix_convention verbose_registry (sample_policies 1 2)
        ["prog".toList, "key=value".toList] empty_memory out = some r →
      "key=value".toList ∉ r.final.app_args.tail :=
  have herror := @inline_shaped_unknown_goes_to_handler _ unix_convention verbose_registry
    (sample_policies 1 1) ["prog".toList, "key=value".toList] empty_memory
    (initial ["prog".toList, "key=value".toList] empty_memory)
    Relation.ReflTransGen.refl rfl rfl rfl
  have hthrow := @inline_shaped_unknown_goes_to_handler _ unix_convention verbose_registry
    (sample_policies 1 0) ["prog".toList, "key=value".toList] empty_memory
    (initial ["prog".toList, "key=value".toList] empty_memory)
    Relation.ReflTransGen.refl rfl rfl rfl
  have h := @inline_shaped_unknown_goes_to_handler _ unix_convention verbose_registry
    (sample_policies 1 2) ["prog".toList, "key=value".toList] empty_memory
    (initial ["prog".toList, "key=value".toList] empty_memory)
    Relation.ReflTransGen.refl rfl rfl rfl
  ⟨herror.2.2.1 rfl, hthrow.2.1 rfl, h.2.2.2.1 (by decide) (by decide), h.2.2.2.2.2.2.2⟩

end suspicious

section skip_policy

variable {conv : ConventionPolicy} {p : Parser τ} {cfg : Policies} {argv : List parser_string}

theorem drop_eq_cons {l : List parser_string} {k : Nat} (h : k < l.length) :
    l.drop k = l.getD k [] :: l.drop (k + 1) := by
  rw [List.getD_eq_getElem?_getD, List.getElem?_eq_getElem h]
  exact List.drop_eq_getElem_cons h

theorem drop_cons_inv {l rest : List parser_string} {x : parser_string} {k : Nat}
    (h : l.drop k = x :: rest) :
    k < l.length ∧ l.getD k [] = x ∧ l.drop (k + 1) = rest := by
  have hlt : k < l.length := by
    by_contra hc
    rw [List.drop_eq_nil_of_le (by omega)] at h
    cases h
  rw [drop_eq_cons hlt] at h
  cases h
  exact ⟨hlt, rfl, rfl⟩

theorem delete_from_cons_of_not_mem {idx : List Nat} {k : Nat} (x : parser_string)
    (xs : List parser_string) (h : k ∉ idx) :
    delete_from idx k (x :: xs) = x :: delete_from idx (k + 1) xs := by
  rw [delete_from, if_neg h]

theorem delete_from_cons_of_mem {idx : List Nat} {k : Nat} (x : parser_string)
    (xs : List parser_string) (h : k ∈ idx) :
    delete_from idx k (x :: xs) = delete_from idx (k + 1) xs := by
  rw [delete_from, if_pos h]

theorem delete_from_length_le (idx : List Nat) (l : List parser_string) :
    ∀ k, (delete_from idx k l).length ≤ l.length := by
  induction l with
  | nil => intro k; simp [delete_from]
  | cons x xs ih =>
    intro k
    by_cases h : k ∈ idx
    · rw [delete_from_cons_of_mem x xs h]
      exact Nat.le_succ_of_le (ih _)
    · rw [delete_from_cons_of_not_mem x xs h]
      exact Nat.succ_le_succ (ih _)

theorem run_loop_mono {fuel : Nat} : ∀ {s : RunState τ} {x : Exit × RunState τ},
    run_loop conv p cfg argv fuel s = some x →
    run_loop conv p cfg argv (fuel + 1) s = some x := by
  induction fuel with
  | zero => intro s x h; cases h
  | succ n ih =>
    intro s x h
    rw [run_loop_succ] at h ⊢
    by_cases hlt : s.pc < argv.length
    · rw [if_pos hlt] at h ⊢
      cases hs : step conv p cfg argv s with
      | next s' =>
        rw [hs] at h
        exact ih h
      | stop e s' =>
        rw [hs] at h
        exact h
    · rw [if_neg hlt] at h ⊢
      exact h

theorem steps_dealt {s t : RunState τ}
    (h : Relation.ReflTransGen (Next conv p cfg argv) s t) :
    ∃ extra, t.dealt = s.dealt ++ extra ∧ ∀ j ∈ extra, s.pc ≤ j ∧ j < t.pc := by
  induction h with
  | refl => exact ⟨[], by simp, by simp⟩
  | @tail b c hsb hn ih =>
    obtain ⟨extra, h3, h4⟩ := ih
    obtain ⟨hpc, _, hd⟩ := step_next_frame hn.2 hn.1
    have hle := (steps_visited hsb).1
    rcases hd with hd | hd
    · refine ⟨extra, hd.trans h3, fun j hj => ?_⟩
      have := h4 j hj
      omega
    · refine ⟨extra ++ [b.pc], by rw [hd, h3, List.append_assoc], fun j hj => ?_⟩
      rcases List.mem_append.mp hj with hj | hj
      · have := h4 j hj
        omega
      · rw [List.mem_singleton] at hj
        omega

/-- The positions dealt with by the loop from a state on lie at or after its cursor. -/
theorem run_loop_dealt {fuel : Nat} {s t : RunState τ} {e : Exit}
    (h : run_loop conv p cfg argv fuel s = some (e, t)) :
    ∃ extra, t.dealt = s.dealt ++ extra ∧ ∀ j ∈ extra, s.pc ≤ j := by
  obtain ⟨u, hu, hfin⟩ := run_loop_sound fuel s e t h
  obtain ⟨extra, h3, h4⟩ := steps_dealt hu
  have hle := (steps_visited hu).1
  rcases hfin with ⟨_, _, rfl⟩ | ⟨_, hst⟩
  · exact ⟨extra, h3, fun j hj => (h4 j hj).1⟩
  · rcases (step_stop_frame hst).2.2.2 with hd | hd
    · exact ⟨extra, hd.trans h3, fun j hj => (h4 j hj).1⟩
    · refine ⟨extra ++ [u.pc], by rw [hd, h3, List.append_assoc], fun j hj => ?_⟩
      rcases List.mem_append.mp hj with hj | hj
      · exact (h4 j hj).1
      · rw [List.mem_singleton] at hj
        omega

end skip_policy

section skip_policy_simulation

variable {conv : ConventionPolicy} {p : Parser τ} {cfg : Policies} {argv : List parser_string}

theorem step_valued_eq {s : RunState τ} (hk : p.known_modifiers (argv.getD s.pc []) = true)
    (hw : p.modifiers_with_parameters (argv.getD s.pc []) = true)
    (hl : s.pc ≠ argv.length - 1) :
    step conv p cfg argv s =
      invoke p (argv.getD s.pc []) (some (argv.getD (s.pc + 1) [])) (s.pc + 2) (enter s) := by
  rcases step_cases conv p cfg argv s with ⟨_, _, _, he⟩ | ⟨_, _, hl', _⟩ | ⟨_, hw', _⟩ |
    ⟨hk', _⟩ | ⟨hk', _⟩ | ⟨hk', _⟩ | ⟨hk', _⟩
  · exact he
  · exact absurd hl' hl
  · rw [hw] at hw'; cases hw'
  · rw [hk] at hk'; cases hk'
  · rw [hk] at hk'; cases hk'
  · rw [hk] at hk'; cases hk'
  · rw [hk] at hk'; cases hk'

theorem step_missing_eq {s : RunState τ} (hk : p.known_modifiers (argv.getD s.pc []) = true)
    (hw : p.modifiers_with_parameters (argv.getD s.pc []) = true)
    (hl : s.pc = argv.length - 1) :
    step conv p cfg argv s =
      if cfg.HandleBadModifier = cfg.BadModifierPolicy_THROW_EXCEPTION then
        .stop (.thrown "modifier missing argument") (enter s)
      else if cfg.HandleBadModifier = cfg.BadModifierPolicy_ERROR then
        .stop (.reported "modifier missing argument") (enter s)
      else .next { enter s with pc := s.pc + 1 } := by
  rcases step_cases conv p cfg argv s with ⟨_, _, hl', _⟩ | ⟨_, _, _, he⟩ | ⟨_, hw', _⟩ |
    ⟨hk', _⟩ | ⟨hk', _⟩ | ⟨hk', _⟩ | ⟨hk', _⟩
  · exact absurd hl hl'
  · exact he
  · rw [hw] at hw'; cases hw'
  · rw [hk] at hk'; cases hk'
  · rw [hk] at hk'; cases hk'
  · rw [hk] at hk'; cases hk'
  · rw [hk] at hk'; cases hk'

theorem step_presence_eq {s : RunState τ} (hk : p.known_modifiers (argv.getD s.pc []) = true)
    (hw : p.modifiers_with_parameters (argv.getD s.pc []) = false) :
    step conv p cfg argv s = invoke p (argv.getD s.pc []) none (s.pc + 1) (enter s) := by
  rcases step_cases conv p cfg argv s with ⟨_, hw', _⟩ | ⟨_, hw', _⟩ | ⟨_, _, he⟩ |
    ⟨hk', _⟩ | ⟨hk', _⟩ | ⟨hk', _⟩ | ⟨hk', _⟩
  · rw [hw] at hw'; cases hw'
  · rw [hw] at hw'; cases hw'
  · exact he
  · rw [hk] at hk'; cases hk'
  · rw [hk] at hk'; cases hk'
  · rw [hk] at hk'; cases hk'
  · rw [hk] at hk'; cases hk'

theorem step_inline_eq {s : RunState τ} (hk : p.known_modifiers (argv.getD s.pc []) = false)
    (hm : conv.mayBeModifierWithParam (argv.getD s.pc []) = true)
    (hw : p.modifiers_with_parameters (conv.extractModifierName (argv.getD s.pc [])) = true) :
    step conv p cfg argv s =
      invoke p (conv.extractModifierName (argv.getD s.pc []))
        (some (conv.extractModifierParam (argv.getD s.pc []))) (s.pc + 1) (enter s) := by
  rcases step_cases conv p cfg argv s with ⟨hk', _⟩ | ⟨hk', _⟩ | ⟨hk', _⟩ |
    ⟨_, _, _, he⟩ | ⟨_, _, hw', _⟩ | ⟨_, hm', _⟩ | ⟨_, hm', _⟩
  · rw [hk] at hk'; cases hk'
  · rw [hk] at hk'; cases hk'
  · rw [hk] at hk'; cases hk'
  · exact he
  · rw [hw] at hw'; cases hw'
  · rw [hm] at hm'; cases hm'
  · rw [hm] at hm'; cases hm'

theorem agree_enter {s s' : RunState τ} (h : Agree s s') : Agree (enter s) (enter s') := h

theorem invoke_in_sync {s s' : RunState τ} (ha : Agree s s') (key : parser_string)
    (raw : Option parser_string) (k : Nat) :
    InSync k s s' (invoke p key raw (s.pc + k) (enter s))
      (invoke p key raw (s'.pc + k) (enter s')) := by
  obtain ⟨h1, h2, h3⟩ := ha
  unfold invoke
  cases p.value_functors key with
  | none => exact ⟨rfl, ⟨h1, h2, h3⟩, rfl, rfl⟩
  | some f =>
    simp only [enter_store, h2]
    cases f raw s.store with
    | none => exact ⟨rfl, ⟨h1, rfl, by simp [h3]⟩, rfl, rfl⟩
    | some m => exact ⟨rfl, rfl, ⟨h1, rfl, by simp [h3]⟩, rfl, rfl⟩

theorem missing_in_sync {s s' : RunState τ} (ha : Agree s s') :
    InSync 1 s s'
      (if cfg.HandleBadModifier = cfg.BadModifierPolicy_THROW_EXCEPTION then
        .stop (.thrown "modifier missing argument") (enter s)
      else if cfg.HandleBadModifier = cfg.BadModifierPolicy_ERROR then
        .stop (.reported "modifier missing argument") (enter s)
      else .next { enter s with pc := s.pc + 1 })
      (if cfg.HandleBadModifier = cfg.BadModifierPolicy_THROW_EXCEPTION then
        .stop (.thrown "modifier missing argument") (enter s')
      else if cfg.HandleBadModifier = cfg.BadModifierPolicy_ERROR then
        .stop (.reported "modifier missing argument") (enter s')
      else .next { enter s' with pc := s'.pc + 1 }) := by
  split
  · exact ⟨rfl, ha, rfl, rfl⟩
  · split
    · exact ⟨rfl, ha, rfl, rfl⟩
    · exact ⟨rfl, rfl, ha, rfl, rfl⟩

/-- After an iteration that goes together with itself, the positions it moved over are not
among those the loop deals with. -/
theorem not_dealt_of_in_sync {n k : Nat} {s t : RunState τ} {e : Exit}
    (h : run_loop conv p cfg argv (n + 1) s = some (e, t)) (hlt : s.pc < argv.length)
    (hd : ∀ j ∈ s.dealt, j < s.pc)
    (hsync : InSync k s s (step conv p cfg argv s) (step conv p cfg argv s)) :
    ∀ j, s.pc ≤ j → j < s.pc + k → j ∉ t.dealt := by
  intro j h1 h2 hmem
  rw [run_loop_succ, if_pos hlt] at h
  cases hs : step conv p cfg argv s with
  | next s1 =>
    rw [hs] at h hsync
    obtain ⟨hpc, _, _, hd1, _⟩ := hsync
    obtain ⟨extra, h3, h4⟩ := run_loop_dealt h
    rw [h3, hd1] at hmem
    rcases List.mem_append.mp hmem with hm | hm
    · have := hd j hm
      omega
    · have := h4 j hm
      omega
  | stop e1 t1 =>
    rw [hs] at h hsync
    obtain ⟨_, _, hd1, _⟩ := hsync
    cases h
    rw [hd1] at hmem
    have := hd j hmem
    omega

/-- The induction step of the simulation, for two iterations that go together. -/
theorem sim_advance {n : Nat} (k : Nat) (hk : 0 < k)
    (ih : ∀ (s : RunState τ) (e : Exit) (t : RunState τ),
      run_loop conv p cfg argv n s = some (e, t) → (∀ j ∈ s.dealt, j < s.pc) →
      ∀ (argv' : List parser_string) (s' : RunState τ), Agree s s' →
      argv'.drop s'.pc = delete_from t.dealt s.pc (argv.drop s.pc) →
      ∃ t', run_loop conv p cfg argv' n s' = some (e, t') ∧ Agree t t' ∧ t'.dealt = s'.dealt)
    {s t : RunState τ} {e : Exit}
    (h : run_loop conv p cfg argv (n + 1) s = some (e, t)) (hlt : s.pc < argv.length)
    (hd : ∀ j ∈ s.dealt, j < s.pc) {argv' : List parser_string} {s' : RunState τ}
    (hlt' : s'.pc < argv'.length)
    (hsync : InSync k s s' (step conv p cfg argv s) (step conv p cfg argv' s'))
    (hsuf : argv'.drop (s'.pc + k) = delete_from t.dealt (s.pc + k) (argv.drop (s.pc + k))) :
    ∃ t', run_loop conv p cfg argv' (n + 1) s' = some (e, t') ∧ Agree t t' ∧
      t'.dealt = s'.dealt := by
  rw [run_loop_succ, if_pos hlt] at h
  rw [run_loop_succ, if_pos hlt']
  cases hs : step conv p cfg argv s with
  | next s1 =>
    cases hs' : step conv p cfg argv' s' with
    | next s1' =>
      rw [hs, hs'] at hsync
      rw [hs] at h
      obtain ⟨h1, h2, ha, hd1, hd2⟩ := hsync
      have hd' : ∀ j ∈ s1.dealt, j < s1.pc := by
        intro j hj
        rw [hd1] at hj
        have := hd j hj
        omega
      obtain ⟨t', ht', hat, hdt⟩ := ih s1 e t h hd' argv' s1' ha (by rw [h1, h2]; exact hsuf)
      exact ⟨t', ht', hat, hdt.trans hd2⟩
    | stop e' t1' =>
      rw [hs, hs'] at hsync
      exact hsync.elim
  | stop e1 t1 =>
    cases hs' : step conv p cfg argv' s' with
    | next s1' =>
      rw [hs, hs'] at hsync
      exact hsync.elim
    | stop e' t1' =>
      rw [hs, hs'] at hsync
      rw [hs] at h
      obtain ⟨he, ha, _, hd2⟩ := hsync
      cases h
      exact ⟨t1', by rw [he], ha, hd2⟩

end skip_policy_simulation

section skip_policy_claim

variable {conv : ConventionPolicy} {p : Parser τ} {cfg : Policies} {argv : List parser_string}

theorem handle_unknown_skip
    (hskip : ∀ a t, cfg.deal a t ≠ cfg.UnknownModifierPolicy_THROW_EXCEPTION ∧
      cfg.deal a t ≠ cfg.UnknownModifierPolicy_ERROR)
    (tok : parser_string) (s : RunState τ) :
    handle_unknown cfg tok s = .next { s with dealt := s.dealt ++ [s.pc], pc := s.pc + 1 } := by
  rw [handle_unknown_eq, if_neg (hskip _ _).1, if_neg (hskip _ _).2]

/-- With the skip policy, no iteration leaves `run` over an unknown token. -/
theorem step_stop_not_unknown
    (hskip : ∀ a t, cfg.deal a t ≠ cfg.UnknownModifierPolicy_THROW_EXCEPTION ∧
      cfg.deal a t ≠ cfg.UnknownModifierPolicy_ERROR)
    {s t : RunState τ} {e : Exit} (h : step conv p cfg argv s = .stop e t) :
    e ≠ .thrown "unknown modifier" ∧ e ≠ .reported "unknown modifier" := by
  rcases step_cases conv p cfg argv s with ⟨_, _, _, he⟩ | ⟨_, _, _, he⟩ | ⟨_, _, he⟩ |
    ⟨_, _, _, he⟩ | ⟨_, _, _, he⟩ | ⟨_, _, _, he⟩ | ⟨_, _, _, he⟩ <;> rw [he] at h
  · rcases invoke_stop h with ⟨_, rfl, _⟩ | ⟨_, _, _, rfl, _⟩ <;> simp
  · rcases (missing_stop h).2 with rfl | rfl <;> simp
  · rcases invoke_stop h with ⟨_, rfl, _⟩ | ⟨_, _, _, rfl, _⟩ <;> simp
  · rcases invoke_stop h with ⟨_, rfl, _⟩ | ⟨_, _, _, rfl, _⟩ <;> simp
  · rw [handle_unknown_skip hskip] at h
    cases h
  · cases h
  · rw [handle_unknown_skip hskip] at h
    cases h

/-- The simulation behind the skip policy: the loop on `argv` from `s`, and the loop from a
state that agrees with `s` on a vector whose rest is the rest of `argv` without the tokens
the first loop gives to the handler, end the same way in states that agree; the second
loop gives no token to the handler. -/
theorem skip_simulation (he : p.expect_arguments = false)
    (hskip : ∀ a t, cfg.deal a t ≠ cfg.UnknownModifierPolicy_THROW_EXCEPTION ∧
      cfg.deal a t ≠ cfg.UnknownModifierPolicy_ERROR) (fuel : Nat) :
    ∀ (s : RunState τ) (e : Exit) (t : RunState τ),
      run_loop conv p cfg argv fuel s = some (e, t) → (∀ j ∈ s.dealt, j < s.pc) →
      ∀ (argv' : List parser_string) (s' : RunState τ), Agree s s' →
      argv'.drop s'.pc = delete_from t.dealt s.pc (argv.drop s.pc) →
      ∃ t', run_loop conv p cfg argv' fuel s' = some (e, t') ∧ Agree t t' ∧
        t'.dealt = s'.dealt := by
  induction fuel with
  | zero => intro s e t h; cases h
  | succ n ih =>
    intro s e t h hd argv' s' ha hsuf
    by_cases hlt : s.pc < argv.length
    · rw [drop_eq_cons hlt] at hsuf
      have hself : Agree s s := ⟨rfl, rfl, rfl⟩
      rcases step_cases conv p cfg argv s with ⟨hk, hw, hl, _⟩ | ⟨hk, hw, hl, _⟩ |
        ⟨hk, hw, _⟩ | ⟨hk, hm, hw, _⟩ | ⟨_, _, _, hs⟩ | ⟨_, _, he', _⟩ | ⟨_, _, _, hs⟩
      · have hl1 : s.pc + 1 < argv.length := by omega
        have hnot := not_dealt_of_in_sync h hlt hd
          (by rw [step_valued_eq hk hw hl]; exact invoke_in_sync hself _ _ 2)
        rw [delete_from_cons_of_not_mem _ _ (hnot s.pc (le_refl _) (by omega)),
          drop_eq_cons hl1,
          delete_from_cons_of_not_mem _ _ (hnot (s.pc + 1) (by omega) (by omega))] at hsuf
        obtain ⟨hlt', htok, hsuf1⟩ := drop_cons_inv hsuf
        obtain ⟨hlt1', hnxt, hsuf2⟩ := drop_cons_inv hsuf1
        have hstep' := @step_valued_eq τ conv p cfg argv' s' (by rw [htok]; exact hk)
          (by rw [htok]; exact hw) (by omega)
        rw [htok, hnxt] at hstep'
        exact sim_advance 2 (by decide) ih h hlt hd hlt'
          (by rw [step_valued_eq hk hw hl, hstep']; exact invoke_in_sync ha _ _ 2) hsuf2
      · have hnot := not_dealt_of_in_sync h hlt hd
          (by rw [step_missing_eq hk hw hl]; exact missing_in_sync hself)
        rw [delete_from_cons_of_not_mem _ _ (hnot s.pc (le_refl _) (by omega))] at hsuf
        obtain ⟨hlt', htok, hsuf1⟩ := drop_cons_inv hsuf
        have hlast : s'.pc = argv'.length - 1 := by
          have h0 : argv.drop (s.pc + 1) = [] := List.drop_eq_nil_of_le (by omega)
          rw [h0] at hsuf1
          have := List.drop_eq_nil_iff.mp hsuf1
          omega
        have hstep' := @step_missing_eq τ conv p cfg argv' s' (by rw [htok]; exact hk)
          (by rw [htok]; exact hw) hlast
        exact sim_advance 1 (by decide) ih h hlt hd hlt'
          (by rw [step_missing_eq hk hw hl, hstep']; exact missing_in_sync ha) hsuf1
      · have hnot := not_dealt_of_in_sync h hlt hd
          (by rw [step_presence_eq hk hw]; exact invoke_in_sync hself _ _ 1)
        rw [delete_from_cons_of_not_mem _ _ (hnot s.pc (le_refl _) (by omega))] at hsuf
        obtain ⟨hlt', htok, hsuf1⟩ := drop_cons_inv hsuf
        have hstep' := @step_presence_eq τ conv p cfg argv' s' (by rw [htok]; exact hk)
          (by rw [htok]; exact hw)
        rw [htok] at hstep'
        exact sim_advance 1 (by decide) ih h hlt hd hlt'
          (by rw [step_presence_eq hk hw, hstep']; exact invoke_in_sync ha _ _ 1) hsuf1
      · have hnot := not_dealt_of_in_sync h hlt hd
          (by rw [step_inline_eq hk hm hw]; exact invoke_in_sync hself _ _ 1)
        rw [delete_from_cons_of_not_mem _ _ (hnot s.pc (le_refl _) (by omega))] at hsuf
        obtain ⟨hlt', htok, hsuf1⟩ := drop_cons_inv hsuf
        have hstep' := @step_inline_eq τ conv p cfg argv' s' (by rw [htok]; exact hk)
          (by rw [htok]; exact hm) (by rw [htok]; exact hw)
        rw [htok] at hstep'
        exact sim_advance 1 (by decide) ih h hlt hd hlt'
          (by rw [step_inline_eq hk hm hw, hstep']; exact invoke_in_sync ha _ _ 1) hsuf1
      · rw [run_loop_succ, if_pos hlt, hs, handle_unknown_skip hskip] at h
        obtain ⟨extra, h3, _⟩ := run_loop_dealt h
        have hmem : s.pc ∈ t.dealt := by
          rw [h3]
          simp
        rw [delete_from_cons_of_mem _ _ hmem] at hsuf
        have hd' : ∀ j ∈ s.dealt ++ [s.pc], j < s.pc + 1 := by
          intro j hj
          rcases List.mem_append.mp hj with hj | hj
          · exact Nat.lt_succ_of_lt (hd j hj)
          · rw [List.mem_singleton.mp hj]
            exact Nat.lt_succ_self _
        obtain ⟨t', ht', hat, hdt⟩ := ih _ e t h hd' argv' s' ha hsuf
        exact ⟨t', run_loop_mono ht', hat, hdt⟩
      · rw [he] at he'
        cases he'
      · rw [run_loop_succ, if_pos hlt, hs, handle_unknown_skip hskip] at h
        obtain ⟨extra, h3, _⟩ := run_loop_dealt h
        have hmem : s.pc ∈ t.dealt := by
          rw [h3]
          simp
        rw [delete_from_cons_of_mem _ _ hmem] at hsuf
        have hd' : ∀ j ∈ s.dealt ++ [s.pc], j < s.pc + 1 := by
          intro j hj
          rcases List.mem_append.mp hj with hj | hj
          · exact Nat.lt_succ_of_lt (hd j hj)
          · rw [List.mem_singleton.mp hj]
            exact Nat.lt_succ_self _
        obtain ⟨t', ht', hat, hdt⟩ := ih _ e t h hd' argv' s' ha hsuf
        exact ⟨t', run_loop_mono ht', hat, hdt⟩
    · rw [run_loop_succ, if_neg hlt] at h
      cases h
      rw [List.drop_eq_nil_of_le (show argv.length ≤ s.pc by omega)] at hsuf
      have hge : ¬ s'.pc < argv'.length := by
        have := List.drop_eq_nil_iff.mp (hsuf.trans rfl)
        omega
      rw [run_loop_succ, if_neg hge]
      exact ⟨s', rfl, ha, rfl⟩

/-- C7: with positional collection disabled and an unknown-token handler that never answers
`THROW_EXCEPTION` or `ERROR`, `run` is never left over an unknown token, and on the vector
obtained by deleting the tokens at the positions given to the handler it ends the same way,
with the same functor calls in the same order (key and raw value), the same storage and the
same content of the caller's vector, and without giving any token to the handler. -/
theorem skip_policy_deletes_unknown {store : Memory τ} {out : List parser_string}
    {r : RunResult τ} (he : p.expect_arguments = false)
    (hskip : ∀ a t, cfg.deal a t ≠ cfg.UnknownModifierPolicy_THROW_EXCEPTION ∧
      cfg.deal a t ≠ cfg.UnknownModifierPolicy_ERROR)
    (h : run conv p cfg argv store out = some r) :
    r.exit ≠ .thrown "unknown modifier" ∧ r.exit ≠ .reported "unknown modifier" ∧
    ∃ r', run conv p cfg (delete_indices argv r.final.dealt) store out = some r' ∧
      r'.exit = r.exit ∧ r'.final.calls = r.final.calls ∧ r'.final.store = r.final.store ∧
      r'.in_args = r.in_args ∧ r'.final.dealt = [] := by
  by_cases hne : argv = []
  · subst hne
    simp only [run, List.length_nil, if_true, Option.some.injEq] at h
    subst h
    exact ⟨by simp, by simp, _, rfl, rfl, rfl, rfl, rfl, rfl⟩
  · have hexit : r.exit ≠ .thrown "unknown modifier" ∧ r.exit ≠ .reported "unknown modifier" := by
      obtain ⟨_, u, _, hfin⟩ := run_sound h hne
      rcases hfin with ⟨_, hx, _⟩ | ⟨_, hst⟩
      · rw [hx]
        simp
      · exact step_stop_not_unknown hskip hst
    refine ⟨hexit.1, hexit.2, ?_⟩
    rw [run_eq store out hne] at h
    cases hr : run_loop conv p cfg argv argv.length (initial argv store) with
    | none => rw [hr] at h; cases h
    | some x =>
      obtain ⟨e, t⟩ := x
      rw [hr] at h
      cases h
      obtain ⟨a0, rest, rfl⟩ := List.exists_cons_of_ne_nil hne
      obtain ⟨extra, h3, h4⟩ := run_loop_dealt hr
      have h0 : 0 ∉ t.dealt := by
        rw [h3]
        intro hmem
        have := h4 0 (by simpa [initial] using hmem)
        simp [initial] at this
      have hdel : delete_indices (a0 :: rest) t.dealt = a0 :: delete_from t.dealt 1 rest :=
        delete_from_cons_of_not_mem a0 rest h0
      obtain ⟨t', ht', hat, hdt⟩ := skip_simulation he hskip _ _ e t hr (by simp [initial])
        (delete_indices (a0 :: rest) t.dealt)
        (initial (delete_indices (a0 :: rest) t.dealt) store)
        ⟨by rw [hdel]; rfl, rfl, rfl⟩ (by rw [hdel]; rfl)
      have hl := delete_from_length_le t.dealt rest 1
      have hne' : delete_indices (a0 :: rest) t.dealt ≠ [] := by rw [hdel]; simp
      have hfuel := (@run_loop_enough τ conv p cfg (delete_indices (a0 :: rest) t.dealt)
        (delete_indices (a0 :: rest) t.dealt).length (a0 :: rest).length
        (initial (delete_indices (a0 :: rest) t.dealt) store)
        (List.length_pos.mpr hne') (Nat.lt_succ_self _) (by simp)
        (by rw [hdel]; simp [initial]; omega)).2
      rw [run_eq store out hne', hfuel, ht']
      refine ⟨_, rfl, rfl, hat.2.2, hat.2.1, ?_, hdt⟩
      simp [publish, he]

/-- C7 on `prog junk --count 5`: `junk` goes to the handler, the flag after it still binds,
and the run on `prog --count 5` makes the same call and ends the same way. -/
theorem skip_policy_deletes_unknown_witness :
    run unix_convention count_registry (sample_policies 1 2)
      ["prog".toList, "junk".toList, "--count".toList, "5".toList] empty_memory [] =
      some skip_result ∧
    delete_indices ["prog".toList, "junk".toList, "--count".toList, "5".toList]
      skip_result.final.dealt = ["prog".toList, "--count".toList, "5".toList] ∧
    skip_result.exit ≠ .thrown "unknown modifier" ∧
    skip_result.exit ≠ .reported "unknown modifier" ∧
    ∃ r', run unix_convention count_registry (sample_policies 1 2)
        (delete_indices ["prog".toList, "junk".toList, "--count".toList, "5".toList]
          skip_result.final.dealt) empty_memory [] = some r' ∧
      r'.exit = skip_result.exit ∧ r'.final.calls = skip_result.final.calls ∧
      r'.final.store = skip_result.final.store ∧ r'.in_args = skip_result.in_args ∧
      r'.final.dealt = [] :=
  ⟨rfl, by decide, @skip_policy_deletes_unknown _ unix_convention count_registry
    (sample_policies 1 2) ["prog".toList, "junk".toList, "--count".toList, "5".toList]
    empty_memory [] skip_result rfl
    (fun _ _ => ⟨show (2 : Int) ≠ 0 by decide, show (2 : Int) ≠ 1 by decide⟩) rfl⟩

end skip_policy_claim

section registration_order

variable {conv : ConventionPolicy}

theorem makeModifier_cases {n s : parser_string} (h : UNIXConvention.makeModifier n = some s) :
    (n.length = 1 ∧ s = '-' :: n) ∨ (2 ≤ n.length ∧ s = '-' :: '-' :: n) := by
  unfold UNIXConvention.makeModifier at h
  by_cases h0 : n.length = 0
  · rw [if_pos h0] at h; cases h
  · rw [if_neg h0] at h
    by_cases h1 : n.length = 1
    · rw [if_pos h1] at h
      cases h
      exact Or.inl ⟨h1, rfl⟩
    · rw [if_neg h1] at h
      cases h
      exact Or.inr ⟨by omega, rfl⟩

theorem makeModifier_isSome {n : parser_string} (h : n ≠ []) :
    ∃ s, UNIXConvention.makeModifier n = some s := by
  have h0 : ¬ n.length = 0 := fun hc => h (List.length_eq_zero.mp hc)
  unfold UNIXConvention.makeModifier
  rw [if_neg h0]
  by_cases h1 : n.length = 1
  · exact ⟨_, by rw [if_pos h1]⟩
  · exact ⟨_, by rw [if_neg h1]⟩

/-- Two names with the same canonical spelling under the UNIX convention are equal. -/
theorem makeModifier_same_spelling {a b s : parser_string}
    (ha : UNIXConvention.makeModifier a = some s)
    (hb : UNIXConvention.makeModifier b = some s) : a = b := by
  rcases makeModifier_cases ha with ⟨hla, rfl⟩ | ⟨hla, rfl⟩ <;>
    rcases makeModifier_cases hb with ⟨hlb, hs⟩ | ⟨hlb, hs⟩
  · cases hs
    rfl
  · cases hs
    rw [List.length_cons] at hla
    omega
  · cases hs
    rw [List.length_cons] at hlb
    omega
  · cases hs
    rfl

theorem declare_eq {p : Parser τ} {d : Declaration τ} {m : parser_string}
    (hm : conv.makeModifier d.modifier = some m) :
    p.declare conv d = some
      { value_functors := functor_map_insert p.value_functors m d.functor
        known_modifiers := parser_string_set_insert p.known_modifiers m
        modifiers_with_parameters :=
          if d.requires_value = true then
            parser_string_set_insert p.modifiers_with_parameters m
          else p.modifiers_with_parameters
        expect_arguments := p.expect_arguments } := by
  cases d with
  | presence n a =>
    have hm' : conv.makeModifier n = some m := hm
    simp only [Parser.declare, Parser.addPresenceModifier, hm']
    rfl
  | typed n f =>
    have hm' : conv.makeModifier n = some m := hm
    simp only [Parser.declare, Parser.addModifier, hm']
    rfl
  | custom n f =>
    have hm' : conv.makeModifier n = some m := hm
    simp only [Parser.declare, Parser.addCustomModifier, hm']
    rfl

theorem functor_map_insert_comm (m : functor_map τ) {a b : parser_string} (hab : a ≠ b)
    (f g : ParserValueFunctor τ) :
    functor_map_insert (functor_map_insert m a f) b g =
      functor_map_insert (functor_map_insert m b g) a f := by
  funext x
  unfold functor_map_insert
  by_cases hxa : x = a
  · have hxb : ¬ x = b := fun hc => hab (hxa.symm.trans hc)
    simp only [hxa, if_true, if_neg hab]
  · by_cases hxb : x = b
    · have hba : ¬ b = a := fun hc => hab hc.symm
      simp only [hxb, if_true, if_neg hba]
    · simp only [if_neg hxa, if_neg hxb]

theorem parser_string_set_insert_comm (s : parser_string_set) (a b : parser_string) :
    parser_string_set_insert (parser_string_set_insert s a) b =
      parser_string_set_insert (parser_string_set_insert s b) a := by
  funext x
  unfold parser_string_set_insert
  by_cases hxa : x = a <;> by_cases hxb : x = b <;> simp [hxa, hxb]

/-- Two registration calls with distinct spellings can be swapped. -/
theorem declare_comm (p : Parser τ) {A B : Declaration τ} {a b : parser_string}
    (ha : conv.makeModifier A.modifier = some a) (hb : conv.makeModifier B.modifier = some b)
    (hab : a ≠ b) :
    ∃ q, (p.declare conv A).bind (fun p1 => p1.declare conv B) = some q ∧
      (p.declare conv B).bind (fun p1 => p1.declare conv A) = some q := by
  rw [declare_eq ha, declare_eq hb, Option.some_bind, Option.some_bind, declare_eq ha,
    declare_eq hb]
  refine ⟨_, rfl, ?_⟩
  congr 2
  · exact (functor_map_insert_comm _ hab _ _).symm
  · exact (parser_string_set_insert_comm _ _ _).symm
  · by_cases hA : A.requires_value = true <;> by_cases hB : B.requires_value = true
    · rw [if_pos hA, if_pos hB, if_pos hA, if_pos hB]
      exact (parser_string_set_insert_comm _ _ _).symm
    · rw [if_pos hA, if_neg hB, if_pos hA, if_neg hB]
    · rw [if_neg hA, if_pos hB, if_neg hA, if_pos hB]
    · rw [if_neg hA, if_neg hB, if_neg hA, if_neg hB]

/-- C8: under the UNIX convention, for two registration calls `A` and `B` of any kind with
distinct non-empty names, made in either order on any parser, both orders succeed and give
parsers with the same containers; hence `run` gives the same result on every argument vector:
the same functor calls, storage, positional sequence and way of ending. -/
theorem registration_order_independent (p : Parser τ) (A B : Declaration τ)
    (hA : A.modifier ≠ []) (hB : B.modifier ≠ []) (hne : A.modifier ≠ B.modifier) :
    ∃ pAB pBA,
      (p.declare unix_convention A).bind (fun p1 => p1.declare unix_convention B) = some pAB ∧
      (p.declare unix_convention B).bind (fun p1 => p1.declare unix_convention A) = some pBA ∧
      pAB = pBA ∧
      ∀ cfg argv store out,
        run unix_convention pAB cfg argv store out = run unix_convention pBA cfg argv store out := by
  obtain ⟨a, ha⟩ := makeModifier_isSome hA
  obtain ⟨b, hb⟩ := makeModifier_isSome hB
  have hab : a ≠ b := by
    rintro rfl
    exact hne (makeModifier_same_spelling ha hb)
  obtain ⟨q, h1, h2⟩ := @declare_comm τ unix_convention p A B a b ha hb hab
  exact ⟨q, q, h1, h2, rfl, fun _ _ _ _ => rfl⟩

/-- C8 for the presence flag `v` and the value-requiring flag `count`. -/
theorem registration_order_independent_witness :
    ∃ pAB pBA,
      ((Parser.new : Parser (List parser_string)).declare unix_convention
        (.presence "v".toList 0)).bind
          (fun p1 => p1.declare unix_convention (.custom "count".toList record_value)) =
        some pAB ∧
      ((Parser.new : Parser (List parser_string)).declare unix_convention
        (.custom "count".toList record_value)).bind
          (fun p1 => p1.declare unix_convention (.presence "v".toList 0)) = some pBA ∧
      pAB = pBA ∧
      ∀ cfg argv store out,
        run unix_convention pAB cfg argv store out = run unix_convention pBA cfg argv store out :=
  registration_order_independent Parser.new (.presence "v".toList 0)
    (.custom "count".toList record_value) (by decide) (by decide) (by decide)

end registration_order

section canonical_spelling

/-- C11: `UNIXConvention::makeModifier(n)` is `-` followed by `n` when `n` has length 1 and
`--` followed by `n` when `n` has length at least 2; it fails (the assertion
`assert(modifier_name.size())`) on the empty name and on no other input. -/
theorem makeModifier_value (n : parser_string) :
    (n.length = 1 → UNIXConvention.makeModifier n = some ("-".toList ++ n)) ∧
    (2 ≤ n.length → UNIXConvention.makeModifier n = some ("--".toList ++ n)) ∧
    (UNIXConvention.makeModifier n = none ↔ n = []) := by
  refine ⟨fun h1 => ?_, fun h2 => ?_, ?_⟩
  · unfold UNIXConvention.makeModifier
    rw [if_neg (by omega), if_pos h1]
    rfl
  · unfold UNIXConvention.makeModifier
    rw [if_neg (by omega), if_neg (by omega)]
    rfl
  · constructor
    · intro h
      by_contra hne
      obtain ⟨s, hs⟩ := makeModifier_isSome hne
      rw [hs] at h
      cases h
    · rintro rfl
      rfl

/-- C11 on the names `v`, `verbose` and the empty name. -/
theorem makeModifier_value_witness :
    UNIXConvention.makeModifier "v".toList = some "-v".toList ∧
    UNIXConvention.makeModifier "verbose".toList = some "--verbose".toList ∧
    UNIXConvention.makeModifier [] = none :=
  ⟨(makeModifier_value "v".toList).1 rfl, (makeModifier_value "verbose".toList).2.1 (by decide),
    (makeModifier_value []).2.2.mpr rfl⟩

/-- C19: `UNIXConvention::makeModifier` is injective on non-empty names, so two declarations
with distinct non-empty names have distinct canonical spellings. (It is enough that one of
the two names is not empty: on the empty name the function fails.) -/
theorem makeModifier_injective (a b : parser_string) (ha : a ≠ []) :
    (UNIXConvention.makeModifier a = UNIXConvention.makeModifier b → a = b) ∧
    (a ≠ b → UNIXConvention.makeModifier a ≠ UNIXConvention.makeModifier b) := by
  have key : UNIXConvention.makeModifier a = UNIXConvention.makeModifier b → a = b := by
    intro h
    obtain ⟨s, hs⟩ := makeModifier_isSome ha
    exact makeModifier_same_spelling hs (h ▸ hs)
  exact ⟨key, fun hne h => hne (key h)⟩

/-- C19 on the one-character name `-` and the longer name `-x`: their spellings `--` and
`---x` differ. -/
theorem makeModifier_injective_witness :
    UNIXConvention.makeModifier "-".toList = some "--".toList ∧
    UNIXConvention.makeModifier "-x".toList = some "---x".toList ∧
    UNIXConvention.makeModifier "-".toList ≠ UNIXConvention.makeModifier "-x".toList :=
  ⟨rfl, rfl, (makeModifier_injective "-".toList "-x".toList (by decide)).2 (by decide)⟩

end canonical_spelling

section duplicate_spelling

variable {conv : ConventionPolicy}

end duplicate_spelling

section invocation_count

variable {conv : ConventionPolicy} {p : Parser τ} {cfg : Policies} {argv : List parser_string}

/-- An iteration that reaches `pc++` calls no functor, or one functor once, looked up under
the key of its token. -/
theorem step_next_call_key {s s' : RunState τ} (h : step conv p cfg argv s = .next s') :
    s'.calls = s.calls ∨ ∃ k raw, dispatch_key conv p (argv.getD s.pc []) = some k ∧
      s'.calls = s.calls ++ [(k, raw)] := by
  rcases step_cases conv p cfg argv s with ⟨hk, _, _, hs⟩ | ⟨_, _, _, hs⟩ | ⟨hk, _, hs⟩ |
    ⟨hk, hm, hw, hs⟩ | ⟨_, _, _, hs⟩ | ⟨_, _, _, hs⟩ | ⟨_, _, _, hs⟩ <;> rw [hs] at h
  · obtain ⟨_, _, _, _, rfl⟩ := invoke_next h
    exact Or.inr ⟨_, _, by rw [dispatch_key, if_pos hk], rfl⟩
  · rw [missing_next h]
    exact Or.inl rfl
  · obtain ⟨_, _, _, _, rfl⟩ := invoke_next h
    exact Or.inr ⟨_, _, by rw [dispatch_key, if_pos hk], rfl⟩
  · obtain ⟨_, _, _, _, rfl⟩ := invoke_next h
    refine Or.inr ⟨_, _, ?_, rfl⟩
    rw [dispatch_key, if_neg (by rw [hk]; decide), if_pos ⟨hm, hw⟩]
  · obtain ⟨_, _, rfl⟩ := handle_unknown_next h
    exact Or.inl rfl
  · cases h
    exact Or.inl rfl
  · obtain ⟨_, _, rfl⟩ := handle_unknown_next h
    exact Or.inl rfl

/-- An iteration that leaves `run` has called no functor, or one functor once, looked up
under the key of its token. -/
theorem step_stop_call_key {s s' : RunState τ} {e : Exit}
    (h : step conv p cfg argv s = .stop e s') :
    s'.calls = s.calls ∨ ∃ k raw, dispatch_key conv p (argv.getD s.pc []) = some k ∧
      s'.calls = s.calls ++ [(k, raw)] := by
  rcases step_cases conv p cfg argv s with ⟨hk, _, _, hs⟩ | ⟨_, _, _, hs⟩ | ⟨hk, _, hs⟩ |
    ⟨hk, hm, hw, hs⟩ | ⟨_, _, _, hs⟩ | ⟨_, _, _, hs⟩ | ⟨_, _, _, hs⟩ <;> rw [hs] at h
  · rcases invoke_stop h with ⟨_, _, rfl⟩ | ⟨_, _, _, _, rfl⟩
    · exact Or.inl rfl
    · exact Or.inr ⟨_, _, by rw [dispatch_key, if_pos hk], rfl⟩
  · rw [(missing_stop h).1]
    exact Or.inl rfl
  · rcases invoke_stop h with ⟨_, _, rfl⟩ | ⟨_, _, _, _, rfl⟩
    · exact Or.inl rfl
    · exact Or.inr ⟨_, _, by rw [dispatch_key, if_pos hk], rfl⟩
  · rcases invoke_stop h with ⟨_, _, rfl⟩ | ⟨_, _, _, _, rfl⟩
    · exact Or.inl rfl
    · refine Or.inr ⟨_, _, ?_, rfl⟩
      rw [dispatch_key, if_neg (by rw [hk]; decide), if_pos ⟨hm, hw⟩]
  · rw [(handle_unknown_stop h).1]
    exact Or.inl rfl
  · cases h
  · rw [(handle_unknown_stop h).1]
    exact Or.inl rfl

/-- The count of the calls under a key after an iteration, from the count before it. -/
theorem count_after_iteration (k : parser_string) {calls calls' : List (parser_string ×
    Option parser_string)} {visited : List Nat} {pc : Nat}
    (hc : calls' = calls ∨ ∃ k' raw, dispatch_key conv p (argv.getD pc []) = some k' ∧
      calls' = calls ++ [(k', raw)])
    (ih : calls.countP (fun c => decide (c.1 = k)) ≤
      visited.countP (fun i => decide (dispatch_key conv p (argv.getD i []) = some k))) :
    calls'.countP (fun c => decide (c.1 = k)) ≤
      (visited ++ [pc]).countP
        (fun i => decide (dispatch_key conv p (argv.getD i []) = some k)) := by
  rw [List.countP_append]
  rcases hc with rfl | ⟨k', raw, hd, rfl⟩
  · exact Nat.le_add_right_of_le ih
  · rw [List.countP_append]
    by_cases hk : k' = k
    · subst hk
      simp only [List.countP_cons, List.countP_nil, hd, decide_True, if_true]
      omega
    · have h0 : List.countP (fun c : parser_string × Option parser_string => decide (c.1 = k))
          [(k', raw)] = 0 := by
        simp [List.countP_cons, hk]
      rw [h0]
      omega

theorem reachable_call_count {store : Memory τ} {s : RunState τ}
    (h : Reachable conv p cfg argv store s) (k : parser_string) :
    s.calls.countP (fun c => decide (c.1 = k)) ≤
      s.visited.countP (fun i => decide (dispatch_key conv p (argv.getD i []) = some k)) := by
  induction h with
  | refl => exact Nat.le_refl _
  | tail _ hn ih =>
    rw [(step_next_frame hn.2 hn.1).2.1]
    exact count_after_iteration k (step_next_call_key hn.2) ih

/-- In a list without repetition, a property that holds of at most one index of the vector
is counted at most once. -/
theorem countP_le_one {l : List Nat} {q : Nat → Bool} (hn : l.Nodup)
    (hu : ∀ i ∈ l, ∀ j ∈ l, q i = true → q j = true → i = j) : l.countP q ≤ 1 := by
  induction l with
  | nil => simp
  | cons a l ih =>
    rw [List.nodup_cons] at hn
    have ih' := ih hn.2 (fun i hi j hj => hu i (List.mem_cons_of_mem _ hi) j
      (List.mem_cons_of_mem _ hj))
    rw [List.countP_cons]
    by_cases ha : q a = true
    · have h0 : l.countP q = 0 := by
        rw [List.countP_eq_zero]
        intro b hb hqb
        have := hu a (List.mem_cons_self _ _) b (List.mem_cons_of_mem _ hb) ha hqb
        exact hn.1 (this ▸ hb)
      rw [h0, if_pos ha]
    · rw [if_neg ha]
      exact ih'

/-- C13, as amended: during a call of `run` every position is visited at most once, and the
functor under a key `k` is called at most as often as the cursor visits a token dispatched
to `k` (the spelling `k` itself, or an inline form whose extracted name is `k`). So a flag
for which at most one visited token is dispatched to it is called zero times or once; a flag
that is given several times can be called several times. -/
theorem calls_bounded_by_visits {store : Memory τ} {out : List parser_string}
    {r : RunResult τ} (h : run conv p cfg argv store out = some r) (k : parser_string) :
    r.final.visited.Nodup ∧
    r.final.calls.countP (fun c => decide (c.1 = k)) ≤
      r.final.visited.countP
        (fun i => decide (dispatch_key conv p (argv.getD i []) = some k)) ∧
    ((∀ i ∈ r.final.visited, ∀ j ∈ r.final.visited,
        dispatch_key conv p (argv.getD i []) = some k →
        dispatch_key conv p (argv.getD j []) = some k → i = j) →
      r.final.calls.countP (fun c => decide (c.1 = k)) ≤ 1) := by
  have key : r.final.visited.Nodup ∧
      r.final.calls.countP (fun c => decide (c.1 = k)) ≤
        r.final.visited.countP
          (fun i => decide (dispatch_key conv p (argv.getD i []) = some k)) := by
    by_cases hne : argv = []
    · subst hne
      simp only [run, List.length_nil, if_true, Option.some.injEq] at h
      subst h
      exact ⟨List.nodup_nil, Nat.le_refl _⟩
    · obtain ⟨_, u, hu, hfin⟩ := run_sound h hne
      have hsorted := reachable_visited_sorted hu
      rcases hfin with ⟨_, _, hfinal⟩ | ⟨_, hst⟩
      · rw [hfinal]
        exact ⟨hsorted.imp (fun hlt => Nat.ne_of_lt hlt), reachable_call_count hu k⟩
      · obtain ⟨_, hv, _⟩ := step_stop_frame hst
        rw [hv]
        refine ⟨?_, count_after_iteration k (step_stop_call_key hst)
          (reachable_call_count hu k)⟩
        rw [List.nodup_append]
        refine ⟨hsorted.imp (fun hlt => Nat.ne_of_lt hlt), List.nodup_singleton _, ?_⟩
        intro a ha hb
        rw [List.mem_singleton] at hb
        have := ((reachable_visited hu).2 a ha).2
        omega
  refine ⟨key.1, key.2, fun hu => Nat.le_trans key.2 (countP_le_one key.1 ?_)⟩
  intro i hi j hj hqi hqj
  exact hu i hi j hj (of_decide_eq_true hqi) (of_decide_eq_true hqj)

/-- C13 on `prog junk --count 5`: the functor of `--count` is called once. -/
theorem calls_bounded_by_visits_witness :
    run unix_convention count_registry (sample_policies 1 2)
      ["prog".toList, "junk".toList, "--count".toList, "5".toList] empty_memory [] =
      some skip_result ∧
    skip_result.final.visited.Nodup ∧
    skip_result.final.calls.countP (fun c => decide (c.1 = "--count".toList)) ≤ 1 :=
  have h := @calls_bounded_by_visits _ unix_convention count_registry (sample_policies 1 2)
    ["prog".toList, "junk".toList, "--count".toList, "5".toList] empty_memory []
    skip_result rfl "--count".toList
  ⟨rfl, h.1, h.2.2 (by decide)⟩

/-- C13 as stated fails on `p -v -v` with the presence flag `v`: the functor of `-v` is
called twice in one call of `run`. -/
theorem invoked_once_counterexample :
    Built unix_convention (presence_calls [("v".toList, 0), ("x".toList, 1)])
      (presence_registry [("v".toList, 0), ("x".toList, 1)]) ∧
    (run unix_convention (presence_registry [("v".toList, 0), ("x".toList, 1)])
      (sample_policies 1 2) ["p".toList, "-v".toList, "-v".toList] empty_memory []).map
        (fun r => (r.exit, r.final.calls)) =
      some (.returned, [("-v".toList, none), ("-v".toList, none)]) :=
  ⟨built_presence_two _ _ rfl rfl, rfl⟩

end invocation_count

section bindings_on_abort

variable {conv : ConventionPolicy} {p : Parser τ} {cfg : Policies} {argv : List parser_string}

theorem step_suspicious_eq {s : RunState τ}
    (hk : p.known_modifiers (argv.getD s.pc []) = false)
    (hm : conv.mayBeModifierWithParam (argv.getD s.pc []) = true)
    (hw : p.modifiers_with_parameters (conv.extractModifierName (argv.getD s.pc [])) = false) :
    step conv p cfg argv s = handle_unknown cfg (argv.getD s.pc []) (enter s) := by
  rcases step_cases conv p cfg argv s with ⟨hk', _⟩ | ⟨hk', _⟩ | ⟨hk', _⟩ |
    ⟨_, _, hw', _⟩ | ⟨_, _, _, he⟩ | ⟨_, hm', _⟩ | ⟨_, hm', _⟩
  · rw [hk] at hk'; cases hk'
  · rw [hk] at hk'; cases hk'
  · rw [hk] at hk'; cases hk'
  · rw [hw] at hw'; cases hw'
  · exact he
  · rw [hm] at hm'; cases hm'
  · rw [hm] at hm'; cases hm'

theorem step_other_eq {s : RunState τ}
    (hk : p.known_modifiers (argv.getD s.pc []) = false)
    (hm : conv.mayBeModifierWithParam (argv.getD s.pc []) = false) :
    step conv p cfg argv s =
      if p.expect_arguments = true then
        .next { enter s with pc := s.pc + 1, app_args := s.app_args ++ [argv.getD s.pc []] }
      else handle_unknown cfg (argv.getD s.pc []) (enter s) := by
  rcases step_cases conv p cfg argv s with ⟨hk', _⟩ | ⟨hk', _⟩ | ⟨hk', _⟩ |
    ⟨_, hm', _⟩ | ⟨_, hm', _⟩ | ⟨_, _, hx, he⟩ | ⟨_, _, hx, he⟩
  · rw [hk] at hk'; cases hk'
  · rw [hk] at hk'; cases hk'
  · rw [hk] at hk'; cases hk'
  · rw [hm] at hm'; cases hm'
  · rw [hm] at hm'; cases hm'
  · rw [he, if_pos hx]
  · rw [he, if_neg (by rw [hx]; decide)]

/-- An iteration reads of the vector only the token at the cursor and, for a known spelling
with parameter, whether the cursor is at the last index and the token after it. -/
theorem step_congr {argv' : List parser_string} {s : RunState τ}
    (htok : argv'.getD s.pc [] = argv.getD s.pc [])
    (hval : p.known_modifiers (argv.getD s.pc []) = true →
      p.modifiers_with_parameters (argv.getD s.pc []) = true →
      (s.pc = argv'.length - 1 ↔ s.pc = argv.length - 1) ∧
        argv'.getD (s.pc + 1) [] = argv.getD (s.pc + 1) []) :
    step conv p cfg argv' s = step conv p cfg argv s := by
  rcases step_cases conv p cfg argv s with ⟨hk, hw, hl, he⟩ | ⟨hk, hw, hl, he⟩ |
    ⟨hk, hw, he⟩ | ⟨hk, hm, hw, he⟩ | ⟨hk, hm, hw, he⟩ | ⟨hk, hm, _, _⟩ | ⟨hk, hm, _, _⟩
  · obtain ⟨hlast, hnext⟩ := hval hk hw
    rw [step_valued_eq hk hw hl,
      @step_valued_eq τ conv p cfg argv' s (by rw [htok]; exact hk) (by rw [htok]; exact hw)
        (fun hc => hl (hlast.mp hc)), htok, hnext]
  · obtain ⟨hlast, _⟩ := hval hk hw
    rw [step_missing_eq hk hw hl,
      @step_missing_eq τ conv p cfg argv' s (by rw [htok]; exact hk) (by rw [htok]; exact hw)
        (hlast.mpr hl)]
  · rw [step_presence_eq hk hw,
      @step_presence_eq τ conv p cfg argv' s (by rw [htok]; exact hk) (by rw [htok]; exact hw),
      htok]
  · rw [step_inline_eq hk hm hw,
      @step_inline_eq τ conv p cfg argv' s (by rw [htok]; exact hk) (by rw [htok]; exact hm)
        (by rw [htok]; exact hw), htok]
  · rw [step_suspicious_eq hk hm hw,
      @step_suspicious_eq τ conv p cfg argv' s (by rw [htok]; exact hk)
        (by rw [htok]; exact hm) (by rw [htok]; exact hw), htok]
  · rw [step_other_eq hk hm,
      @step_other_eq τ conv p cfg argv' s (by rw [htok]; exact hk) (by rw [htok]; exact hm),
      htok]
  · rw [step_other_eq hk hm,
      @step_other_eq τ conv p cfg argv' s (by rw [htok]; exact hk) (by rw [htok]; exact hm),
      htok]

theorem getD_take {l : List parser_string} {i k : Nat} (h : i < k) :
    (l.take k).getD i [] = l.getD i [] := by
  rw [List.getD_eq_getElem?_getD, List.getD_eq_getElem?_getD, List.getElem?_take, if_pos h]

/-- The states a run goes through before its cursor passes `k` are states of the run on the
vector cut after its first `k` tokens. -/
theorem reachable_take {store : Memory τ} {u : RunState τ}
    (h : Reachable conv p cfg argv store u) :
    ∀ k, 1 ≤ k → u.pc ≤ k → k ≤ argv.length →
      Reachable conv p cfg (argv.take k) store u := by
  induction h with
  | refl =>
    intro k hk _ _
    have h0 : initial (argv.take k) store = initial argv store := by
      unfold initial
      rw [getD_take (Nat.lt_of_lt_of_le Nat.zero_lt_one hk)]
    show Relation.ReflTransGen _ (initial (argv.take k) store) (initial argv store)
    rw [h0]
  | @tail b c _ hbc ih =>
    intro k hk hck hkl
    obtain ⟨hpc, _, _⟩ := step_next_frame hbc.2 hbc.1
    have hbk : b.pc < k := by omega
    have hlen : (argv.take k).length = k := by
      rw [List.length_take]
      exact Nat.min_eq_left hkl
    refine Relation.ReflTransGen.tail (ih k hk (by omega) hkl) ⟨by rw [hlen]; exact hbk, ?_⟩
    rw [← hbc.2]
    refine step_congr (getD_take hbk) (fun hkn hw => ?_)
    by_cases hl : b.pc = argv.length - 1
    · have hkeq : k = argv.length := by omega
      rw [hkeq, List.take_length]
      exact ⟨Iff.rfl, rfl⟩
    · have hs := hbc.2
      rw [step_valued_eq hkn hw hl] at hs
      obtain ⟨_, _, _, _, hc⟩ := invoke_next hs
      have hc2 : c.pc = b.pc + 2 := by rw [hc]
      refine ⟨⟨fun hc' => ?_, fun hc' => absurd hc' hl⟩, getD_take (by omega)⟩
      rw [hlen] at hc'
      omega

/-- C14: when `run` stops early at cursor index `k`, by the missing-parameter error or by an
unknown-token outcome `THROW_EXCEPTION` or `ERROR`, the run on the vector cut to its first
`k` tokens ends normally, and it has made the same functor calls, in the same order, and
reached the same storage as the run that stopped: the aborting iteration calls nothing, all
calls were made at positions below `k`, and what they wrote stays. -/
theorem abort_keeps_bindings {store : Memory τ} {out : List parser_string} {r : RunResult τ}
    (h : run conv p cfg argv store out = some r)
    (he : r.exit = .thrown "modifier missing argument" ∨
      r.exit = .reported "modifier missing argument" ∨
      r.exit = .thrown "unknown modifier" ∨ r.exit = .reported "unknown modifier") :
    ∃ r', run conv p cfg (argv.take r.final.pc) store out = some r' ∧
      r'.exit = .returned ∧ r'.final.calls = r.final.calls ∧
      r'.final.store = r.final.store ∧ r'.final.app_args = r.final.app_args ∧
      r.final.visited = r'.final.visited ++ [r.final.pc] ∧
      (∀ i ∈ r'.final.visited, i < r.final.pc) ∧ r.final.pc < argv.length := by
  have hne : argv ≠ [] := by
    rintro rfl
    simp only [run, List.length_nil, if_true, Option.some.injEq] at h
    subst h
    rcases he with he | he | he | he <;> cases he
  obtain ⟨_, u, hu, hfin⟩ := run_sound h hne
  rcases hfin with ⟨_, hx, _⟩ | ⟨hlt, hst⟩
  · rw [hx] at he
    rcases he with he | he | he | he <;> cases he
  · obtain ⟨hpc, hv, happ, _⟩ := step_stop_frame hst
    have hcalls : r.final.calls = u.calls ∧ r.final.store = u.store := by
      rcases step_cases conv p cfg argv u with ⟨_, _, _, hs⟩ | ⟨_, _, _, hs⟩ | ⟨_, _, hs⟩ |
        ⟨_, _, _, hs⟩ | ⟨_, _, _, hs⟩ | ⟨_, _, _, hs⟩ | ⟨_, _, _, hs⟩ <;> rw [hs] at hst
      · rcases invoke_stop hst with ⟨_, hx, _⟩ | ⟨_, _, _, hx, _⟩ <;> rw [hx] at he <;>
          rcases he with he | he | he | he <;> cases he
      · rw [(missing_stop hst).1]
        exact ⟨rfl, rfl⟩
      · rcases invoke_stop hst with ⟨_, hx, _⟩ | ⟨_, _, _, hx, _⟩ <;> rw [hx] at he <;>
          rcases he with he | he | he | he <;> cases he
      · rcases invoke_stop hst with ⟨_, hx, _⟩ | ⟨_, _, _, hx, _⟩ <;> rw [hx] at he <;>
          rcases he with he | he | he | he <;> cases he
      · rw [(handle_unknown_stop hst).1]
        exact ⟨rfl, rfl⟩
      · cases hst
      · rw [(handle_unknown_stop hst).1]
        exact ⟨rfl, rfl⟩
    have h1 := (reachable_visited hu).1
    have hr' := reachable_take hu u.pc h1 (Nat.le_refl _) (Nat.le_of_lt hlt)
    have hne' : argv.take u.pc ≠ [] := by
      intro hc
      have := congrArg List.length hc
      rw [List.length_take, Nat.min_eq_left (Nat.le_of_lt hlt)] at this
      simp at this
      omega
    have hge : ¬ u.pc < (argv.take u.pc).length := by
      rw [List.length_take, Nat.min_eq_left (Nat.le_of_lt hlt)]
      exact Nat.lt_irrefl _
    refine ⟨⟨.returned, u, publish p out .returned u⟩, ?_, rfl, hcalls.1.symm,
      hcalls.2.symm, happ.symm, ?_, ?_, ?_⟩
    · rw [hpc]
      exact run_of_final hr' hne' hge out
    · rw [hv, hpc]
    · intro i hi
      rw [hpc]
      exact ((reachable_visited hu).2 i hi).2
    · rw [hpc]
      exact hlt

/-- C14 on `prog --count 5 --count` under the policy `ERROR`: the run stops at index 3, and
the run on `prog --count 5` ends normally with the same call and the same storage. -/
theorem abort_keeps_bindings_witness :
    run unix_convention count_registry (sample_policies 1 2)
      ["prog".toList, "--count".toList, "5".toList, "--count".toList] empty_memory [] =
      some abort_result ∧
    ∃ r', run unix_convention count_registry (sample_policies 1 2)
        (["prog".toList, "--count".toList, "5".toList, "--count".toList].take
          abort_result.final.pc) empty_memory [] = some r' ∧
      r'.exit = .returned ∧ r'.final.calls = abort_result.final.calls ∧
      r'.final.store = abort_result.final.store ∧
      r'.final.app_args = abort_result.final.app_args ∧
      abort_result.final.visited = r'.final.visited ++ [abort_result.final.pc] ∧
      (∀ i ∈ r'.final.visited, i < abort_result.final.pc) ∧
      abort_result.final.pc <
        ["prog".toList, "--count".toList, "5".toList, "--count".toList].length :=
  ⟨rfl, @abort_keeps_bindings _ unix_convention count_registry (sample_policies 1 2)
    ["prog".toList, "--count".toList, "5".toList, "--count".toList] empty_memory []
    abort_result rfl (Or.inr (Or.inl rfl))⟩

end bindings_on_abort

section termination

variable {conv : ConventionPolicy} {p : Parser τ} {cfg : Policies} {argv : List parser_string}

theorem increasing_length_le {l : List Nat} {n : Nat} (h : l.Pairwise (· < ·))
    (hb : ∀ i ∈ l, 1 ≤ i ∧ i < n) : l.length ≤ n - 1 := by
  have hn : l.Nodup := h.imp (fun hlt => Nat.ne_of_lt hlt)
  have hs : l ⊆ List.range' 1 (n - 1) := by
    intro i hi
    rw [List.mem_range'_1]
    have := hb i hi
    omega
  have := (List.subperm_of_subset hn hs).length_le
  rwa [List.length_range'] at this

/-- A visited position was the cursor of a state that passed the loop test. -/
theorem reachable_visited_lt {store : Memory τ} {v : RunState τ}
    (h : Reachable conv p cfg argv store v) : ∀ j ∈ v.visited, j < argv.length := by
  induction h with
  | refl => intro j hj; cases hj
  | tail _ hn ih =>
    intro j hj
    rw [(step_next_frame hn.2 hn.1).2.1] at hj
    rcases List.mem_append.mp hj with hj | hj
    · exact ih j hj
    · rw [List.mem_singleton.mp hj]
      exact hn.1

/-- The cursor after an iteration that reaches `pc++`: two further when the token is a known
spelling with parameter that is not at the last index, one further otherwise. -/
theorem step_next_pc_exact {s s' : RunState τ} (h : step conv p cfg argv s = .next s') :
    (p.known_modifiers (argv.getD s.pc []) = true ∧
      p.modifiers_with_parameters (argv.getD s.pc []) = true ∧ s.pc ≠ argv.length - 1 →
      s'.pc = s.pc + 2) ∧
    (¬ (p.known_modifiers (argv.getD s.pc []) = true ∧
      p.modifiers_with_parameters (argv.getD s.pc []) = true ∧ s.pc ≠ argv.length - 1) →
      s'.pc = s.pc + 1) := by
  rcases step_cases conv p cfg argv s with ⟨hk, hw, hl, hs⟩ | ⟨_, _, hl, hs⟩ | ⟨_, hw, hs⟩ |
    ⟨hk, _, _, hs⟩ | ⟨hk, _, _, hs⟩ | ⟨hk, _, _, hs⟩ | ⟨hk, _, _, hs⟩ <;> rw [hs] at h
  · obtain ⟨_, _, _, _, rfl⟩ := invoke_next h
    exact ⟨fun _ => rfl, fun hc => absurd ⟨hk, hw, hl⟩ hc⟩
  · rw [missing_next h]
    exact ⟨fun hc => absurd hl hc.2.2, fun _ => rfl⟩
  · obtain ⟨_, _, _, _, rfl⟩ := invoke_next h
    exact ⟨fun hc => (by rw [hw] at hc; cases hc.2.1), fun _ => rfl⟩
  · obtain ⟨_, _, _, _, rfl⟩ := invoke_next h
    exact ⟨fun hc => (by rw [hk] at hc; cases hc.1), fun _ => rfl⟩
  · obtain ⟨_, _, rfl⟩ := handle_unknown_next h
    exact ⟨fun hc => (by rw [hk] at hc; cases hc.1), fun _ => rfl⟩
  · cases h
    exact ⟨fun hc => (by rw [hk] at hc; cases hc.1), fun _ => rfl⟩
  · obtain ⟨_, _, rfl⟩ := handle_unknown_next h
    exact ⟨fun hc => (by rw [hk] at hc; cases hc.1), fun _ => rfl⟩

/-- C15: `run` terminates on every registry and every argument vector: with `argc` tests of
the loop condition as fuel it yields a result. The cursor starts at 1; an iteration that
reaches `pc++` moves it by exactly 2 when a value-requiring flag takes the following token as
its value, and by exactly 1 in every other case. The positions visited are indices from 1
to `argc - 1` in strictly increasing order, so each token is examined at most once and there
are at most `argc - 1` iterations. -/
theorem scan_terminates (store : Memory τ) (out : List parser_string) :
    (∃ r, run conv p cfg argv store out = some r ∧ r.final.visited.Pairwise (· < ·) ∧
      (∀ i ∈ r.final.visited, 1 ≤ i ∧ i < argv.length) ∧
      r.final.visited.length ≤ argv.length - 1) ∧
    (initial argv store).pc = 1 ∧
    (∀ s s', Next conv p cfg argv s s' →
      (p.known_modifiers (argv.getD s.pc []) = true ∧
        p.modifiers_with_parameters (argv.getD s.pc []) = true ∧ s.pc ≠ argv.length - 1 →
        s'.pc = s.pc + 2) ∧
      (¬ (p.known_modifiers (argv.getD s.pc []) = true ∧
        p.modifiers_with_parameters (argv.getD s.pc []) = true ∧ s.pc ≠ argv.length - 1) →
        s'.pc = s.pc + 1)) := by
  refine ⟨?_, rfl, fun s s' hn => step_next_pc_exact hn.2⟩
  obtain ⟨r, hr⟩ := Option.isSome_iff_exists.mp (@run_isSome τ conv p cfg argv store out)
  have key : r.final.visited.Pairwise (· < ·) ∧
      ∀ i ∈ r.final.visited, 1 ≤ i ∧ i < argv.length := by
    by_cases hne : argv = []
    · subst hne
      simp only [run, List.length_nil, if_true, Option.some.injEq] at hr
      subst hr
      exact ⟨List.Pairwise.nil, fun i hi => by cases hi⟩
    · obtain ⟨_, u, hu, hfin⟩ := run_sound hr hne
      have hsorted := reachable_visited_sorted hu
      have hvis := reachable_visited hu
      rcases hfin with ⟨hge, _, hfinal⟩ | ⟨hlt, hst⟩
      · rw [hfinal]
        exact ⟨hsorted, fun i hi => ⟨(hvis.2 i hi).1, reachable_visited_lt hu i hi⟩⟩
      · rw [(step_stop_frame hst).2.1]
        refine ⟨?_, fun i hi => ?_⟩
        · rw [List.pairwise_append]
          refine ⟨hsorted, List.pairwise_singleton _ _, fun a ha b hb => ?_⟩
          rw [List.mem_singleton.mp hb]
          exact (hvis.2 a ha).2
        · rcases List.mem_append.mp hi with hi | hi
          · exact ⟨(hvis.2 i hi).1, reachable_visited_lt hu i hi⟩
          · rw [List.mem_singleton.mp hi]
            exact ⟨hvis.1, hlt⟩
  exact ⟨r, hr, key.1, key.2, increasing_length_le key.1 key.2⟩

/-- C15 on `prog --count 5`: the run yields a result after at most two iterations, and the
iteration on `--count` moves the cursor from 1 to 3. -/
theorem scan_terminates_witness :
    (∃ r, run unix_convention count_registry (sample_policies 1 2)
        ["prog".toList, "--count".toList, "5".toList] empty_memory [] = some r ∧
      r.final.visited.length ≤ 2) ∧
    ∀ s', Next unix_convention count_registry (sample_policies 1 2)
        ["prog".toList, "--count".toList, "5".toList]
        (initial ["prog".toList, "--count".toList, "5".toList] empty_memory) s' →
      s'.pc = 3 :=
  have h := @scan_terminates _ unix_convention count_registry (sample_policies 1 2)
    ["prog".toList, "--count".toList, "5".toList] empty_memory []
  ⟨h.1.elim fun r hr => ⟨r, hr.1, hr.2.2.2⟩,
    fun s' hn => (h.2.2 _ s' hn).1 ⟨rfl, rfl, by decide⟩⟩

end termination

section registry_invariant_claim

variable {conv : ConventionPolicy} {p : Parser τ}

/-- C16: in a parser built by registration calls, every spelling with parameter is a known
spelling and the known spellings are exactly the keys of the functor map. Hence every lookup
`value_functors[key]` made by `run`, under an exact-match token or under an extracted inline
name, finds a functor: `operator[]` never inserts a key, so the run leaves the registry as it
is, and no iteration and no run on a non-empty vector ends in the undefined call through a
missing functor. -/
theorem registry_invariant {ds : List (Declaration τ)} (hb : Built conv ds p) :
    (∀ k, p.modifiers_with_parameters k = true → p.known_modifiers k = true) ∧
    (∀ k, p.known_modifiers k = true ↔ (p.value_functors k).isSome = true) ∧
    (∀ tok k, dispatch_key conv p tok = some k → ∃ f, p.value_functors k = some f) ∧
    (∀ cfg argv (s : RunState τ) e t, step conv p cfg argv s = .stop e t → e ≠ .undefined) ∧
    (∀ cfg argv store out r, argv ≠ [] → run conv p cfg argv store out = some r →
      r.exit ≠ .undefined) := by
  obtain ⟨hk1, hk2, hk3⟩ := built_spec hb
  have hsub : ∀ k, p.modifiers_with_parameters k = true → p.known_modifiers k = true := by
    intro k hw
    obtain ⟨d, hd, _, hs⟩ := (hk2 k).mp hw
    exact (hk1 k).mpr ⟨d, hd, hs⟩
  have hfound : ∀ k, p.known_modifiers k = true → p.value_functors k ≠ none := by
    intro k hk hnone
    have := (hk3 k).mpr hk
    rw [hnone] at this
    cases this
  have hstep : ∀ cfg argv (s : RunState τ) e t,
      step conv p cfg argv s = .stop e t → e ≠ .undefined := by
    intro cfg argv s e t h
    rcases step_cases conv p cfg argv s with ⟨hk, _, _, hs⟩ | ⟨_, _, _, hs⟩ | ⟨hk, _, hs⟩ |
      ⟨_, _, hw, hs⟩ | ⟨_, _, _, hs⟩ | ⟨_, _, _, hs⟩ | ⟨_, _, _, hs⟩ <;> rw [hs] at h
    · rcases invoke_stop h with ⟨hn, _, _⟩ | ⟨_, _, _, rfl, _⟩
      · exact absurd hn (hfound _ hk)
      · simp
    · rcases (missing_stop h).2 with rfl | rfl <;> simp
    · rcases invoke_stop h with ⟨hn, _, _⟩ | ⟨_, _, _, rfl, _⟩
      · exact absurd hn (hfound _ hk)
      · simp
    · rcases invoke_stop h with ⟨hn, _, _⟩ | ⟨_, _, _, rfl, _⟩
      · exact absurd hn (hfound _ (hsub _ hw))
      · simp
    · rcases (handle_unknown_stop h).2 with ⟨_, rfl⟩ | ⟨_, rfl⟩ <;> simp
    · cases h
    · rcases (handle_unknown_stop h).2 with ⟨_, rfl⟩ | ⟨_, rfl⟩ <;> simp
  refine ⟨hsub, fun k => (hk3 k).symm, ?_, hstep, ?_⟩
  · intro tok k hd
    unfold dispatch_key at hd
    by_cases hk : p.known_modifiers tok = true
    · rw [if_pos hk] at hd
      cases hd
      exact Option.isSome_iff_exists.mp ((hk3 _).mpr hk)
    · rw [if_neg hk] at hd
      by_cases hw : conv.mayBeModifierWithParam tok = true ∧
          p.modifiers_with_parameters (conv.extractModifierName tok) = true
      · rw [if_pos hw] at hd
        cases hd
        exact Option.isSome_iff_exists.mp ((hk3 _).mpr (hsub _ hw.2))
      · rw [if_neg hw] at hd
        cases hd
  · intro cfg argv store out r hne h
    obtain ⟨_, u, _, hfin⟩ := run_sound h hne
    rcases hfin with ⟨_, hx, _⟩ | ⟨_, hst⟩
    · rw [hx]
      simp
    · exact hstep _ _ _ _ _ hst

/-- C16 on the parser with the one flag `count`: `--count` is a spelling with parameter, it
is known, and its functor is installed. -/
theorem registry_invariant_witness :
    count_registry.known_modifiers "--count".toList = true ∧
    (count_registry.value_functors "--count".toList).isSome = true ∧
    ∃ f, count_registry.value_functors "--count".toList = some f :=
  have h := @registry_invariant _ unix_convention count_registry _ built_count_registry
  ⟨h.1 _ rfl, (h.2.1 _).mp (h.1 _ rfl),
    h.2.2.1 ("--count".toList ++ '=' :: "5".toList) "--count".toList rfl⟩

end registry_invariant_claim

section report_and_terminate

variable {conv : ConventionPolicy} {p : Parser τ} {cfg : Policies} {argv : List parser_string}

/-- C17: when `run` ends by report-and-terminate, on a missing parameter under the policy
`ERROR` or on the unknown-token outcome `ERROR`, the caller's vector holds after the call
what it held before it, whether positional collection is enabled or not: what `app_args`
has accumulated is not published. -/
theorem report_leaves_output {store : Memory τ} {out : List parser_string} {r : RunResult τ}
    (h : run conv p cfg argv store out = some r)
    (he : r.exit = .reported "modifier missing argument" ∨
      r.exit = .reported "unknown modifier") :
    r.in_args = out := by
  have hne : argv ≠ [] := by
    rintro rfl
    simp only [run, List.length_nil, if_true, Option.some.injEq] at h
    subst h
    rcases he with he | he <;> cases he
  rw [(run_sound h hne).1]
  rcases he with he | he <;> rw [he] <;> exact publish_of_reported _ _ _

/-- C17 on `prog file key=value` with positional collection enabled and a handler that
answers `ERROR`: `prog` and `file` are accumulated, and the caller's vector still holds
`old`. -/
theorem report_leaves_output_witness :
    verbose_registry.expect_arguments = true ∧
    run unix_convention verbose_registry (sample_policies 1 1)
      ["prog".toList, "file".toList, "key=value".toList] empty_memory ["old".toList] =
      some report_result ∧
    report_result.final.app_args = ["prog".toList, "file".toList] ∧
    report_result.in_args = ["old".toList] :=
  ⟨rfl, rfl, rfl, @report_leaves_output _ unix_convention verbose_registry
    (sample_policies 1 1) ["prog".toList, "file".toList, "key=value".toList] empty_memory
    ["old".toList] report_result rfl (Or.inr rfl)⟩

end report_and_terminate

section presence_inline

variable {p : Parser τ} {cfg : Policies} {argv : List parser_string}

theorem find_first_of_append_from (s v : parser_string) (c : Char) (pos : Nat)
    (hc : c ∉ s.drop pos) (hp : pos ≤ s.length) :
    find_first_of (s ++ c :: v) c pos = some s.length := by
  unfold find_first_of
  rw [List.drop_append_of_le_length hp, List.indexOf_append_of_not_mem hc,
    List.indexOf_cons_self, List.length_drop]
  simp
  omega

theorem built_mixed_registry :
    Built unix_convention
      [Declaration.presence "ab=c".toList 0, Declaration.custom "ab".toList record_value]
      mixed_registry :=
  have h1 : Built unix_convention [Declaration.presence "ab=c".toList 0]
      (presence_registry [("ab=c".toList, 0)]) := Built.declare Built.new rfl
  Built.declare h1 rfl

/-- C18, as amended: under the UNIX convention, for a flag name with canonical spelling `s`
that has no `=` from index 2 on and is not declared value-requiring, a token `s=v` at the
cursor that is not itself a declared spelling is given to the unknown-token handler, whether
positional collection is enabled or not, in whatever state the loop is: the iteration calls
`deal` on the positional sequence collected so far and the token, and the answer of `deal`
alone decides what follows. On the answer `THROW_EXCEPTION` the iteration throws
`unknown modifier`, on the answer `ERROR` it reports `unknown modifier` and returns, on any
other answer it goes on to the next token. In the three cases it calls no functor, so the
storage (and with it the boolean bound to a presence flag `s`) keeps its value, and it leaves
`app_args` as it was. -/
theorem presence_flag_inline_form {ds : List (Declaration τ)} {s0 : RunState τ}
    {n s v : parser_string} (hb : Built unix_convention ds p)
    (hs : UNIXConvention.makeModifier n = some s) (hsep : '=' ∉ s.drop 2)
    (hnv : ∀ d ∈ ds, d.requires_value = true →
      unix_convention.makeModifier d.modifier ≠ some s)
    (htok : argv.getD s0.pc [] = s ++ '=' :: v)
    (hnk : ∀ d ∈ ds, unix_convention.makeModifier d.modifier ≠ some (s ++ '=' :: v)) :
    step unix_convention p cfg argv s0 = handle_unknown cfg (s ++ '=' :: v) (enter s0) ∧
    (cfg.deal s0.app_args (s ++ '=' :: v) = cfg.UnknownModifierPolicy_THROW_EXCEPTION →
      step unix_convention p cfg argv s0 = .stop (.thrown "unknown modifier")
        { pc := s0.pc, app_args := s0.app_args, store := s0.store,
          visited := s0.visited ++ [s0.pc], calls := s0.calls,
          dealt := s0.dealt ++ [s0.pc] }) ∧
    (cfg.deal s0.app_args (s ++ '=' :: v) = cfg.UnknownModifierPolicy_ERROR →
      step unix_convention p cfg argv s0 = .stop (.reported "unknown modifier")
        { pc := s0.pc, app_args := s0.app_args, store := s0.store,
          visited := s0.visited ++ [s0.pc], calls := s0.calls,
          dealt := s0.dealt ++ [s0.pc] }) ∧
    (cfg.deal s0.app_args (s ++ '=' :: v) ≠ cfg.UnknownModifierPolicy_THROW_EXCEPTION →
      cfg.deal s0.app_args (s ++ '=' :: v) ≠ cfg.UnknownModifierPolicy_ERROR →
      step unix_convention p cfg argv s0 = .next
        { pc := s0.pc + 1, app_args := s0.app_args, store := s0.store,
          visited := s0.visited ++ [s0.pc], calls := s0.calls,
          dealt := s0.dealt ++ [s0.pc] }) ∧
    (∀ s', step unix_convention p cfg argv s0 = .next s' →
      s'.calls = s0.calls ∧ s'.store = s0.store ∧ s'.app_args = s0.app_args ∧
        s'.dealt = s0.dealt ++ [s0.pc]) ∧
    (∀ e s', step unix_convention p cfg argv s0 = .stop e s' →
      s'.calls = s0.calls ∧ s'.store = s0.store ∧ s'.app_args = s0.app_args ∧
        s'.dealt = s0.dealt ++ [s0.pc]) := by
  obtain ⟨hk1, hk2, _⟩ := built_spec hb
  have hlen : 2 ≤ s.length := (makeModifier_spec hs).2.1
  have hfind := find_first_of_append_from s v '=' 2 hsep hlen
  have hm : unix_convention.mayBeModifierWithParam (argv.getD s0.pc []) = true := by
    rw [htok]
    show (find_first_of (s ++ '=' :: v) '=' 2).isSome = true
    rw [hfind]
    rfl
  have hname : unix_convention.extractModifierName (argv.getD s0.pc []) = s := by
    rw [htok]
    show substr (s ++ '=' :: v) 0
      (match find_first_of (s ++ '=' :: v) '=' 2 with
        | some i => i
        | none => size_minus_one (s ++ '=' :: v)) = s
    rw [hfind]
    simp [substr]
  have hk : p.known_modifiers (argv.getD s0.pc []) = false := by
    rw [← Bool.not_eq_true, hk1, htok]
    rintro ⟨d, hd, hsp⟩
    exact hnk d hd hsp
  have hw : p.modifiers_with_parameters
      (unix_convention.extractModifierName (argv.getD s0.pc [])) = false := by
    rw [← Bool.not_eq_true, hk2, hname]
    rintro ⟨d, hd, hv, hsp⟩
    exact hnv d hd hv hsp
  have hstep := @step_suspicious_eq τ unix_convention p cfg argv s0 hk hm hw
  rw [htok] at hstep
  refine ⟨hstep, fun hd => ?_, fun hd => ?_, fun hd1 hd2 => ?_, fun s' h => ?_,
    fun e s' h => ?_⟩
  · rw [hstep, handle_unknown_eq]
    simp only [enter_app_args]
    rw [if_pos hd]
    rfl
  · have hd' : cfg.deal s0.app_args (s ++ '=' :: v) ≠
        cfg.UnknownModifierPolicy_THROW_EXCEPTION := by
      rw [hd]
      exact fun hc => cfg.unknown_labels hc.symm
    rw [hstep, handle_unknown_eq]
    simp only [enter_app_args]
    rw [if_neg hd', if_pos hd]
    rfl
  · rw [hstep, handle_unknown_eq]
    simp only [enter_app_args]
    rw [if_neg hd1, if_neg hd2]
    rfl
  · rw [hstep] at h
    obtain ⟨_, _, rfl⟩ := handle_unknown_next h
    exact ⟨rfl, rfl, rfl, rfl⟩
  · rw [hstep] at h
    rw [(handle_unknown_stop h).1]
    exact ⟨rfl, rfl, rfl, rfl⟩

/-- C18 on `prog --verbose=1` with the presence flag `verbose`: the token goes to the
handler, and the answer of the handler decides. With a handler that answers `ERROR` the
iteration reports `unknown modifier` and `run` returns, with a handler that answers
`THROW_EXCEPTION` it throws, with a handler that answers `continue` the loop goes on; nothing
is called and the boolean of `verbose` stays false. -/
theorem presence_flag_inline_form_witness :
    step unix_convention verbose_registry (sample_policies 1 1)
        ["prog".toList, "--verbose".toList ++ '=' :: "1".toList]
        (initial ["prog".toList, "--verbose".toList ++ '=' :: "1".toList] empty_memory) =
      .stop (.reported "unknown modifier")
        { pc := 1, app_args := ["prog".toList], store := empty_memory, visited := [1],
          calls := [], dealt := [1] } ∧
    step unix_convention verbose_registry (sample_policies 1 0)
        ["prog".toList, "--verbose".toList ++ '=' :: "1".toList]
        (initial ["prog".toList, "--verbose".toList ++ '=' :: "1".toList] empty_memory) =
      .stop (.thrown "unknown modifier")
        { pc := 1, app_args := ["prog".toList], store := empty_memory, visited := [1],
          calls := [], dealt := [1] } ∧
    step unix_convention verbose_registry (sample_policies 1 2)
        ["prog".toList, "--verbose".toList ++ '=' :: "1".toList]
        (initial ["prog".toList, "--verbose".toList ++ '=' :: "1".toList] empty_memory) =
      .next { pc := 2, app_args := ["prog".toList], store := empty_memory, visited := [1],
              calls := [], dealt := [1] } ∧
    empty_memory.bools 0 = false :=
  have herror := @presence_flag_inline_form _ verbose_registry (sample_policies 1 1)
    ["prog".toList, "--verbose".toList ++ '=' :: "1".toList] _
    (initial ["prog".toList, "--verbose".toList ++ '=' :: "1".toList] empty_memory)
    "verbose".toList "--verbose".toList "1".toList built_verbose_registry rfl (by decide)
    (by decide) rfl (by decide)
  have hthrow := @presence_flag_inline_form _ verbose_registry (sample_policies 1 0)
    ["prog".toList, "--verbose".toList ++ '=' :: "1".toList] _
    (initial ["prog".toList, "--verbose".toList ++ '=' :: "1".toList] empty_memory)
    "verbose".toList "--verbose".toList "1".toList built_verbose_registry rfl (by decide)
    (by decide) rfl (by decide)
  have h := @presence_flag_inline_form _ verbose_registry (sample_policies 1 2)
    ["prog".toList, "--verbose".toList ++ '=' :: "1".toList] _
    (initial ["prog".toList, "--verbose".toList ++ '=' :: "1".toList] empty_memory)
    "verbose".toList "--verbose".toList "1".toList built_verbose_registry rfl (by decide)
    (by decide) rfl (by decide)
  ⟨herror.2.2.1 rfl, hthrow.2.1 rfl, h.2.2.2.1 (by decide) (by decide), rfl⟩

/-- C18 as stated fails when the spelling of the presence flag itself holds an `=` from
index 2 on. With the presence flag `ab=c` (spelling `--ab=c`, not value-requiring) and the
value-requiring flag `ab` (spelling `--ab`), the token `--ab=c=v`, which is `--ab=c`
followed by `=` and `v` and is not a declared spelling, is not given to the handler: its
extracted name is `--ab`, and the functor of `--ab` is called with the raw value `c=v`. The
handler here answers `ERROR` to whatever it is given, so a call of it would end `run` with
the report `unknown modifier`; `run` ends normally instead. -/
theorem presence_flag_inline_counterexample :
    Built unix_convention
      [Declaration.presence "ab=c".toList 0, Declaration.custom "ab".toList record_value]
      mixed_registry ∧
    unix_convention.makeModifier "ab=c".toList = some "--ab=c".toList ∧
    mixed_registry.modifiers_with_parameters "--ab=c".toList = false ∧
    mixed_registry.known_modifiers ("--ab=c".toList ++ '=' :: "v".toList) = false ∧
    (sample_policies 1 1).deal ["prog".toList] ("--ab=c".toList ++ '=' :: "v".toList) =
      (sample_policies 1 1).UnknownModifierPolicy_ERROR ∧
    (run unix_convention mixed_registry (sample_policies 1 1)
      ["prog".toList, "--ab=c".toList ++ '=' :: "v".toList] empty_memory []).map
        (fun r => (r.exit, r.final.visited, r.final.dealt, r.final.calls, r.final.store.rest)) =
      some (.returned, [1], [], [("--ab".toList, some "c=v".toList)], ["c=v".toList]) :=
  ⟨built_mixed_registry, rfl, rfl, rfl, rfl, rfl⟩

end presence_inline

end DU2
